import Mathlib

/-! # bubble: dependency graph and generation model

A shallow embedding of `graph.go` and of `genData` in `gen.go`, followed by the
properties of the construction order that the generator relies on.

Conventions of the embedding:

* a Go `map[K]V` is an association list with distinct keys, read with `mapGet` and
  written with `mapSet`; the order of the list carries no meaning;
* the order in which Go ranges over a map is unspecified: the input map of `genData` is
  given as the list of its entries in the order of the range, and the range over the
  registry is an explicit parameter (`RangeOrder`);
* a `panic` is an `Except.error`;
* the recursion of `traverse` is bounded by a fuel argument: `none` stands for a call
  that does not return.
-/

namespace Bubble

/-! ## Go maps -/

/-- Lookup `m[k]` with the comma-ok result. -/
def mapGet {K V : Type} [DecidableEq K] : List (K × V) → K → Option V
  | [], _ => none
  | (k1, v) :: m, k => if k1 = k then some v else mapGet m k

/-- Assignment `m[k] = v`: replaces the entry of an existing key, adds one otherwise. -/
def mapSet {K V : Type} [DecidableEq K] : List (K × V) → K → V → List (K × V)
  | [], k, v => [(k, v)]
  | (k1, v1) :: m, k, v => if k1 = k then (k, v) :: m else (k1, v1) :: mapSet m k v

/-! ## graph.go -/

/-- The struct `graph[T]`: `edges` is a `map[T][]T`, `vis` a `map[T]struct{}` used as a
set (only membership is ever read). -/
structure graph (T : Type) where
  vertices : List T
  edges : List (T × List T)
  vis : List T
  stack : List T

/-- Constructor `newGraph`: empty maps, nil slices. -/
def newGraph (T : Type) : graph T :=
  { vertices := [], edges := [], vis := [], stack := [] }

/-- The expression `g.edges[u]`: the nil slice for a missing key. -/
def graph.edgesOf {T : Type} [DecidableEq T] (g : graph T) (u : T) : List T :=
  (mapGet g.edges u).getD []

/-- Method `addVertex`: appends, also when `u` is already present. -/
def graph.addVertex {T : Type} (g : graph T) (u : T) : graph T :=
  { g with vertices := g.vertices ++ [u] }

/-- Method `addEdge`: `g.edges[u] = append(g.edges[u], v)`. -/
def graph.addEdge {T : Type} [DecidableEq T] (g : graph T) (u v : T) : graph T :=
  { g with edges := mapSet g.edges u (g.edgesOf u ++ [v]) }

/-- The loop `for _, v := range vs { if _, ok := g.vis[v]; !ok { g.traverse(v) } }`,
shared by `traverse` (over `g.edges[u]`) and `sort` (over `g.vertices`); `f` is the
call `g.traverse`. -/
def graph.visitEach {T : Type} [DecidableEq T] (f : graph T → T → Option (graph T)) :
    List T → graph T → Option (graph T)
  | [], g => some g
  | v :: vs, g =>
    if v ∈ g.vis then graph.visitEach f vs g
    else (f g v).bind (graph.visitEach f vs)

/-- Method `traverse`: mark `u`, visit the unvisited successors in order, push `u`.
The first argument bounds the depth of the recursion. -/
def graph.traverse {T : Type} [DecidableEq T] : Nat → graph T → T → Option (graph T)
  | 0, _, _ => none
  | n + 1, g, u =>
    (graph.visitEach (graph.traverse n) (g.edgesOf u) { g with vis := u :: g.vis }).map
      fun g1 => { g1 with stack := g1.stack ++ [u] }

/-- The library call `slices.SortStableFunc`: a stable sort, here by insertion; an
element is placed before the first one it does not compare greater than. -/
def sortStableFunc {T : Type} (cmp : T → T → Int) (l : List T) : List T :=
  l.insertionSort (fun a b => cmp a b ≤ 0)

/-- A recursion depth that `sort` cannot exceed: every nested call of `traverse` marks
a key that is a vertex or the target of an edge. -/
def graph.fuel {T : Type} (g : graph T) : Nat :=
  g.vertices.length + (g.edges.map (fun e => e.2.length)).sum + 1

/-- Method `sort` with an explicit recursion bound; returns `g.stack`. -/
def graph.sortWith {T : Type} [DecidableEq T] (n : Nat) (g : graph T) (cmp : T → T → Int) :
    Option (List T) :=
  let g1 := { g with vertices := sortStableFunc cmp g.vertices }
  (graph.visitEach (graph.traverse n) g1.vertices g1).map (fun g2 => g2.stack)

/-- Method `sort`. -/
def graph.sort {T : Type} [DecidableEq T] (g : graph T) (cmp : T → T → Int) : Option (List T) :=
  g.sortWith g.fuel cmp

/-- A call made on a graph after `newGraph`. -/
inductive GraphOp (T : Type) where
  | addVertex (u : T)
  | addEdge (u v : T)

/-- Run one call. -/
def GraphOp.run {T : Type} [DecidableEq T] (g : graph T) : GraphOp T → graph T
  | .addVertex u => g.addVertex u
  | .addEdge u v => g.addEdge u v

/-- The graph obtained from `newGraph` by a sequence of calls. -/
def buildGraph {T : Type} [DecidableEq T] (ops : List (GraphOp T)) : graph T :=
  ops.foldl GraphOp.run (newGraph T)

/-- The edge relation `u → v` of an edge map. -/
def Edge {T : Type} [DecidableEq T] (E : List (T × List T)) (u v : T) : Prop :=
  v ∈ (mapGet E u).getD []

instance Edge.decidable {T : Type} [DecidableEq T] (E : List (T × List T)) (u v : T) :
    Decidable (Edge E u v) :=
  inferInstanceAs (Decidable (v ∈ (mapGet E u).getD []))

/-- A comparator of a total order under which only equal keys compare as 0: the sign of
`cmp a b` is opposite to that of `cmp b a`, not-greater is transitive, and `cmp a b = 0`
exactly when `a = b`. -/
def TotalCmp {T : Type} (cmp : T → T → Int) : Prop :=
  (∀ a b, cmp a b < 0 ↔ 0 < cmp b a) ∧
  (∀ a b c, cmp a b ≤ 0 → cmp b c ≤ 0 → cmp a c ≤ 0) ∧
  (∀ a b, cmp a b = 0 ↔ a = b)

/-- No key reaches itself along one or more edges. -/
def graph.Acyclic {T : Type} [DecidableEq T] (g : graph T) : Prop :=
  ∀ u, ¬ Relation.TransGen (Edge g.edges) u u

/-- Every successor of an element of `l` stands at a strictly smaller index of `l`. -/
def DepFirst {T : Type} [DecidableEq T] (E : List (T × List T)) (l : List T) : Prop :=
  ∀ (i : Nat) (u : T), l[i]? = some u → ∀ v, Edge E u v → ∃ j : Nat, j < i ∧ l[j]? = some v

/-! ## gen.go -/

/-- The constants of `reflect.Kind`. -/
inductive Kind where
  | Invalid | Bool | Int | Int8 | Int16 | Int32 | Int64
  | Uint | Uint8 | Uint16 | Uint32 | Uint64 | Uintptr
  | Float32 | Float64 | Complex64 | Complex128
  | Array | Chan | Func | Interface | Map | Ptr | Slice | String | Struct | UnsafePointer
  deriving DecidableEq, Repr

/-- A `reflect.Type` as far as the generator reads it. `ptr elem` is the pointer type
`*elem`. `other` is any type that is not a pointer and carries what `Kind()` (never
`Ptr`), `PkgPath()`, `Name()` and `String()` report for it. -/
inductive RType where
  | ptr (elem : RType)
  | other (kind : Kind) (pkgPath name string : String)
  deriving DecidableEq, Repr

/-- Method `Kind()`. -/
def RType.kind : RType → Kind
  | .ptr _ => Kind.Ptr
  | .other k _ _ _ => k

/-- Method `Elem()`; Go panics for a type without element, and the generator calls it on
pointers only. -/
def RType.elem : RType → RType
  | .ptr e => e
  | .other k p n s => .other k p n s

/-- Method `PkgPath()`: empty for an unnamed type such as a pointer. -/
def RType.pkgPath : RType → String
  | .ptr _ => ""
  | .other _ p _ _ => p

/-- Method `Name()`: empty for an unnamed type such as a pointer. -/
def RType.name : RType → String
  | .ptr _ => ""
  | .other _ _ n _ => n

/-- Method `String()`. -/
def RType.string : RType → String
  | .ptr e => "*" ++ e.string
  | .other _ _ _ s => s

/-- The variable `errType`: the predeclared interface `error`. -/
def errType : RType := .other Kind.Interface "" "error" "error"

/-- What `reflect.TypeOf(provFn)` reports of a map value: its kind and, for a function,
the parameter types `In(j)` and the result types `Out(j)`. -/
structure ProvType where
  kind : Kind
  ins : List RType
  outs : List RType
  deriving DecidableEq, Repr

/-- The struct `provideFunc`. -/
structure provideFunc where
  Params : List String
  Returns : List String
  Args : List String
  ShouldReturnError : Bool
  deriving DecidableEq, Repr

/-- The struct `serviceDef`. -/
structure serviceDef where
  Name : String
  Typ : RType
  dependencies : List String
  ProvFn : provideFunc
  deriving DecidableEq, Repr

/-- The struct `tmplData`. -/
structure tmplData where
  PkgName : String
  Imports : List (String × String)
  Services : List serviceDef
  deriving DecidableEq, Repr

/-- The panics of `genData`: one constructor for each `panic(fmt.Errorf(...))`, with the
values formatted into the message, and one for each run-time error. -/
inductive Err where
  /-- Run-time error: `t.Kind()` on the nil `reflect.Type` of a nil map value. -/
  | nilType
  /-- Message "expected provider '%s' to be a func but got %s". -/
  | notFunc (name : String) (kind : Kind)
  /-- Message "expected provider '%s' to return at least one value". -/
  | noReturn (name : String)
  /-- Message "expected 2nd return value of provider '%s' to be an error". -/
  | secondNotError (name : String)
  /-- Message "expected provider '%s' to return an interface or struct but got %s". -/
  | returnKind (name : String) (kind : Kind)
  /-- Message "expected dependency at index %d of provider '%s' to be an interface or
  struct but got %s". -/
  | dependencyKind (index : Nat) (name : String) (kind : Kind)
  /-- Run-time error: slice bounds out of range, in the import alias. -/
  | sliceBounds
  /-- Message "expected dependency '%s' of provider '%s' to be a valid service". -/
  | unknownDependency (dep name : String)
  /-- Run-time error: `*svcs[svc]` for a key that the registry does not hold. -/
  | nilService
  /-- The call of `sort` does not return. -/
  | sortDiverges
  deriving DecidableEq, Repr

instance Except.decidableEq {ε α : Type} [DecidableEq ε] [DecidableEq α] :
    DecidableEq (Except ε α)
  | .ok a, .ok b =>
    if h : a = b then isTrue (congrArg Except.ok h) else isFalse (fun h1 => h (Except.ok.inj h1))
  | .error a, .error b =>
    if h : a = b then isTrue (congrArg Except.error h)
    else isFalse (fun h1 => h (Except.error.inj h1))
  | .ok _, .error _ => isFalse (fun h => Except.noConfusion h)
  | .error _, .ok _ => isFalse (fun h => Except.noConfusion h)

/-- Function `isValidKind`. -/
def isValidKind (t : RType) : Bool :=
  let t1 := if t.kind = Kind.Ptr then t.elem else t
  t1.kind == Kind.Interface || t1.kind == Kind.Struct

/-- Function `stringifyType`. -/
def stringifyType (t : RType) : String :=
  if t.kind = Kind.Ptr then "*" ++ t.elem.pkgPath ++ "." ++ t.elem.name
  else t.pkgPath ++ "." ++ t.name

/-- The comparator handed to `sort`: `cmp.Compare` on strings, which orders them byte
by byte, that is by code points. -/
def cmpCompare (s1 s2 : String) : Int :=
  if s1.toList < s2.toList then -1 else if s2.toList < s1.toList then 1 else 0

/-- The expression `s[:strings.IndexRune(s, '.')]`: the part of `s` before its first
dot; without a dot the index is -1 and the slice expression panics. -/
def beforeDot (s : String) : Except Err String :=
  if '.' ∈ s.toList then .ok (String.mk (s.toList.takeWhile (fun c => c != '.')))
  else .error Err.sliceBounds

/-- The `switch t.NumOut()` of `genData`; the result is `ShouldReturnError`. -/
def checkReturns (name : String) : List RType → Except Err Bool
  | [] => .error (Err.noReturn name)
  | [_, e] => if e ≠ errType then .error (Err.secondNotError name) else .ok true
  | _ => .ok false

/-- The loop over `t.In(j)`, from index `j` on, for the provider `name` producing
`svcType`. -/
def addDeps (name : String) (svcType : RType) :
    Nat → List RType → graph String × serviceDef → Except Err (graph String × serviceDef)
  | _, [], st => .ok st
  | j, t :: ts, (g, svc) =>
    if !isValidKind t then .error (Err.dependencyKind j name t.kind)
    else
      addDeps name svcType (j + 1) ts
        (g.addEdge (stringifyType svcType) (stringifyType t),
         { svc with
           ProvFn := { svc.ProvFn with Params := svc.ProvFn.Params ++ [t.string] }
           dependencies := svc.dependencies ++ [stringifyType t] })

/-- The variables that the first loop of `genData` updates. -/
structure Registry where
  svcs : List (String × serviceDef)
  Imports : List (String × String)
  g : graph String

/-- The state before the first loop. -/
def Registry.init : Registry :=
  { svcs := [], Imports := [("fmt", ""), ("context", "")], g := newGraph String }

/-- The body of the first loop of `genData`, for the entry `name, provFn`; `none` is a
nil map value. -/
def register (st : Registry) (name : String) (provFn : Option ProvType) :
    Except Err Registry :=
  match provFn with
  | none => .error Err.nilType
  | some t =>
    if t.kind ≠ Kind.Func then .error (Err.notFunc name t.kind)
    else
      match checkReturns name t.outs, t.outs with
      | .error e, _ => .error e
      | .ok _, [] => .error (Err.noReturn name)
      | .ok shouldReturnError, svcType :: _ =>
        if !isValidKind svcType then .error (Err.returnKind name svcType.kind)
        else
          let svc : serviceDef :=
            { Name := name, Typ := svcType, dependencies := [],
              ProvFn :=
                { Params := [],
                  Returns := [svcType.string] ++ (if shouldReturnError then ["error"] else []),
                  Args := [], ShouldReturnError := shouldReturnError } }
          match addDeps name svcType 0 t.ins (st.g.addVertex (stringifyType svcType), svc) with
          | .error e => .error e
          | .ok (g2, svc2) =>
            let svcType1 := if svcType.kind = Kind.Ptr then svcType.elem else svcType
            match beforeDot svcType1.string with
            | .error e => .error e
            | .ok pkg =>
              .ok { svcs := mapSet st.svcs (stringifyType svcType) svc2,
                    Imports := mapSet st.Imports svcType1.pkgPath pkg,
                    g := g2 }

/-- The first loop of `genData` over the entries in the order of the range. -/
def registerAll : Registry → List (String × Option ProvType) → Except Err Registry
  | st, [] => .ok st
  | st, (name, provFn) :: rest =>
    match register st name provFn with
    | .error e => .error e
    | .ok st1 => registerAll st1 rest

/-- The inner loop of the resolution pass: the remaining dependencies of `svc`. -/
def resolveDeps (svcs : List (String × serviceDef)) :
    serviceDef → List String → Except Err serviceDef
  | svc, [] => .ok svc
  | svc, dep :: deps =>
    match mapGet svcs dep with
    | none => .error (Err.unknownDependency dep svc.Name)
    | some d =>
      resolveDeps svcs
        { svc with ProvFn := { svc.ProvFn with Args := svc.ProvFn.Args ++ [d.Name] } } deps

/-- The resolution pass over the registry entries in the order of the range; the result
is the registry with `Args` filled in. Only `Args` is written and only `Name` and
`dependencies` are read, so the reads are made in the registry as the first loop left
it. -/
def resolveAll (svcs : List (String × serviceDef)) :
    List (String × serviceDef) → Except Err (List (String × serviceDef))
  | [] => .ok []
  | (k, svc) :: rest =>
    match resolveDeps svcs svc svc.dependencies with
    | .error e => .error e
    | .ok svc1 =>
      match resolveAll svcs rest with
      | .error e => .error e
      | .ok done => .ok ((k, svc1) :: done)

/-- The last loop of `genData`: `dat.Services = append(dat.Services, *svcs[svc])`. -/
def appendServices (svcs : List (String × serviceDef)) :
    List String → Except Err (List serviceDef)
  | [] => .ok []
  | t :: ts =>
    match mapGet svcs t with
    | none => .error Err.nilService
    | some s =>
      match appendServices svcs ts with
      | .error e => .error e
      | .ok ss => .ok (s :: ss)

/-- An order in which Go may range over the registry: any rearrangement of its
entries. -/
def RangeOrder : Type :=
  { f : List (String × serviceDef) → List (String × serviceDef) // ∀ m, (f m).Perm m }

/-- The range that follows the order of insertion. -/
def RangeOrder.insertion : RangeOrder := ⟨fun m => m, fun m => List.Perm.refl m⟩

/-- The range that follows the reverse order of insertion. -/
def RangeOrder.reversed : RangeOrder := ⟨fun m => m.reverse, fun m => List.reverse_perm m⟩

/-- Function `genData`. `provFns` lists the entries of the map in the order of the first
range, `order` is the order of the range over `svcs`. -/
def genData (pkgName : String) (provFns : List (String × Option ProvType))
    (order : RangeOrder) : Except Err tmplData :=
  match registerAll Registry.init provFns with
  | .error e => .error e
  | .ok st =>
    match resolveAll st.svcs (order.1 st.svcs) with
    | .error e => .error e
    | .ok svcs =>
      match st.g.sort cmpCompare with
      | none => .error Err.sortDiverges
      | some topoOrd =>
        match appendServices svcs topoOrd with
        | .error e => .error e
        | .ok services =>
          .ok { PkgName := pkgName, Imports := st.Imports, Services := services }

/-! ## Example providers -/

/-- The type `*p.X`, for a struct `X` declared in the package `p` of import path `ex/p`. -/
def ptrX : RType := .ptr (.other Kind.Struct "ex/p" "X" "p.X")

/-- The type `*p.Y`, for a struct `Y` of the same package. -/
def ptrY : RType := .ptr (.other Kind.Struct "ex/p" "Y" "p.Y")

/-- The type `*p.Z`, for a struct `Z` of the same package. -/
def ptrZ : RType := .ptr (.other Kind.Struct "ex/p" "Z" "p.Z")

/-- The predeclared type `int`. -/
def intType : RType := .other Kind.Int "" "int" "int"

/-- A map value that is a function with the given parameter and result types. -/
def funcOf (ins outs : List RType) : Option ProvType :=
  some { kind := Kind.Func, ins := ins, outs := outs }

/-- The map `{"A": func() *p.X, "B": func(*p.X) *p.Y}`, ranged over from `B`. -/
def mapBA : List (String × Option ProvType) :=
  [("B", funcOf [ptrX] [ptrY]), ("A", funcOf [] [ptrX])]

/-- The services of the model of `mapBA`. -/
def servicesAB : List serviceDef :=
  [{ Name := "A", Typ := ptrX, dependencies := [],
     ProvFn := { Params := [], Returns := ["*p.X"], Args := [], ShouldReturnError := false } },
   { Name := "B", Typ := ptrY, dependencies := ["*ex/p.X"],
     ProvFn := { Params := ["*p.X"], Returns := ["*p.Y"], Args := ["A"],
                 ShouldReturnError := false } }]

/-- The model of `mapBA`. -/
def modelAB : tmplData :=
  { PkgName := "di", Imports := [("fmt", ""), ("context", ""), ("ex/p", "p")],
    Services := servicesAB }

/-- The cyclic map `{"A": func(*p.Y) *p.X, "B": func(*p.X) *p.Y}`. -/
def mapCycle : List (String × Option ProvType) :=
  [("A", funcOf [ptrY] [ptrX]), ("B", funcOf [ptrX] [ptrY])]

/-- The model that `genData` returns for `mapCycle`: `B` stands before `A` and takes `A`. -/
def modelCycle : tmplData :=
  { PkgName := "di", Imports := [("fmt", ""), ("context", ""), ("ex/p", "p")],
    Services :=
      [{ Name := "B", Typ := ptrY, dependencies := ["*ex/p.X"],
         ProvFn := { Params := ["*p.X"], Returns := ["*p.Y"], Args := ["A"],
                     ShouldReturnError := false } },
       { Name := "A", Typ := ptrX, dependencies := ["*ex/p.Y"],
         ProvFn := { Params := ["*p.Y"], Returns := ["*p.X"], Args := ["B"],
                     ShouldReturnError := false } }] }

/-- The map `{"A": func(*p.X) *p.X}` of a provider that takes its own produced type. -/
def mapSelf : List (String × Option ProvType) :=
  [("A", funcOf [ptrX] [ptrX])]

/-- The model that `genData` returns for `mapSelf`. -/
def modelSelf : tmplData :=
  { PkgName := "di", Imports := [("fmt", ""), ("context", ""), ("ex/p", "p")],
    Services :=
      [{ Name := "A", Typ := ptrX, dependencies := ["*ex/p.X"],
         ProvFn := { Params := ["*p.X"], Returns := ["*p.X"], Args := ["A"],
                     ShouldReturnError := false } }] }

/-- The map `{"A": func() *p.X, "B": func() *p.X}` of two providers of the same type. -/
def mapDup : List (String × Option ProvType) :=
  [("A", funcOf [] [ptrX]), ("B", funcOf [] [ptrX])]

/-- The model that `genData` returns for `mapDup` ranged over from `A`: only `B` is left. -/
def modelDup : tmplData :=
  { PkgName := "di", Imports := [("fmt", ""), ("context", ""), ("ex/p", "p")],
    Services :=
      [{ Name := "B", Typ := ptrX, dependencies := [],
         ProvFn := { Params := [], Returns := ["*p.X"], Args := [],
                     ShouldReturnError := false } }] }

/-- The map `{"A": func() (*p.X, int, int)}` of a provider with three results. -/
def mapThree : List (String × Option ProvType) :=
  [("A", funcOf [] [ptrX, intType, intType])]

/-- The model that `genData` returns for `mapThree`. -/
def modelThree : tmplData :=
  { PkgName := "di", Imports := [("fmt", ""), ("context", ""), ("ex/p", "p")],
    Services :=
      [{ Name := "A", Typ := ptrX, dependencies := [],
         ProvFn := { Params := [], Returns := ["*p.X"], Args := [],
                     ShouldReturnError := false } }] }

/-- The map `{"A": func()}` of a provider without result. -/
def mapNoReturn : List (String × Option ProvType) :=
  [("A", funcOf [] [])]

/-- The map `{"A": func() (*p.X, int)}` of a provider whose second result is not `error`. -/
def mapSecondInt : List (String × Option ProvType) :=
  [("A", funcOf [] [ptrX, intType])]

/-- The map `{"A": func() (*p.X, error)}`. -/
def mapWithError : List (String × Option ProvType) :=
  [("A", funcOf [] [ptrX, errType])]

/-- The map `{"A": func(*p.Z) error}`: the provider returns the predeclared interface
`error` and takes a `*p.Z` that no provider produces. -/
def mapErrorNeedsZ : List (String × Option ProvType) :=
  [("A", funcOf [ptrZ] [errType])]

/-- The map `{"A": func() error}`: a single provider, without parameters, that returns the
predeclared interface `error`. -/
def mapError : List (String × Option ProvType) :=
  [("A", funcOf [] [errType])]

/-- The anonymous struct type `struct{}`: no package path, no name. -/
def anonStruct : RType := .other Kind.Struct "" "" "struct {}"

/-- The map `{"A": func() (struct{}, error)}`. -/
def mapAnon : List (String × Option ProvType) :=
  [("A", funcOf [] [anonStruct, errType])]

/-- The map `{"A": func(*p.Z) *p.X, "M": func() *p.Y, "Z": func() *p.Z}`: `M` and `Z`
take no parameter, and `A` takes the type that `Z` produces. -/
def mapAMZ : List (String × Option ProvType) :=
  [("A", funcOf [ptrZ] [ptrX]), ("M", funcOf [] [ptrY]), ("Z", funcOf [] [ptrZ])]

/-- The service of `Z` in the model of `mapAMZ`. -/
def svcZ : serviceDef :=
  { Name := "Z", Typ := ptrZ, dependencies := [],
    ProvFn := { Params := [], Returns := ["*p.Z"], Args := [], ShouldReturnError := false } }

/-- The service of `A` in the model of `mapAMZ`. -/
def svcA : serviceDef :=
  { Name := "A", Typ := ptrX, dependencies := ["*ex/p.Z"],
    ProvFn := { Params := ["*p.Z"], Returns := ["*p.X"], Args := ["Z"],
                ShouldReturnError := false } }

/-- The service of `M` in the model of `mapAMZ`. -/
def svcM : serviceDef :=
  { Name := "M", Typ := ptrY, dependencies := [],
    ProvFn := { Params := [], Returns := ["*p.Y"], Args := [], ShouldReturnError := false } }

/-- The model that `genData` returns for `mapAMZ`: `Z`, `A`, `M`. -/
def modelAMZ : tmplData :=
  { PkgName := "di", Imports := [("fmt", ""), ("context", ""), ("ex/p", "p")],
    Services := [svcZ, svcA, svcM] }

/-- The map `{"M": func() *p.Y, "Z": func() *p.Z}` of two providers without parameter,
ranged over from `Z`. -/
def mapZM : List (String × Option ProvType) :=
  [("Z", funcOf [] [ptrZ]), ("M", funcOf [] [ptrY])]

/-- The model that `genData` returns for `mapZM`: `M`, `Z`. -/
def modelMZ : tmplData :=
  { PkgName := "di", Imports := [("fmt", ""), ("context", ""), ("ex/p", "p")],
    Services := [svcM, svcZ] }

/-- The model that `genData` returns for `mapWithError`. -/
def modelWithError : tmplData :=
  { PkgName := "di", Imports := [("fmt", ""), ("context", ""), ("ex/p", "p")],
    Services :=
      [{ Name := "A", Typ := ptrX, dependencies := [],
         ProvFn := { Params := [], Returns := ["*p.X", "error"], Args := [],
                     ShouldReturnError := true } }] }

/-- The map `{"A": func(int) *p.X}` of a provider with a parameter of a primitive type. -/
def mapIntParam : List (String × Option ProvType) :=
  [("A", funcOf [intType] [ptrX])]

/-! ## Vocabulary of the properties -/

/-- The type identity that a provider produces: `stringifyType` of its first result. -/
def producedId (p : Option ProvType) : Option String :=
  match p with
  | none => none
  | some t => t.outs.head?.map stringifyType

/-- The type identities of the parameters of a provider. -/
def paramIds (p : Option ProvType) : List String :=
  match p with
  | none => []
  | some t => t.ins.map stringifyType

/-- The keys of a Go map are distinct. -/
def DistinctNames (provFns : List (String × Option ProvType)) : Prop :=
  (provFns.map Prod.fst).Nodup

/-- The produced type identities are pairwise distinct. -/
def DistinctIds (provFns : List (String × Option ProvType)) : Prop :=
  (provFns.filterMap (fun e => producedId e.2)).Nodup

instance DistinctNames.decidable (provFns : List (String × Option ProvType)) :
    Decidable (DistinctNames provFns) :=
  inferInstanceAs (Decidable (provFns.map Prod.fst).Nodup)

instance DistinctIds.decidable (provFns : List (String × Option ProvType)) :
    Decidable (DistinctIds provFns) :=
  inferInstanceAs
    (Decidable (provFns.filterMap (fun (e : String × Option ProvType) => producedId e.2)).Nodup)

/-- The produced type identities in the order of the entries. -/
def ids (provFns : List (String × Option ProvType)) : List String :=
  provFns.filterMap (fun e => producedId e.2)

/-- Every parameter type identity is produced by some provider of the map. -/
def Registered (provFns : List (String × Option ProvType)) : Prop :=
  ∀ e ∈ provFns, ∀ b ∈ paramIds e.2, b ∈ ids provFns

instance Registered.decidable (provFns : List (String × Option ProvType)) :
    Decidable (Registered provFns) :=
  inferInstanceAs (Decidable (∀ e ∈ provFns, ∀ b ∈ paramIds e.2, b ∈ ids provFns))

/-- What the claim on the results says of a service `s` built from a provider of type
`t`: the produced type is the first result, `ShouldReturnError` tells whether there are
exactly two results, and `Returns` is the printed produced type, followed by "error" in
that case only. -/
def ReturnsOf (t : ProvType) (s : serviceDef) : Prop :=
  t.outs.head? = some s.Typ ∧
  (s.ProvFn.ShouldReturnError = true ↔ t.outs.length = 2) ∧
  s.ProvFn.Returns = if t.outs.length = 2 then [s.Typ.string, "error"] else [s.Typ.string]

/-- The dependency relation on type identities: some provider produces `a` and takes a
parameter of identity `b`. -/
def Dep (provFns : List (String × Option ProvType)) (a b : String) : Prop :=
  ∃ e ∈ provFns, producedId e.2 = some a ∧ b ∈ paramIds e.2

/-- No type identity depends on itself through one or more providers. -/
def AcyclicDeps (provFns : List (String × Option ProvType)) : Prop :=
  ∀ a, ¬ Relation.TransGen (Dep provFns) a a

/-! ## Notions of the statements and of the proofs -/

/-- The targets of all edges. -/
def targets {T : Type} : List (T × List T) → List T
  | [] => []
  | e :: m => e.2 ++ targets m

/-- The number of keys of `U` that are not marked in `g`. -/
def unvisited {T : Type} [DecidableEq T] (U : List T) (g : graph T) : Nat :=
  (U.toFinset.filter (fun x => x ∉ g.vis)).card

/-- The calls `g.addEdge(u, v)` for the targets `vs` in order. -/
def addEdges (g : graph String) (u : String) (vs : List String) : graph String :=
  vs.foldl (fun g1 v => g1.addEdge u v) g

/-- The type whose package is imported: the produced type without its pointer. -/
def importType (svcType : RType) : RType :=
  if svcType.kind = Kind.Ptr then svcType.elem else svcType

/-- The registry entry that the first loop builds for the provider `name` of type `t`
producing `svcType`; `Args` is still empty. -/
def svcOf (name : String) (t : ProvType) (svcType : RType) : serviceDef :=
  { Name := name, Typ := svcType, dependencies := t.ins.map stringifyType,
    ProvFn :=
      { Params := t.ins.map RType.string,
        Returns := [svcType.string] ++ (if t.outs.length = 2 then ["error"] else []),
        Args := [], ShouldReturnError := decide (t.outs.length = 2) } }

/-- The registry entry of a map entry, when it has a first result. -/
def svcOfEntry (e : String × Option ProvType) : Option serviceDef :=
  match e.2 with
  | none => none
  | some t => t.outs.head?.map (svcOf e.1 t)

/-- The shape checks of the first loop: a function with at least one result whose second
result, when there are exactly two, is `error`. -/
def shapeOk (p : Option ProvType) : Bool :=
  match p with
  | none => false
  | some t =>
    t.kind == Kind.Func &&
      (match t.outs with
       | [] => false
       | [_, e] => e == errType
       | _ => true)

/-- The kind checks of the first loop: the first result and every parameter pass
`isValidKind`. -/
def typesOk (p : Option ProvType) : Bool :=
  match p with
  | none => true
  | some t => (t.outs.head?.all isValidKind) && t.ins.all isValidKind

/-- The printed name of the imported type contains a dot. -/
def aliasOk (p : Option ProvType) : Bool :=
  match p with
  | none => true
  | some t => t.outs.head?.all (fun o => decide ('.' ∈ (importType o).string.toList))

/-- The parameter identities of the providers that produce `a`, in the order of the
entries. -/
def depsFor : List (String × Option ProvType) → String → List String
  | [], _ => []
  | e :: l, a => (if producedId e.2 = some a then paramIds e.2 else []) ++ depsFor l a

/-- The registry entry under the key `a` after the entries `l`, starting from `acc`. -/
def lastFor : List (String × Option ProvType) → String → Option serviceDef → Option serviceDef
  | [], _, acc => acc
  | e :: l, a, acc => lastFor l a (if producedId e.2 = some a then svcOfEntry e else acc)

/-- The effect of a completed loop over `roots` (or of a completed call, for one root)
that started in `g` and ended in `g1`: the keys `ns` were pushed, the same keys were
marked, none of them was marked before, each is reachable from a root, and every root
is marked at the end. -/
def Grows {T : Type} [DecidableEq T] (roots : List T) (g g1 : graph T) : Prop :=
  g1.edges = g.edges ∧ g1.vertices = g.vertices ∧
  ∃ ns ms, g1.stack = g.stack ++ ns ∧ g1.vis = ms ++ g.vis ∧ (∀ x, x ∈ ms ↔ x ∈ ns) ∧
    ns.Nodup ∧ (∀ x ∈ ns, x ∉ g.vis) ∧
    (∀ x ∈ ns, ∃ r ∈ roots, Relation.ReflTransGen (Edge g.edges) r x) ∧
    (∀ r ∈ roots, r ∈ g1.vis)

/-- Two graphs on which the traversal runs alike: the same successors for every key, the
same marks and the same stack. -/
def SameRun {T : Type} [DecidableEq T] (g h : graph T) : Prop :=
  (∀ a, g.edgesOf a = h.edgesOf a) ∧ g.vis = h.vis ∧ g.stack = h.stack

/-- Every successor of a pushed key is marked. -/
def Closed {T : Type} [DecidableEq T] (E : List (T × List T)) (g : graph T) : Prop :=
  ∀ x ∈ g.stack, ∀ y, Edge E x y → y ∈ g.vis

/-- The list without the later occurrences of each of its elements. -/
def firstOccurrences {T : Type} [DecidableEq T] : List T → List T
  | [] => []
  | x :: xs => x :: (firstOccurrences xs).filter (fun y => decide (y ≠ x))


/-! ## Maps -/

section Maps
variable {K V : Type} [DecidableEq K]

theorem mapGet_mapSet (m : List (K × V)) (k : K) (v : V) (k1 : K) :
    mapGet (mapSet m k v) k1 = if k = k1 then some v else mapGet m k1 := by
  induction m with
  | nil => simp [mapSet, mapGet]
  | cons e m ih =>
    obtain ⟨k2, v2⟩ := e
    by_cases h : k2 = k
    · subst h
      by_cases h1 : k2 = k1 <;> simp [mapSet, mapGet, h1]
    · by_cases h1 : k2 = k1
      · subst h1
        have : ¬ k = k2 := fun e => h e.symm
        simp [mapSet, mapGet, h, this]
      · simp [mapSet, mapGet, h, h1, ih]

end Maps

/-! ## Depth-first traversal: what a completed call has done -/

section Traversal
variable {T : Type} [DecidableEq T]

theorem edge_iff (g : graph T) (u v : T) : Edge g.edges u v ↔ v ∈ g.edgesOf u := Iff.rfl

theorem Grows.nil (g : graph T) : Grows [] g g := by
  refine ⟨rfl, rfl, [], [], ?_⟩
  simp

theorem Grows.skip {v : T} {vs : List T} {g g2 : graph T} (hv : v ∈ g.vis)
    (h : Grows vs g g2) : Grows (v :: vs) g g2 := by
  obtain ⟨he, hvx, ns, ms, hs, hvis, hmem, hnd, hfresh, hreach, hroots⟩ := h
  refine ⟨he, hvx, ns, ms, hs, hvis, hmem, hnd, hfresh, ?_, ?_⟩
  · intro x hx
    obtain ⟨r, hr, hrx⟩ := hreach x hx
    exact ⟨r, List.mem_cons_of_mem _ hr, hrx⟩
  · intro r hr
    rcases List.mem_cons.1 hr with rfl | hr
    · rw [hvis]; exact List.mem_append_right _ hv
    · exact hroots r hr

theorem Grows.step {v : T} {vs : List T} {g g1 g2 : graph T}
    (h1 : Grows [v] g g1) (h2 : Grows vs g1 g2) : Grows (v :: vs) g g2 := by
  obtain ⟨he1, hv1, ns1, ms1, hs1, hvis1, hmem1, hnd1, hfresh1, hreach1, hroots1⟩ := h1
  obtain ⟨he2, hv2, ns2, ms2, hs2, hvis2, hmem2, hnd2, hfresh2, hreach2, hroots2⟩ := h2
  refine ⟨he2.trans he1, hv2.trans hv1, ns1 ++ ns2, ms2 ++ ms1, ?_, ?_, ?_, ?_, ?_, ?_, ?_⟩
  · rw [hs2, hs1, List.append_assoc]
  · rw [hvis2, hvis1, List.append_assoc]
  · intro x
    simp only [List.mem_append, hmem1, hmem2]
    exact or_comm
  · refine List.Nodup.append hnd1 hnd2 ?_
    intro x hx1 hx2
    apply hfresh2 x hx2
    rw [hvis1]
    exact List.mem_append_left _ ((hmem1 x).2 hx1)
  · intro x hx
    rcases List.mem_append.1 hx with hx | hx
    · exact hfresh1 x hx
    · intro hxg
      apply hfresh2 x hx
      rw [hvis1]
      exact List.mem_append_right _ hxg
  · intro x hx
    rcases List.mem_append.1 hx with hx | hx
    · obtain ⟨r, hr, hrx⟩ := hreach1 x hx
      rcases List.mem_singleton.1 hr with rfl
      exact ⟨r, List.mem_cons_self _ _, hrx⟩
    · obtain ⟨r, hr, hrx⟩ := hreach2 x hx
      rw [he1] at hrx
      exact ⟨r, List.mem_cons_of_mem _ hr, hrx⟩
  · intro r hr
    rcases List.mem_cons.1 hr with rfl | hr
    · rw [hvis2]
      exact List.mem_append_right _ (hroots1 r (List.mem_singleton_self r))
    · exact hroots2 r hr

theorem visitEach_grows {f : graph T → T → Option (graph T)}
    (hf : ∀ g v g1, v ∉ g.vis → f g v = some g1 → Grows [v] g g1) :
    ∀ (vs : List T) (g g2 : graph T), graph.visitEach f vs g = some g2 → Grows vs g g2 := by
  intro vs
  induction vs with
  | nil =>
    intro g g2 h
    simp only [graph.visitEach, Option.some.injEq] at h
    subst h
    exact Grows.nil g
  | cons v vs ih =>
    intro g g2 h
    by_cases hv : v ∈ g.vis
    · simp only [graph.visitEach, hv, if_true] at h
      exact Grows.skip hv (ih g g2 h)
    · simp only [graph.visitEach, hv, if_false] at h
      cases hfv : f g v with
      | none => simp [hfv] at h
      | some g1 =>
        simp only [hfv, Option.some_bind] at h
        exact Grows.step (hf g v g1 hv hfv) (ih g1 g2 h)

theorem traverse_grows : ∀ (n : Nat) (g : graph T) (u : T) (g1 : graph T),
    u ∉ g.vis → graph.traverse n g u = some g1 → Grows [u] g g1 := by
  intro n
  induction n with
  | zero => intro g u g1 _ h; simp [graph.traverse] at h
  | succ n ih =>
    intro g u g1 hu h
    simp only [graph.traverse, Option.map_eq_some'] at h
    obtain ⟨g2, hloop, rfl⟩ := h
    obtain ⟨he, hvx, ns, ms, hs, hvis, hmem, hnd, hfresh, hreach, hroots⟩ :=
      visitEach_grows ih _ _ _ hloop
    simp only at he hvx hs hvis hfresh hreach
    have hun : u ∉ ns := fun hx => hfresh u hx (List.mem_cons_self _ _)
    refine ⟨he, hvx, ns ++ [u], ms ++ [u], ?_, ?_, ?_, ?_, ?_, ?_, ?_⟩
    · simp [hs]
    · simp [hvis]
    · intro x
      simp only [List.mem_append, hmem, List.mem_singleton]
    · exact List.Nodup.append hnd (List.nodup_singleton u) (by
        intro x hx1 hx2
        rcases List.mem_singleton.1 hx2 with rfl
        exact hun hx1)
    · intro x hx
      rcases List.mem_append.1 hx with hx | hx
      · exact fun hxg => hfresh x hx (List.mem_cons_of_mem _ hxg)
      · rcases List.mem_singleton.1 hx with rfl
        exact hu
    · intro x hx
      refine ⟨u, List.mem_singleton_self u, ?_⟩
      rcases List.mem_append.1 hx with hx | hx
      · obtain ⟨r, hr, hrx⟩ := hreach x hx
        exact Relation.ReflTransGen.head ((edge_iff g u r).2 hr) hrx
      · rcases List.mem_singleton.1 hx with rfl
        exact Relation.ReflTransGen.refl
    · intro r hr
      rcases List.mem_singleton.1 hr with rfl
      simp [hvis]

end Traversal

section TraversalOrder
variable {T : Type} [DecidableEq T]

theorem Grows.gray_iff {roots : List T} {g g1 : graph T} (h : Grows roots g g1) (x : T) :
    (x ∈ g1.vis ∧ x ∉ g1.stack) ↔ (x ∈ g.vis ∧ x ∉ g.stack) := by
  obtain ⟨_, _, ns, ms, hs, hvis, hmem, _, hfresh, _, _⟩ := h
  rw [hs, hvis]
  simp only [List.mem_append, hmem, not_or]
  constructor
  · rintro ⟨h1 | h1, h2, h3⟩
    · exact absurd h1 h3
    · exact ⟨h1, h2⟩
  · rintro ⟨h1, h2⟩
    exact ⟨Or.inr h1, h2, fun h3 => hfresh x h3 h1⟩

theorem Grows.roots_vis {roots : List T} {g g1 : graph T} (h : Grows roots g g1) :
    ∀ r ∈ roots, r ∈ g1.vis := by
  obtain ⟨_, _, ns, ms, _, _, _, _, _, _, hroots⟩ := h
  exact hroots

theorem Grows.vis_mono {roots : List T} {g g1 : graph T} (h : Grows roots g g1) {x : T}
    (hx : x ∈ g.vis) : x ∈ g1.vis := by
  obtain ⟨_, _, ns, ms, _, hvis, _⟩ := h
  rw [hvis]
  exact List.mem_append_right _ hx

theorem Grows.stack_sub {roots : List T} {g g1 : graph T} (h : Grows roots g g1)
    (hsub : ∀ x ∈ g.stack, x ∈ g.vis) : ∀ x ∈ g1.stack, x ∈ g1.vis := by
  intro x hx
  by_contra hc
  obtain ⟨_, _, ns, ms, hs, hvis, hmem, _⟩ := h
  rw [hs] at hx
  rw [hvis] at hc
  rcases List.mem_append.1 hx with hx | hx
  · exact hc (List.mem_append_right _ (hsub x hx))
  · exact hc (List.mem_append_left _ ((hmem x).2 hx))

theorem Grows.stack_nodup {roots : List T} {g g1 : graph T} (h : Grows roots g g1)
    (hsub : ∀ x ∈ g.stack, x ∈ g.vis) (hnd : g.stack.Nodup) : g1.stack.Nodup := by
  obtain ⟨_, _, ns, ms, hs, _, _, hnd1, hfresh, _⟩ := h
  rw [hs]
  exact List.Nodup.append hnd hnd1 (fun x hx1 hx2 => hfresh x hx2 (hsub x hx1))

theorem depFirst_nil (E : List (T × List T)) : DepFirst E ([] : List T) := by
  intro i u h
  simp at h

theorem depFirst_snoc {E : List (T × List T)} {l : List T} {u : T} (h : DepFirst E l)
    (hu : ∀ v, Edge E u v → v ∈ l) : DepFirst E (l ++ [u]) := by
  intro i x hi v hv
  by_cases hlt : i < l.length
  · rw [List.getElem?_append_left hlt] at hi
    obtain ⟨j, hj, hjv⟩ := h i x hi v hv
    exact ⟨j, hj, by rw [List.getElem?_append_left (lt_trans hj hlt)]; exact hjv⟩
  · have hlen : i < (l ++ [u]).length := by
      by_contra hc
      rw [List.getElem?_eq_none (Nat.le_of_not_lt hc)] at hi
      exact Option.noConfusion hi
    have hi1 : i = l.length := by
      simp only [List.length_append, List.length_singleton] at hlen
      omega
    subst hi1
    have hxu : x = u := by
      simp at hi
      exact hi.symm
    subst hxu
    obtain ⟨j, hj⟩ := List.mem_iff_getElem?.1 (hu v hv)
    have hjl : j < l.length := by
      by_contra hc
      rw [List.getElem?_eq_none (Nat.le_of_not_lt hc)] at hj
      exact Option.noConfusion hj
    exact ⟨j, hjl, by rw [List.getElem?_append_left hjl]; exact hj⟩

/-- The loop keeps the stack dependency-first, provided each call does and every key that
is marked but not pushed reaches each of the keys ranged over. -/
theorem visitEach_depFirst {E : List (T × List T)} {f : graph T → T → Option (graph T)}
    (hg : ∀ g v g1, v ∉ g.vis → f g v = some g1 → Grows [v] g g1)
    (hf : ∀ g v g1, g.edges = E → v ∉ g.vis → (∀ x ∈ g.stack, x ∈ g.vis) →
      DepFirst E g.stack → (∀ x ∈ g.vis, x ∉ g.stack → Relation.ReflTransGen (Edge E) x v) →
      f g v = some g1 → DepFirst E g1.stack) :
    ∀ (vs : List T) (g g2 : graph T), g.edges = E → (∀ x ∈ g.stack, x ∈ g.vis) →
      DepFirst E g.stack →
      (∀ v ∈ vs, ∀ x ∈ g.vis, x ∉ g.stack → Relation.ReflTransGen (Edge E) x v) →
      graph.visitEach f vs g = some g2 → DepFirst E g2.stack := by
  intro vs
  induction vs with
  | nil =>
    intro g g2 _ _ hd _ h
    simp only [graph.visitEach, Option.some.injEq] at h
    subst h
    exact hd
  | cons v vs ih =>
    intro g g2 he hsub hd hgray h
    have hgray1 : ∀ w ∈ vs, ∀ x ∈ g.vis, x ∉ g.stack → Relation.ReflTransGen (Edge E) x w :=
      fun w hw => hgray w (List.mem_cons_of_mem _ hw)
    by_cases hv : v ∈ g.vis
    · simp only [graph.visitEach, hv, if_true] at h
      exact ih g g2 he hsub hd hgray1 h
    · simp only [graph.visitEach, hv, if_false] at h
      cases hfv : f g v with
      | none => simp [hfv] at h
      | some g1 =>
        simp only [hfv, Option.some_bind] at h
        have hgr := hg g v g1 hv hfv
        have hd1 := hf g v g1 he hv hsub hd (hgray v (List.mem_cons_self _ _)) hfv
        refine ih g1 g2 (hgr.1.trans he) (hgr.stack_sub hsub) hd1 ?_ h
        intro w hw x hx1 hx2
        have := (hgr.gray_iff x).1 ⟨hx1, hx2⟩
        exact hgray1 w hw x this.1 this.2

/-- On an acyclic edge relation a call of `traverse` keeps the stack dependency-first. -/
theorem traverse_depFirst {E : List (T × List T)}
    (hac : ∀ u, ¬ Relation.TransGen (Edge E) u u) :
    ∀ (n : Nat) (g : graph T) (u : T) (g1 : graph T), g.edges = E → u ∉ g.vis →
      (∀ x ∈ g.stack, x ∈ g.vis) → DepFirst E g.stack →
      (∀ x ∈ g.vis, x ∉ g.stack → Relation.ReflTransGen (Edge E) x u) →
      graph.traverse n g u = some g1 → DepFirst E g1.stack := by
  intro n
  induction n with
  | zero => intro g u g1 _ _ _ _ _ h; simp [graph.traverse] at h
  | succ n ih =>
    intro g u g1 he hu hsub hd hgray h
    simp only [graph.traverse, Option.map_eq_some'] at h
    obtain ⟨g2, hloop, rfl⟩ := h
    have hgr := visitEach_grows (traverse_grows n) _ _ _ hloop
    have hus : u ∉ g.stack := fun hx => hu (hsub u hx)
    have hgray0 : ∀ x, x ∈ u :: g.vis → x ∉ g.stack → Relation.ReflTransGen (Edge E) x u := by
      intro x hx1 hx2
      rcases List.mem_cons.1 hx1 with rfl | hx1
      · exact Relation.ReflTransGen.refl
      · exact hgray x hx1 hx2
    have hd2 : DepFirst E g2.stack := by
      refine visitEach_depFirst (traverse_grows n) ih (g.edgesOf u) { g with vis := u :: g.vis } g2
        he ?_ hd ?_ hloop
      · intro x hx
        exact List.mem_cons_of_mem _ (hsub x hx)
      · intro v hv x hx1 hx2
        have hev : Edge E u v := by rw [← he]; exact (edge_iff g u v).2 hv
        exact Relation.ReflTransGen.tail (hgray0 x hx1 hx2) hev
    refine depFirst_snoc hd2 ?_
    intro v hv
    by_contra hvs
    have hv1 : v ∈ g.edgesOf u := by rw [← he] at hv; exact (edge_iff g u v).1 hv
    have hvv : v ∈ g2.vis := hgr.roots_vis v hv1
    have := (hgr.gray_iff v).1 ⟨hvv, hvs⟩
    have hvu := hgray0 v this.1 this.2
    exact hac u (Relation.TransGen.head' hv hvu)

end TraversalOrder

theorem length_targets {T : Type} (E : List (T × List T)) :
    (targets E).length = (E.map (fun e => e.2.length)).sum := by
  induction E with
  | nil => rfl
  | cons e m ih => simp [targets, ih]

theorem mem_sortStableFunc {T : Type} (cmp : T → T → Int) (l : List T) (x : T) :
    x ∈ sortStableFunc cmp l ↔ x ∈ l :=
  (List.perm_insertionSort _ l).mem_iff

section Termination
variable {T : Type} [DecidableEq T]

theorem mem_targets_of_edge {E : List (T × List T)} {u v : T} (h : Edge E u v) :
    v ∈ targets E := by
  induction E with
  | nil => simp [Edge, mapGet] at h
  | cons e m ih =>
    obtain ⟨k, vs⟩ := e
    unfold Edge at h
    by_cases hk : k = u
    · simp only [mapGet, hk, if_true, Option.getD_some] at h
      simp [targets, h]
    · simp only [mapGet, hk, if_false] at h
      simp only [targets, List.mem_append]
      exact Or.inr (ih h)

theorem unvisited_mark_lt {U : List T} {g : graph T} {u : T} (hU : u ∈ U) (hu : u ∉ g.vis) :
    unvisited U { g with vis := u :: g.vis } < unvisited U g := by
  unfold unvisited
  apply Finset.card_lt_card
  rw [Finset.ssubset_iff_of_subset]
  · refine ⟨u, ?_, ?_⟩
    · simp [hU, hu]
    · simp
  · intro x hx
    simp only [Finset.mem_filter, List.mem_toFinset, List.mem_cons, not_or] at hx ⊢
    exact ⟨hx.1, hx.2.2⟩

theorem unvisited_mono {U : List T} {g g1 : graph T} (h : ∀ x ∈ g.vis, x ∈ g1.vis) :
    unvisited U g1 ≤ unvisited U g := by
  unfold unvisited
  apply Finset.card_le_card
  intro x hx
  simp only [Finset.mem_filter, List.mem_toFinset] at hx ⊢
  exact ⟨hx.1, fun hc => hx.2 (h x hc)⟩

theorem unvisited_le (U : List T) (g : graph T) : unvisited U g ≤ U.length := by
  unfold unvisited
  exact le_trans (Finset.card_le_card (Finset.filter_subset _ _)) (List.toFinset_card_le U)

theorem unvisited_pos {U : List T} {g : graph T} {u : T} (hU : u ∈ U) (hu : u ∉ g.vis) :
    0 < unvisited U g := by
  unfold unvisited
  apply Finset.card_pos.2
  exact ⟨u, by simp [hU, hu]⟩

theorem visitEach_total {E : List (T × List T)} {U : List T} {n : Nat}
    {f : graph T → T → Option (graph T)}
    (hg : ∀ g v g1, v ∉ g.vis → f g v = some g1 → Grows [v] g g1)
    (hf : ∀ g v, g.edges = E → v ∈ U → v ∉ g.vis → unvisited U g ≤ n → ∃ g1, f g v = some g1) :
    ∀ (vs : List T) (g : graph T), g.edges = E → (∀ v ∈ vs, v ∈ U) → unvisited U g ≤ n →
      ∃ g2, graph.visitEach f vs g = some g2 := by
  intro vs
  induction vs with
  | nil => intro g _ _ _; exact ⟨g, rfl⟩
  | cons v vs ih =>
    intro g he hvs hn
    have hvs1 : ∀ w ∈ vs, w ∈ U := fun w hw => hvs w (List.mem_cons_of_mem _ hw)
    by_cases hv : v ∈ g.vis
    · simp only [graph.visitEach, hv, if_true]
      exact ih g he hvs1 hn
    · simp only [graph.visitEach, hv, if_false]
      obtain ⟨g1, hfv⟩ := hf g v he (hvs v (List.mem_cons_self _ _)) hv hn
      have hgr := hg g v g1 hv hfv
      simp only [hfv, Option.some_bind]
      exact ih g1 (hgr.1.trans he) hvs1
        (le_trans (unvisited_mono (fun x hx => hgr.vis_mono hx)) hn)

/-- A call of `traverse` returns when the recursion bound is at least the number of
keys that are not marked yet. -/
theorem traverse_total {E : List (T × List T)} {U : List T}
    (hU : ∀ a b, Edge E a b → b ∈ U) :
    ∀ (n : Nat) (g : graph T) (u : T), g.edges = E → u ∈ U → u ∉ g.vis →
      unvisited U g ≤ n → ∃ g1, graph.traverse n g u = some g1 := by
  intro n
  induction n with
  | zero =>
    intro g u _ huU hu hn
    have := unvisited_pos (g := g) huU hu
    omega
  | succ n ih =>
    intro g u he huU hu hn
    have hlt := unvisited_mark_lt (g := g) huU hu
    obtain ⟨g2, h2⟩ := visitEach_total (traverse_grows n) ih (g.edgesOf u)
      { g with vis := u :: g.vis } he
      (fun v hv => hU u v (by rw [← he]; exact (edge_iff g u v).2 hv)) (by omega)
    refine ⟨{ g2 with stack := g2.stack ++ [u] }, ?_⟩
    simp only [graph.traverse, h2, Option.map_some']

theorem visitEach_fuel_mono {f f1 : graph T → T → Option (graph T)}
    (h : ∀ g v g1, f g v = some g1 → f1 g v = some g1) :
    ∀ (vs : List T) (g g2 : graph T), graph.visitEach f vs g = some g2 →
      graph.visitEach f1 vs g = some g2 := by
  intro vs
  induction vs with
  | nil => intro g g2 hh; exact hh
  | cons v vs ih =>
    intro g g2 hh
    by_cases hv : v ∈ g.vis
    · simp only [graph.visitEach, hv, if_true] at hh ⊢
      exact ih g g2 hh
    · simp only [graph.visitEach, hv, if_false] at hh ⊢
      cases hfv : f g v with
      | none => simp [hfv] at hh
      | some g1 =>
        simp only [hfv, Option.some_bind] at hh
        simp only [h g v g1 hfv, Option.some_bind]
        exact ih g1 g2 hh

/-- A larger recursion bound does not change the result of a call that returns. -/
theorem traverse_fuel_mono : ∀ (n m : Nat) (g : graph T) (u : T) (g1 : graph T), n ≤ m →
    graph.traverse n g u = some g1 → graph.traverse m g u = some g1 := by
  intro n
  induction n with
  | zero => intro m g u g1 _ h; simp [graph.traverse] at h
  | succ n ih =>
    intro m g u g1 hm h
    obtain ⟨k, rfl⟩ : ∃ k, m = k + 1 := ⟨m - 1, by omega⟩
    simp only [graph.traverse, Option.map_eq_some'] at h ⊢
    obtain ⟨g2, hloop, rfl⟩ := h
    exact ⟨g2, visitEach_fuel_mono (fun g v g1 hh => ih k g v g1 (by omega) hh) _ _ _ hloop, rfl⟩

end Termination

/-! ## The method `sort` -/

section SortMethod
variable {T : Type} [DecidableEq T]

/-- With a sufficient recursion bound `sort` returns. -/
theorem sortWith_total (g : graph T) (cmp : T → T → Int) (n : Nat) (hn : g.fuel ≤ n + 1) :
    ∃ l, g.sortWith n cmp = some l := by
  have hU : ∀ a b, Edge g.edges a b → b ∈ g.vertices ++ targets g.edges :=
    fun a b h => List.mem_append_right _ (mem_targets_of_edge h)
  obtain ⟨g2, h2⟩ := visitEach_total (traverse_grows n)
    (fun g1 v he hv hvis hle => traverse_total hU n g1 v he hv hvis hle)
    (sortStableFunc cmp g.vertices) { g with vertices := sortStableFunc cmp g.vertices } rfl
    (fun v hv => List.mem_append_left _ ((mem_sortStableFunc cmp _ v).1 hv))
    (by
      refine le_trans (unvisited_le _ _) ?_
      simp only [graph.fuel, List.length_append, length_targets] at hn ⊢
      omega)
  exact ⟨g2.stack, by simp only [graph.sortWith, h2, Option.map_some']⟩

theorem sortWith_fuel_mono (g : graph T) (cmp : T → T → Int) (n m : Nat) (l : List T)
    (hnm : n ≤ m) (h : g.sortWith n cmp = some l) : g.sortWith m cmp = some l := by
  simp only [graph.sortWith, Option.map_eq_some'] at h ⊢
  obtain ⟨g2, h2, rfl⟩ := h
  exact ⟨g2, visitEach_fuel_mono (fun g v g1 hh => traverse_fuel_mono n m g v g1 hnm hh) _ _ _ h2,
    rfl⟩

/-- What `sort` returns on a graph on which no traversal has run yet. -/
theorem sortWith_spec (g : graph T) (cmp : T → T → Int) (n : Nat) (l : List T)
    (hvis : g.vis = []) (hstack : g.stack = []) (h : g.sortWith n cmp = some l) :
    l.Nodup ∧ (∀ v ∈ g.vertices, v ∈ l) ∧
    (∀ x ∈ l, ∃ r ∈ g.vertices, Relation.ReflTransGen (Edge g.edges) r x) ∧
    (g.Acyclic → DepFirst g.edges l) := by
  simp only [graph.sortWith, Option.map_eq_some'] at h
  obtain ⟨g2, h2, rfl⟩ := h
  have hgr := visitEach_grows (traverse_grows n) _ _ _ h2
  have hsub : ∀ x ∈ ({ g with vertices := sortStableFunc cmp g.vertices } : graph T).stack,
      x ∈ ({ g with vertices := sortStableFunc cmp g.vertices } : graph T).vis := by
    intro x hx
    simp [hstack] at hx
  refine ⟨?_, ?_, ?_, ?_⟩
  · exact hgr.stack_nodup hsub (by simp [hstack])
  · intro v hv
    have hv2 : v ∈ g2.vis := hgr.roots_vis v ((mem_sortStableFunc cmp _ v).2 hv)
    by_contra hc
    have := (hgr.gray_iff v).1 ⟨hv2, hc⟩
    simp [hvis] at this
  · obtain ⟨_, _, ns, ms, hs, _, _, _, _, hreach, _⟩ := hgr
    intro x hx
    rw [hs] at hx
    simp only [hstack, List.nil_append] at hx
    obtain ⟨r, hr, hrx⟩ := hreach x hx
    exact ⟨r, (mem_sortStableFunc cmp _ r).1 hr, hrx⟩
  · intro hac
    refine visitEach_depFirst (traverse_grows n) (traverse_depFirst hac n) _
      { g with vertices := sortStableFunc cmp g.vertices } g2 rfl hsub ?_ ?_ h2
    · simp only [hstack]
      exact depFirst_nil _
    · intro v _ x hx
      simp [hvis] at hx

theorem run_vis_stack (g : graph T) (op : GraphOp T) :
    (op.run g).vis = g.vis ∧ (op.run g).stack = g.stack := by
  cases op <;> exact ⟨rfl, rfl⟩

theorem foldl_run_vis_stack (ops : List (GraphOp T)) (g : graph T) :
    (ops.foldl GraphOp.run g).vis = g.vis ∧ (ops.foldl GraphOp.run g).stack = g.stack := by
  induction ops generalizing g with
  | nil => exact ⟨rfl, rfl⟩
  | cons op ops ih =>
    simp only [List.foldl_cons]
    exact ⟨(ih _).1.trans (run_vis_stack g op).1, (ih _).2.trans (run_vis_stack g op).2⟩

theorem acyclic_of_rank {E : List (T × List T)} (rank : T → Nat)
    (h : ∀ u v, Edge E u v → rank v < rank u) : ∀ u, ¬ Relation.TransGen (Edge E) u u := by
  have key : ∀ a b, Relation.TransGen (Edge E) a b → rank b < rank a := by
    intro a b hab
    induction hab with
    | single h1 => exact h _ _ h1
    | tail _ h2 ih => exact lt_trans (h _ _ h2) ih
  intro u hu
  exact lt_irrefl _ (key u u hu)

/-- C2: on a graph built from `newGraph` by calls of `addVertex` and `addEdge` whose edges
form no cycle, `sort` returns a list, for every comparator; the list has no repetition and,
for every edge `u → v` whose source occurs in it, `v` stands at a strictly smaller index
than `u`. -/
theorem C2_sort_places_targets_first (ops : List (GraphOp T)) (cmp : T → T → Int)
    (hac : (buildGraph ops).Acyclic) :
    ∃ l, (buildGraph ops).sort cmp = some l ∧ l.Nodup ∧
      ∀ (u v : T), v ∈ (buildGraph ops).edgesOf u → ∀ i : Nat, l[i]? = some u →
        ∃ j : Nat, j < i ∧ l[j]? = some v := by
  obtain ⟨l, hl⟩ := sortWith_total (buildGraph ops) cmp (buildGraph ops).fuel (Nat.le_succ _)
  have hfresh := foldl_run_vis_stack ops (newGraph T)
  have hspec := sortWith_spec (buildGraph ops) cmp _ l hfresh.1 hfresh.2 hl
  refine ⟨l, hl, hspec.1, ?_⟩
  intro u v huv i hi
  exact hspec.2.2.2 hac i u hi v ((edge_iff _ u v).2 huv)

theorem C2_sort_places_targets_first_witness :
    (buildGraph [GraphOp.addVertex (2 : Fin 3), .addVertex 0, .addEdge 2 1, .addEdge 1 0,
        .addEdge 2 0]).Acyclic ∧
    ∃ l, (buildGraph [GraphOp.addVertex (2 : Fin 3), .addVertex 0, .addEdge 2 1, .addEdge 1 0,
        .addEdge 2 0]).sort (fun a b => (a.val : Int) - b.val) = some l ∧ l.Nodup ∧
      ∀ (u v : Fin 3), v ∈ (buildGraph [GraphOp.addVertex (2 : Fin 3), .addVertex 0,
          .addEdge 2 1, .addEdge 1 0, .addEdge 2 0]).edgesOf u →
        ∀ i : Nat, l[i]? = some u → ∃ j : Nat, j < i ∧ l[j]? = some v :=
  ⟨acyclic_of_rank (fun x => x.val) (by decide),
   C2_sort_places_targets_first _ _ (acyclic_of_rank (fun x => x.val) (by decide))⟩

end SortMethod

/-! ## The first loop of `genData` -/

section Maps2
variable {K V : Type} [DecidableEq K]

theorem keys_mapSet (m : List (K × V)) (k : K) (v : V) (x : K) :
    x ∈ (mapSet m k v).map Prod.fst ↔ x = k ∨ x ∈ m.map Prod.fst := by
  induction m with
  | nil => simp [mapSet]
  | cons e m ih =>
    obtain ⟨k2, v2⟩ := e
    by_cases h : k2 = k
    · subst h
      simp [mapSet]
    · simp only [mapSet, h, if_false, List.map_cons, List.mem_cons, ih]
      tauto

theorem nodup_keys_mapSet (m : List (K × V)) (k : K) (v : V)
    (h : (m.map Prod.fst).Nodup) : ((mapSet m k v).map Prod.fst).Nodup := by
  induction m with
  | nil => simp [mapSet]
  | cons e m ih =>
    obtain ⟨k2, v2⟩ := e
    simp only [List.map_cons, List.nodup_cons] at h
    by_cases hk : k2 = k
    · subst hk
      simp only [mapSet, if_true, List.map_cons, List.nodup_cons]
      exact h
    · simp only [mapSet, hk, if_false, List.map_cons, List.nodup_cons]
      refine ⟨?_, ih h.2⟩
      intro hc
      rcases (keys_mapSet m k v k2).1 hc with h1 | h1
      · exact hk h1
      · exact h.1 h1

theorem mapGet_eq_some_iff (m : List (K × V)) (h : (m.map Prod.fst).Nodup) (k : K) (v : V) :
    mapGet m k = some v ↔ (k, v) ∈ m := by
  induction m with
  | nil => simp [mapGet]
  | cons e m ih =>
    obtain ⟨k2, v2⟩ := e
    simp only [List.map_cons, List.nodup_cons] at h
    by_cases hk : k2 = k
    · subst hk
      simp only [mapGet, if_true, Option.some.injEq, List.mem_cons, Prod.mk.injEq, true_and]
      constructor
      · intro hv; exact Or.inl hv.symm
      · rintro (hv | hv)
        · exact hv.symm
        · exact absurd (List.mem_map.2 ⟨(k2, v), hv, rfl⟩) h.1
    · simp only [mapGet, hk, if_false, List.mem_cons, Prod.mk.injEq, ih h.2]
      constructor
      · intro hv; exact Or.inr hv
      · rintro (hv | hv)
        · exact absurd hv.1.symm hk
        · exact hv

theorem mapGet_isSome_iff (m : List (K × V)) (k : K) :
    (mapGet m k).isSome ↔ k ∈ m.map Prod.fst := by
  induction m with
  | nil => simp [mapGet]
  | cons e m ih =>
    obtain ⟨k2, v2⟩ := e
    by_cases hk : k2 = k
    · subst hk
      simp [mapGet]
    · have hk1 : ¬ k = k2 := fun h => hk h.symm
      simp [mapGet, hk, hk1, ih]

theorem mapGet_perm {m1 m2 : List (K × V)} (hp : m1.Perm m2) (h : (m1.map Prod.fst).Nodup)
    (k : K) : mapGet m1 k = mapGet m2 k := by
  have h2 : (m2.map Prod.fst).Nodup := (hp.map Prod.fst).nodup_iff.1 h
  apply Option.ext
  intro v
  simp only [Option.mem_def]
  rw [mapGet_eq_some_iff m1 h, mapGet_eq_some_iff m2 h2]
  exact hp.mem_iff

end Maps2

theorem edgesOf_addEdge (g : graph String) (u v a : String) :
    (g.addEdge u v).edgesOf a = if u = a then g.edgesOf a ++ [v] else g.edgesOf a := by
  unfold graph.addEdge graph.edgesOf
  simp only [mapGet_mapSet]
  by_cases h : u = a
  · subst h; simp
  · simp [h]

theorem addEdges_props (g : graph String) (u : String) (vs : List String) :
    (addEdges g u vs).vertices = g.vertices ∧ (addEdges g u vs).vis = g.vis ∧
    (addEdges g u vs).stack = g.stack ∧
    ∀ a, (addEdges g u vs).edgesOf a = if u = a then g.edgesOf a ++ vs else g.edgesOf a := by
  induction vs generalizing g with
  | nil =>
    refine ⟨rfl, rfl, rfl, ?_⟩
    intro a
    by_cases h : u = a <;> simp [addEdges, h]
  | cons v vs ih =>
    have := ih (g.addEdge u v)
    simp only [addEdges, List.foldl_cons] at this ⊢
    refine ⟨this.1, this.2.1, this.2.2.1, ?_⟩
    intro a
    rw [this.2.2.2 a, edgesOf_addEdge]
    by_cases h : u = a <;> simp [h]

theorem addDeps_ok_iff (name : String) (svcType : RType) (ins : List RType) :
    ∀ (j : Nat) (g : graph String) (svc : serviceDef) (r : graph String × serviceDef),
      addDeps name svcType j ins (g, svc) = .ok r ↔
        (∀ x ∈ ins, isValidKind x = true) ∧
        r = (addEdges g (stringifyType svcType) (ins.map stringifyType),
             { svc with
               ProvFn := { svc.ProvFn with Params := svc.ProvFn.Params ++ ins.map RType.string }
               dependencies := svc.dependencies ++ ins.map stringifyType }) := by
  induction ins with
  | nil =>
    intro j g svc r
    simp only [addDeps, List.not_mem_nil, false_implies, implies_true, true_and, List.map_nil,
      List.append_nil, addEdges, List.foldl_nil, Except.ok.injEq]
    exact eq_comm
  | cons x xs ih =>
    intro j g svc r
    by_cases hx : isValidKind x = true
    · simp only [addDeps, hx, Bool.not_true, Bool.false_eq_true, if_false, ih, List.mem_cons,
        forall_eq_or_imp, true_and, List.map_cons, addEdges, List.foldl_cons,
        List.append_assoc, List.singleton_append]
    · simp only [addDeps, hx, Bool.not_false, if_true, List.mem_cons, forall_eq_or_imp,
        false_and, iff_false]
      simp [hx]


theorem checkReturns_ok_iff (name : String) (outs : List RType) (b : Bool) :
    checkReturns name outs = .ok b ↔
      outs ≠ [] ∧ (∀ o e, outs = [o, e] → e = errType) ∧ b = decide (outs.length = 2) := by
  match outs with
  | [] => simp [checkReturns]
  | [o] => simp [checkReturns]
  | [o, e] =>
    by_cases he : e = errType
    · simp [checkReturns, he]
    · simp [checkReturns, he]
  | o :: e :: x :: rest => simp [checkReturns]

theorem shapeOk_iff (t : ProvType) :
    shapeOk (some t) = true ↔
      t.kind = Kind.Func ∧ t.outs ≠ [] ∧ ∀ o e, t.outs = [o, e] → e = errType := by
  obtain ⟨kind, ins, outs⟩ := t
  match outs with
  | [] => simp [shapeOk]
  | [o] => simp [shapeOk]
  | [o, e] => simp [shapeOk]
  | o :: e :: x :: rest => simp [shapeOk]

/-- What an iteration of the first loop that does not panic has checked and done. -/
theorem register_ok {st : Registry} {name : String} {p : Option ProvType} {st1 : Registry}
    (h : register st name p = .ok st1) :
    ∃ t o rest, p = some t ∧ t.outs = o :: rest ∧
      shapeOk p = true ∧ typesOk p = true ∧ aliasOk p = true ∧
      st1.svcs = mapSet st.svcs (stringifyType o) (svcOf name t o) ∧
      st1.g = addEdges (st.g.addVertex (stringifyType o)) (stringifyType o)
        (t.ins.map stringifyType) := by
  cases p with
  | none => simp [register] at h
  | some t =>
    by_cases hk : t.kind = Kind.Func
    · cases houts : t.outs with
      | nil => simp [register, hk, houts, checkReturns] at h
      | cons o rest =>
        cases hc : checkReturns name (o :: rest) with
        | error e => simp [register, hk, houts, hc] at h
        | ok b =>
          have hb := (checkReturns_ok_iff name (o :: rest) b).1 hc
          by_cases hv : isValidKind o = true
          · simp only [register, hk, houts, hc, hv, ne_eq, not_true_eq_false, if_false,
              Bool.not_true, Bool.false_eq_true] at h
            split at h
            · exact absurd h (by simp)
            · rename_i g2 svc2 hd
              rw [addDeps_ok_iff] at hd
              split at h
              · exact absurd h (by simp)
              · rename_i pkg hpkg
                simp only [Except.ok.injEq] at h
                subst h
                have hdot : '.' ∈ (importType o).string.toList := by
                  by_contra hc1
                  have hbd : beforeDot (importType o).string = .error Err.sliceBounds := by
                    unfold beforeDot
                    exact if_neg hc1
                  simp only [importType] at hbd
                  rw [hbd] at hpkg
                  cases hpkg
                refine ⟨t, o, rest, rfl, houts, ?_, ?_, ?_, ?_, ?_⟩
                · rw [shapeOk_iff]
                  exact ⟨hk, by rw [houts]; exact hb.1, by rw [houts]; exact hb.2.1⟩
                · simp only [typesOk, houts, List.head?_cons, Option.all_some, hv, Bool.true_and,
                    List.all_eq_true]
                  exact hd.1
                · simp only [aliasOk, houts, List.head?_cons, Option.all_some, decide_eq_true_eq]
                  exact hdot
                · have h2 := hd.2
                  simp only [Prod.mk.injEq] at h2
                  simp only [h2.2, svcOf, houts, hb.2.2, List.nil_append, decide_eq_true_eq]
                · have h2 := hd.2
                  simp only [Prod.mk.injEq] at h2
                  exact h2.1
          · simp [register, hk, houts, hc, hv] at h
    · simp [register, hk] at h

/-- An iteration of the first loop on an entry that passes the checks does not panic. -/
theorem register_ok_of (st : Registry) (name : String) (p : Option ProvType)
    (h1 : shapeOk p = true) (h2 : typesOk p = true) (h3 : aliasOk p = true) :
    ∃ st1, register st name p = .ok st1 := by
  cases p with
  | none => simp [shapeOk] at h1
  | some t =>
    have hs := (shapeOk_iff t).1 h1
    cases houts : t.outs with
    | nil => exact absurd houts hs.2.1
    | cons o rest =>
      have hc : checkReturns name (o :: rest) = .ok (decide ((o :: rest).length = 2)) := by
        rw [checkReturns_ok_iff]
        exact ⟨by simp, by rw [← houts]; exact hs.2.2, rfl⟩
      simp only [typesOk, houts, List.head?_cons, Option.all_some, Bool.and_eq_true,
        List.all_eq_true] at h2
      simp only [aliasOk, houts, List.head?_cons, Option.all_some, decide_eq_true_eq] at h3
      have hd := (addDeps_ok_iff name o t.ins 0 (st.g.addVertex (stringifyType o))
        { Name := name, Typ := o, dependencies := [],
          ProvFn :=
            { Params := [],
              Returns := [o.string] ++ (if decide ((o :: rest).length = 2) = true then ["error"] else []),
              Args := [], ShouldReturnError := decide ((o :: rest).length = 2) } } _).2 ⟨h2.2, rfl⟩
      simp only [importType] at h3
      simp only [register, hs.1, houts, hc, h2.1, ne_eq, not_true_eq_false, if_false,
        Bool.not_true, Bool.false_eq_true, hd, beforeDot, h3, if_true]
      exact ⟨_, rfl⟩


theorem registerAll_spec : ∀ (l : List (String × Option ProvType)) (st0 st : Registry),
    registerAll st0 l = .ok st →
      (∀ e ∈ l, shapeOk e.2 = true ∧ typesOk e.2 = true ∧ aliasOk e.2 = true) ∧
      st.g.vertices = st0.g.vertices ++ ids l ∧
      st.g.vis = st0.g.vis ∧ st.g.stack = st0.g.stack ∧
      (∀ a, st.g.edgesOf a = st0.g.edgesOf a ++ depsFor l a) ∧
      (∀ a, mapGet st.svcs a = lastFor l a (mapGet st0.svcs a)) ∧
      ((st0.svcs.map Prod.fst).Nodup → (st.svcs.map Prod.fst).Nodup) := by
  intro l
  induction l with
  | nil =>
    intro st0 st h
    simp only [registerAll, Except.ok.injEq] at h
    subst h
    simp [ids, depsFor, lastFor]
  | cons e l ih =>
    intro st0 st h
    obtain ⟨name, p⟩ := e
    cases hr : register st0 name p with
    | error err => simp [registerAll, hr] at h
    | ok st1 =>
      simp only [registerAll, hr] at h
      obtain ⟨t, o, rest, hp, houts, h1, h2, h3, hsvcs, hg⟩ := register_ok hr
      obtain ⟨ha, hv, hvis, hstack, hedges, hget, hnd⟩ := ih st1 st h
      have hprod : producedId p = some (stringifyType o) := by
        simp [producedId, hp, houts]
      have hpar : paramIds p = t.ins.map stringifyType := by
        simp [paramIds, hp]
      have hsoe : svcOfEntry (name, p) = some (svcOf name t o) := by
        simp [svcOfEntry, hp, houts]
      have hadd := addEdges_props (st0.g.addVertex (stringifyType o)) (stringifyType o)
        (t.ins.map stringifyType)
      rw [← hg] at hadd
      refine ⟨?_, ?_, ?_, ?_, ?_, ?_, ?_⟩
      · intro x hx
        rcases List.mem_cons.1 hx with rfl | hx
        · exact ⟨h1, h2, h3⟩
        · exact ha x hx
      · rw [hv, hadd.1]
        simp [ids, graph.addVertex, hprod]
      · rw [hvis, hadd.2.1]; rfl
      · rw [hstack, hadd.2.2.1]; rfl
      · intro a
        rw [hedges a, hadd.2.2.2 a]
        simp only [depsFor, hprod, hpar, Option.some.injEq]
        by_cases hoa : stringifyType o = a
        · simp [hoa, graph.addVertex, graph.edgesOf]
        · simp [hoa, graph.addVertex, graph.edgesOf]
      · intro a
        rw [hget a, hsvcs, mapGet_mapSet]
        simp only [lastFor, hprod, hsoe, Option.some.injEq]
      · intro h0
        apply hnd
        rw [hsvcs]
        exact nodup_keys_mapSet _ _ _ h0

theorem registerAll_ok_of : ∀ (l : List (String × Option ProvType)) (st0 : Registry),
    (∀ e ∈ l, shapeOk e.2 = true ∧ typesOk e.2 = true ∧ aliasOk e.2 = true) →
      ∃ st, registerAll st0 l = .ok st := by
  intro l
  induction l with
  | nil => intro st0 _; exact ⟨st0, rfl⟩
  | cons e l ih =>
    intro st0 h
    obtain ⟨name, p⟩ := e
    have he := h (name, p) (List.mem_cons_self _ _)
    obtain ⟨st1, hr⟩ := register_ok_of st0 name p he.1 he.2.1 he.2.2
    obtain ⟨st, hst⟩ := ih st1 (fun x hx => h x (List.mem_cons_of_mem _ hx))
    exact ⟨st, by simp only [registerAll, hr, hst]⟩

/-- A panic of the first loop is the panic of the iteration on one of the entries. -/
theorem registerAll_error : ∀ (l : List (String × Option ProvType)) (st0 : Registry) (err : Err),
    registerAll st0 l = .error err → ∃ e ∈ l, ∃ st, register st e.1 e.2 = .error err := by
  intro l
  induction l with
  | nil => intro st0 err h; simp [registerAll] at h
  | cons e l ih =>
    intro st0 err h
    obtain ⟨name, p⟩ := e
    cases hr : register st0 name p with
    | error err1 =>
      simp only [registerAll, hr, Except.error.injEq] at h
      subst h
      exact ⟨(name, p), List.mem_cons_self _ _, st0, hr⟩
    | ok st1 =>
      simp only [registerAll, hr] at h
      obtain ⟨x, hx, st, hst⟩ := ih st1 err h
      exact ⟨x, List.mem_cons_of_mem _ hx, st, hst⟩

/-- The first loop panics when the iteration on one of the entries panics in every
state. -/
theorem registerAll_fails : ∀ (l : List (String × Option ProvType)) (st0 : Registry)
    (e : String × Option ProvType), e ∈ l → (∀ st, ∃ err, register st e.1 e.2 = .error err) →
      ∃ err, registerAll st0 l = .error err := by
  intro l
  induction l with
  | nil => intro st0 e he; simp at he
  | cons x l ih =>
    intro st0 e he hfail
    obtain ⟨name, p⟩ := x
    cases hr : register st0 name p with
    | error err1 => exact ⟨err1, by simp only [registerAll, hr]⟩
    | ok st1 =>
      rcases List.mem_cons.1 he with rfl | he
      · obtain ⟨err, herr⟩ := hfail st0
        simp only at herr
        rw [hr] at herr
        cases herr
      · obtain ⟨err, herr⟩ := ih st1 e he hfail
        exact ⟨err, by simp only [registerAll, hr, herr]⟩

theorem mem_depsFor (l : List (String × Option ProvType)) (a b : String) :
    b ∈ depsFor l a ↔ Dep l a b := by
  induction l with
  | nil => simp [depsFor, Dep]
  | cons e l ih =>
    simp only [depsFor, List.mem_append, ih, Dep, List.mem_cons, exists_eq_or_imp]
    by_cases h : producedId e.2 = some a
    · simp [h]
    · simp [h]

theorem mem_ids (l : List (String × Option ProvType)) (a : String) :
    a ∈ ids l ↔ ∃ e ∈ l, producedId e.2 = some a := by
  simp [ids, List.mem_filterMap]

theorem lastFor_none (l : List (String × Option ProvType)) (a : String)
    (acc : Option serviceDef) (h : ∀ e ∈ l, producedId e.2 ≠ some a) : lastFor l a acc = acc := by
  induction l generalizing acc with
  | nil => rfl
  | cons e l ih =>
    have he := h e (List.mem_cons_self _ _)
    simp only [lastFor, he, if_false]
    exact ih acc (fun x hx => h x (List.mem_cons_of_mem _ hx))

/-- The registry entry under a key is built from an entry of the map that produces the
key. -/
theorem lastFor_some (l : List (String × Option ProvType)) (a : String) :
    ∀ (acc : Option serviceDef) (s : serviceDef), lastFor l a acc = some s →
      (acc = some s ∧ ∀ e ∈ l, producedId e.2 ≠ some a) ∨
      ∃ e ∈ l, producedId e.2 = some a ∧ svcOfEntry e = some s := by
  induction l with
  | nil => intro acc s h; exact Or.inl ⟨h, by simp⟩
  | cons e l ih =>
    intro acc s h
    simp only [lastFor] at h
    rcases ih _ s h with ⟨h1, h2⟩ | ⟨x, hx, hxa, hxs⟩
    · by_cases he : producedId e.2 = some a
      · simp only [he, if_true] at h1
        exact Or.inr ⟨e, List.mem_cons_self _ _, he, h1⟩
      · simp only [he, if_false] at h1
        refine Or.inl ⟨h1, ?_⟩
        intro x hx
        rcases List.mem_cons.1 hx with rfl | hx
        · exact he
        · exact h2 x hx
    · exact Or.inr ⟨x, List.mem_cons_of_mem _ hx, hxa, hxs⟩

/-- With distinct produced identities the registry entry under a key is built from the
one entry that produces it. -/
theorem lastFor_distinct (l : List (String × Option ProvType)) (a : String)
    (hd : DistinctIds l) (e : String × Option ProvType) (he : e ∈ l)
    (hea : producedId e.2 = some a) (acc : Option serviceDef) :
    lastFor l a acc = svcOfEntry e ∧ depsFor l a = paramIds e.2 := by
  induction l generalizing acc with
  | nil => simp at he
  | cons x l ih =>
    unfold DistinctIds at hd
    rcases List.mem_cons.1 he with rfl | he
    · simp only [List.filterMap_cons, hea, List.nodup_cons] at hd
      have hno : ∀ y ∈ l, producedId y.2 ≠ some a := by
        intro y hy hya
        exact hd.1 (List.mem_filterMap.2 ⟨y, hy, hya⟩)
      constructor
      · simp only [lastFor, hea, if_true]
        exact lastFor_none l a _ hno
      · simp only [depsFor, hea, if_true]
        have : depsFor l a = [] := by
          apply List.eq_nil_iff_forall_not_mem.2
          intro b hb
          obtain ⟨y, hy, hya, _⟩ := (mem_depsFor l a b).1 hb
          exact hno y hy hya
        rw [this, List.append_nil]
    · have hxa : producedId x.2 ≠ some a := by
        intro hxa
        simp only [List.filterMap_cons, hxa, List.nodup_cons] at hd
        exact hd.1 (List.mem_filterMap.2 ⟨e, he, hea⟩)
      have hd1 : DistinctIds l := by
        unfold DistinctIds
        cases hx : producedId x.2 with
        | none => simpa [List.filterMap_cons, hx] using hd
        | some b =>
          simp only [List.filterMap_cons, hx, List.nodup_cons] at hd
          exact hd.2
      constructor
      · simp only [lastFor, hxa, if_false]
        exact (ih hd1 he acc).1
      · simp only [depsFor, hxa, if_false, List.nil_append]
        exact (ih hd1 he acc).2


/-! ## The resolution pass and the assembly -/

theorem resolveDeps_ok_iff (svcs : List (String × serviceDef)) (deps : List String) :
    ∀ (svc s1 : serviceDef), resolveDeps svcs svc deps = .ok s1 ↔
      ∃ names, List.Forall₂ (fun dep n => ∃ d, mapGet svcs dep = some d ∧ d.Name = n) deps names ∧
        s1 = { svc with ProvFn := { svc.ProvFn with Args := svc.ProvFn.Args ++ names } } := by
  induction deps with
  | nil =>
    intro svc s1
    simp only [resolveDeps, Except.ok.injEq, List.forall₂_nil_left_iff, exists_eq_left,
      List.append_nil]
    exact eq_comm
  | cons dep deps ih =>
    intro svc s1
    cases hd : mapGet svcs dep with
    | none =>
      simp only [resolveDeps, hd]
      constructor
      · intro h
        cases h
      · rintro ⟨names, hf, _⟩
        cases hf with
        | cons h _ =>
          obtain ⟨d, hd1, _⟩ := h
          rw [hd] at hd1
          cases hd1
    | some d =>
      simp only [resolveDeps, hd, ih]
      constructor
      · rintro ⟨names, hf, rfl⟩
        exact ⟨d.Name :: names, List.Forall₂.cons ⟨d, hd, rfl⟩ hf, by simp⟩
      · rintro ⟨names, hf, rfl⟩
        cases hf with
        | cons h hf =>
          obtain ⟨d1, hd1, rfl⟩ := h
          rw [hd] at hd1
          cases hd1
          exact ⟨_, hf, by simp⟩

theorem resolveDeps_error (svcs : List (String × serviceDef)) (deps : List String) :
    ∀ (svc : serviceDef) (err : Err), resolveDeps svcs svc deps = .error err →
      ∃ dep ∈ deps, mapGet svcs dep = none ∧ err = Err.unknownDependency dep svc.Name := by
  induction deps with
  | nil => intro svc err h; simp [resolveDeps] at h
  | cons dep deps ih =>
    intro svc err h
    cases hd : mapGet svcs dep with
    | none =>
      simp only [resolveDeps, hd, Except.error.injEq] at h
      exact ⟨dep, List.mem_cons_self _ _, hd, h.symm⟩
    | some d =>
      simp only [resolveDeps, hd] at h
      obtain ⟨x, hx, hxn, herr⟩ := ih _ err h
      exact ⟨x, List.mem_cons_of_mem _ hx, hxn, herr⟩

theorem resolveDeps_total (svcs : List (String × serviceDef)) (deps : List String) :
    ∀ (svc : serviceDef), (∀ dep ∈ deps, (mapGet svcs dep).isSome) →
      ∃ s1, resolveDeps svcs svc deps = .ok s1 := by
  induction deps with
  | nil => intro svc _; exact ⟨svc, rfl⟩
  | cons dep deps ih =>
    intro svc h
    have hd := h dep (List.mem_cons_self _ _)
    obtain ⟨d, hd1⟩ := Option.isSome_iff_exists.1 hd
    obtain ⟨s1, hs1⟩ := ih { svc with ProvFn := { svc.ProvFn with Args := svc.ProvFn.Args ++ [d.Name] } }
      (fun x hx => h x (List.mem_cons_of_mem _ hx))
    exact ⟨s1, by simp only [resolveDeps, hd1, hs1]⟩

theorem resolveAll_ok (svcs : List (String × serviceDef)) :
    ∀ (m done : List (String × serviceDef)), resolveAll svcs m = .ok done →
      List.Forall₂ (fun e d => d.1 = e.1 ∧ resolveDeps svcs e.2 e.2.dependencies = .ok d.2)
        m done := by
  intro m
  induction m with
  | nil =>
    intro done h
    simp only [resolveAll, Except.ok.injEq] at h
    subst h
    exact List.Forall₂.nil
  | cons e m ih =>
    intro done h
    obtain ⟨k, svc⟩ := e
    cases h1 : resolveDeps svcs svc svc.dependencies with
    | error err => simp [resolveAll, h1] at h
    | ok s1 =>
      cases h2 : resolveAll svcs m with
      | error err => simp [resolveAll, h1, h2] at h
      | ok done1 =>
        simp only [resolveAll, h1, h2, Except.ok.injEq] at h
        subst h
        exact List.Forall₂.cons ⟨rfl, h1⟩ (ih done1 h2)

theorem resolveAll_total (svcs : List (String × serviceDef)) :
    ∀ (m : List (String × serviceDef)),
      (∀ e ∈ m, ∃ s1, resolveDeps svcs e.2 e.2.dependencies = .ok s1) →
        ∃ done, resolveAll svcs m = .ok done := by
  intro m
  induction m with
  | nil => intro _; exact ⟨[], rfl⟩
  | cons e m ih =>
    intro h
    obtain ⟨k, svc⟩ := e
    obtain ⟨s1, h1⟩ := h (k, svc) (List.mem_cons_self _ _)
    obtain ⟨done, h2⟩ := ih (fun x hx => h x (List.mem_cons_of_mem _ hx))
    simp only at h1
    exact ⟨(k, s1) :: done, by simp only [resolveAll, h1, h2]⟩

theorem resolveAll_error (svcs : List (String × serviceDef)) :
    ∀ (m : List (String × serviceDef)) (err : Err), resolveAll svcs m = .error err →
      ∃ e ∈ m, resolveDeps svcs e.2 e.2.dependencies = .error err := by
  intro m
  induction m with
  | nil => intro err h; simp [resolveAll] at h
  | cons e m ih =>
    intro err h
    obtain ⟨k, svc⟩ := e
    cases h1 : resolveDeps svcs svc svc.dependencies with
    | error err1 =>
      simp only [resolveAll, h1, Except.error.injEq] at h
      subst h
      exact ⟨(k, svc), List.mem_cons_self _ _, h1⟩
    | ok s1 =>
      cases h2 : resolveAll svcs m with
      | error err2 =>
        simp only [resolveAll, h1, h2, Except.error.injEq] at h
        subst h
        obtain ⟨x, hx, hxe⟩ := ih err2 h2
        exact ⟨x, List.mem_cons_of_mem _ hx, hxe⟩
      | ok done1 => simp [resolveAll, h1, h2] at h

theorem forall₂_keys {α β : Type} {R : α → β → Prop} {f : α → String} {g : β → String}
    {l1 : List α} {l2 : List β} (h : List.Forall₂ R l1 l2) (hR : ∀ a b, R a b → g b = f a) :
    l2.map g = l1.map f := by
  induction h with
  | nil => rfl
  | cons hab _ ih => simp [hR _ _ hab, ih]

theorem forall₂_mem_right {α β : Type} {R : α → β → Prop} {l1 : List α} {l2 : List β}
    (h : List.Forall₂ R l1 l2) : ∀ b ∈ l2, ∃ a ∈ l1, R a b := by
  induction h with
  | nil => intro b hb; simp at hb
  | cons hab _ ih =>
    intro b hb
    rcases List.mem_cons.1 hb with rfl | hb
    · exact ⟨_, List.mem_cons_self _ _, hab⟩
    · obtain ⟨a, ha, hr⟩ := ih b hb
      exact ⟨a, List.mem_cons_of_mem _ ha, hr⟩

theorem forall₂_mem_left {α β : Type} {R : α → β → Prop} {l1 : List α} {l2 : List β}
    (h : List.Forall₂ R l1 l2) : ∀ a ∈ l1, ∃ b ∈ l2, R a b := by
  induction h with
  | nil => intro a ha; simp at ha
  | cons hab _ ih =>
    intro a ha
    rcases List.mem_cons.1 ha with rfl | ha
    · exact ⟨_, List.mem_cons_self _ _, hab⟩
    · obtain ⟨b, hb, hr⟩ := ih a ha
      exact ⟨b, List.mem_cons_of_mem _ hb, hr⟩

theorem forall₂_getElem? {α β : Type} {R : α → β → Prop} {l1 : List α} {l2 : List β}
    (h : List.Forall₂ R l1 l2) : ∀ (i : Nat) (b : β), l2[i]? = some b →
      ∃ a, l1[i]? = some a ∧ R a b := by
  induction h with
  | nil => intro i b hb; simp at hb
  | cons hab _ ih =>
    intro i b hb
    cases i with
    | zero =>
      simp only [List.getElem?_cons_zero, Option.some.injEq] at hb
      subst hb
      exact ⟨_, by simp, hab⟩
    | succ i =>
      simp only [List.getElem?_cons_succ] at hb
      obtain ⟨a, ha, hr⟩ := ih i b hb
      exact ⟨a, by simpa using ha, hr⟩

theorem forall₂_getElem?_left {α β : Type} {R : α → β → Prop} {l1 : List α} {l2 : List β}
    (h : List.Forall₂ R l1 l2) : ∀ (i : Nat) (a : α), l1[i]? = some a →
      ∃ b, l2[i]? = some b ∧ R a b := by
  induction h with
  | nil => intro i b hb; simp at hb
  | cons hab _ ih =>
    intro i a ha
    cases i with
    | zero =>
      simp only [List.getElem?_cons_zero, Option.some.injEq] at ha
      subst ha
      exact ⟨_, by simp, hab⟩
    | succ i =>
      simp only [List.getElem?_cons_succ] at ha
      obtain ⟨b, hb, hr⟩ := ih i a ha
      exact ⟨b, by simpa using hb, hr⟩

/-- The resolved registry holds, under each key of the registry, the entry of that key
with its dependencies resolved. -/
theorem mapGet_resolved {svcs m done : List (String × serviceDef)}
    (hnd : (svcs.map Prod.fst).Nodup) (hp : m.Perm svcs) (h : resolveAll svcs m = .ok done)
    (k : String) (s : serviceDef) :
    mapGet done k = some s ↔
      ∃ svc, mapGet svcs k = some svc ∧ resolveDeps svcs svc svc.dependencies = .ok s := by
  have hf := resolveAll_ok svcs m done h
  have hkeys : done.map Prod.fst = m.map Prod.fst := forall₂_keys hf (fun a b hab => hab.1)
  have hndm : (m.map Prod.fst).Nodup := (hp.map Prod.fst).nodup_iff.2 hnd
  have hndd : (done.map Prod.fst).Nodup := by rw [hkeys]; exact hndm
  rw [mapGet_eq_some_iff done hndd]
  constructor
  · intro hks
    obtain ⟨a, ha, hka, hres⟩ := forall₂_mem_right hf (k, s) hks
    simp only at hka hres
    refine ⟨a.2, ?_, hres⟩
    rw [mapGet_eq_some_iff svcs hnd]
    have : a = (k, a.2) := by rw [hka]
    rw [← this]
    exact hp.mem_iff.1 ha
  · rintro ⟨svc, hsvc, hres⟩
    rw [mapGet_eq_some_iff svcs hnd] at hsvc
    obtain ⟨b, hb, hkb, hresb⟩ := forall₂_mem_left hf (k, svc) (hp.mem_iff.2 hsvc)
    simp only at hkb hresb
    rw [hres] at hresb
    simp only [Except.ok.injEq] at hresb
    have : b = (k, s) := by rw [← hkb, hresb]
    rw [← this]
    exact hb

theorem appendServices_ok_iff (svcs : List (String × serviceDef)) :
    ∀ (ts : List String) (ss : List serviceDef), appendServices svcs ts = .ok ss ↔
      List.Forall₂ (fun t s => mapGet svcs t = some s) ts ss := by
  intro ts
  induction ts with
  | nil =>
    intro ss
    simp only [appendServices, Except.ok.injEq, List.forall₂_nil_left_iff]
    exact eq_comm
  | cons t ts ih =>
    intro ss
    cases ht : mapGet svcs t with
    | none =>
      simp only [appendServices, ht]
      constructor
      · intro h
        cases h
      · intro hf
        cases hf with
        | cons h _ => rw [ht] at h; cases h
    | some s =>
      cases hr : appendServices svcs ts with
      | error err =>
        simp only [appendServices, ht, hr]
        constructor
        · intro h
          cases h
        · intro hf
          cases hf with
          | cons _ hf =>
            have := (ih _).2 hf
            rw [hr] at this
            cases this
      | ok ss1 =>
        simp only [appendServices, ht, hr, Except.ok.injEq]
        constructor
        · rintro rfl
          exact List.Forall₂.cons ht ((ih ss1).1 hr)
        · intro hf
          cases hf with
          | cons h hf =>
            rw [ht] at h
            cases h
            have := (ih _).2 hf
            rw [hr] at this
            cases this
            rfl

theorem appendServices_total (svcs : List (String × serviceDef)) :
    ∀ (ts : List String), (∀ t ∈ ts, (mapGet svcs t).isSome) →
      ∃ ss, appendServices svcs ts = .ok ss := by
  intro ts
  induction ts with
  | nil => intro _; exact ⟨[], rfl⟩
  | cons t ts ih =>
    intro h
    obtain ⟨s, hs⟩ := Option.isSome_iff_exists.1 (h t (List.mem_cons_self _ _))
    obtain ⟨ss, hss⟩ := ih (fun x hx => h x (List.mem_cons_of_mem _ hx))
    exact ⟨s :: ss, by simp only [appendServices, hs, hss]⟩

theorem appendServices_error (svcs : List (String × serviceDef)) :
    ∀ (ts : List String) (err : Err), appendServices svcs ts = .error err →
      err = Err.nilService := by
  intro ts
  induction ts with
  | nil => intro err h; simp [appendServices] at h
  | cons t ts ih =>
    intro err h
    cases ht : mapGet svcs t with
    | none =>
      simp only [appendServices, ht, Except.error.injEq] at h
      exact h.symm
    | some s =>
      cases hr : appendServices svcs ts with
      | error err1 =>
        simp only [appendServices, ht, hr, Except.error.injEq] at h
        subst h
        exact ih err1 hr
      | ok ss => simp [appendServices, ht, hr] at h

/-- The steps of a call of `genData` that returns a model. -/
theorem genData_ok {pkgName : String} {l : List (String × Option ProvType)} {order : RangeOrder}
    {d : tmplData} (h : genData pkgName l order = .ok d) :
    ∃ st done topoOrd, registerAll Registry.init l = .ok st ∧
      resolveAll st.svcs (order.1 st.svcs) = .ok done ∧
      st.g.sort cmpCompare = some topoOrd ∧
      appendServices done topoOrd = .ok d.Services := by
  unfold genData at h
  cases h1 : registerAll Registry.init l with
  | error err => simp [h1] at h
  | ok st =>
    cases h2 : resolveAll st.svcs (order.1 st.svcs) with
    | error err => simp [h1, h2] at h
    | ok done =>
      cases h3 : st.g.sort cmpCompare with
      | none => simp [h1, h2, h3] at h
      | some topoOrd =>
        cases h4 : appendServices done topoOrd with
        | error err => simp [h1, h2, h3, h4] at h
        | ok services =>
          simp only [h1, h2, h3, h4, Except.ok.injEq] at h
          subst h
          exact ⟨st, done, topoOrd, rfl, h2, h3, h4⟩


theorem init_registerAll {l : List (String × Option ProvType)} {st : Registry}
    (h : registerAll Registry.init l = .ok st) :
    (∀ e ∈ l, shapeOk e.2 = true ∧ typesOk e.2 = true ∧ aliasOk e.2 = true) ∧
    st.g.vertices = ids l ∧ st.g.vis = [] ∧ st.g.stack = [] ∧
    (∀ a, st.g.edgesOf a = depsFor l a) ∧
    (∀ a, mapGet st.svcs a = lastFor l a none) ∧ (st.svcs.map Prod.fst).Nodup := by
  obtain ⟨h1, h2, h3, h4, h5, h6, h7⟩ := registerAll_spec l _ st h
  refine ⟨h1, ?_, h3, h4, ?_, ?_, ?_⟩
  · simpa [Registry.init, newGraph] using h2
  · intro a
    simpa [Registry.init, newGraph, graph.edgesOf, mapGet] using h5 a
  · intro a
    simpa [Registry.init, mapGet] using h6 a
  · exact h7 (by simp [Registry.init])

/-- The edges of the graph that the first loop builds are the dependencies. -/
theorem edge_iff_dep {l : List (String × Option ProvType)} {st : Registry}
    (h : registerAll Registry.init l = .ok st) (a b : String) :
    Edge st.g.edges a b ↔ Dep l a b := by
  rw [edge_iff, (init_registerAll h).2.2.2.2.1 a, mem_depsFor]

theorem acyclic_of_acyclicDeps {l : List (String × Option ProvType)} {st : Registry}
    (h : registerAll Registry.init l = .ok st) (hac : AcyclicDeps l) : st.g.Acyclic := by
  have : Edge st.g.edges = Dep l := by
    funext a b
    exact propext (edge_iff_dep h a b)
  intro u
  rw [this]
  exact hac u

/-- A registry entry is the one built for a map entry that produces its key. -/
theorem registry_entry {l : List (String × Option ProvType)} {st : Registry}
    (h : registerAll Registry.init l = .ok st) {a : String} {svc : serviceDef}
    (hget : mapGet st.svcs a = some svc) :
    ∃ name tt o, (name, some tt) ∈ l ∧ tt.outs.head? = some o ∧ stringifyType o = a ∧
      svc = svcOf name tt o := by
  rw [(init_registerAll h).2.2.2.2.2.1 a] at hget
  rcases lastFor_some l a none svc hget with ⟨h1, _⟩ | ⟨e, he, hea, hes⟩
  · cases h1
  · obtain ⟨name, p⟩ := e
    cases p with
    | none => simp [svcOfEntry] at hes
    | some tt =>
      cases ho : tt.outs.head? with
      | none => simp [svcOfEntry, ho] at hes
      | some o =>
        simp only [svcOfEntry, ho, Option.map_some', Option.some.injEq] at hes
        simp only [producedId, ho, Option.map_some', Option.some.injEq] at hea
        exact ⟨name, tt, o, he, ho, hea, hes.symm⟩

/-- Every produced identity is a key of the registry. -/
theorem registry_has {l : List (String × Option ProvType)} {st : Registry}
    (h : registerAll Registry.init l = .ok st) {a : String} (ha : a ∈ ids l) :
    (mapGet st.svcs a).isSome := by
  rw [(init_registerAll h).2.2.2.2.2.1 a]
  obtain ⟨e, he, hea⟩ := (mem_ids l a).1 ha
  have hacc := (init_registerAll h).1
  -- the entry found last for the key is built from an accepted entry
  have key : ∀ (l : List (String × Option ProvType)) (acc : Option serviceDef),
      (∀ x ∈ l, shapeOk x.2 = true) → (acc.isSome ∨ ∃ x ∈ l, producedId x.2 = some a) →
        (lastFor l a acc).isSome := by
    intro l
    induction l with
    | nil =>
      intro acc _ hor
      rcases hor with h1 | ⟨x, hx, _⟩
      · exact h1
      · simp at hx
    | cons x l ih =>
      intro acc hok hor
      simp only [lastFor]
      apply ih _ (fun y hy => hok y (List.mem_cons_of_mem _ hy))
      by_cases hxa : producedId x.2 = some a
      · left
        simp only [hxa, if_true]
        obtain ⟨n, p⟩ := x
        cases p with
        | none => simp [producedId] at hxa
        | some tt =>
          cases ho : tt.outs.head? with
          | none => simp [producedId, ho] at hxa
          | some o => simp [svcOfEntry, ho]
      · simp only [hxa, if_false]
        rcases hor with h1 | ⟨y, hy, hya⟩
        · exact Or.inl h1
        · rcases List.mem_cons.1 hy with rfl | hy
          · exact absurd hya hxa
          · exact Or.inr ⟨y, hy, hya⟩
  exact key l none (fun x hx => (hacc x hx).1) (Or.inr ⟨e, he, hea⟩)

theorem resolveDeps_fields {svcs : List (String × serviceDef)} {svc s : serviceDef}
    {deps : List String} (h : resolveDeps svcs svc deps = .ok s) :
    s.Name = svc.Name ∧ s.Typ = svc.Typ ∧ s.dependencies = svc.dependencies ∧
    s.ProvFn.Params = svc.ProvFn.Params ∧ s.ProvFn.Returns = svc.ProvFn.Returns ∧
    s.ProvFn.ShouldReturnError = svc.ProvFn.ShouldReturnError := by
  obtain ⟨names, _, rfl⟩ := (resolveDeps_ok_iff svcs deps svc s).1 h
  exact ⟨rfl, rfl, rfl, rfl, rfl, rfl⟩

/-- A model returned by `genData`: the registry, the order returned by `sort`, and the
services, which are the registry entries of the sorted keys with resolved dependencies. -/
theorem genData_model {pkgName : String} {l : List (String × Option ProvType)}
    {order : RangeOrder} {d : tmplData} (h : genData pkgName l order = .ok d) :
    ∃ st topoOrd, registerAll Registry.init l = .ok st ∧ st.g.sort cmpCompare = some topoOrd ∧
      List.Forall₂ (fun t s => ∃ svc, mapGet st.svcs t = some svc ∧
        resolveDeps st.svcs svc svc.dependencies = .ok s) topoOrd d.Services := by
  obtain ⟨st, done, topoOrd, h1, h2, h3, h4⟩ := genData_ok h
  refine ⟨st, topoOrd, h1, h3, ?_⟩
  have hf := (appendServices_ok_iff done topoOrd d.Services).1 h4
  have hnd := (init_registerAll h1).2.2.2.2.2.2
  refine List.Forall₂.imp ?_ hf
  intro t s hts
  exact (mapGet_resolved hnd (order.2 st.svcs) h2 t s).1 hts


/-! ## The construction order -/

theorem entry_unique {l : List (String × Option ProvType)} (hn : DistinctNames l) {name : String}
    {p q : Option ProvType} (hp : (name, p) ∈ l) (hq : (name, q) ∈ l) : p = q := by
  have h1 := (mapGet_eq_some_iff l hn name p).2 hp
  have h2 := (mapGet_eq_some_iff l hn name q).2 hq
  rw [h1] at h2
  exact Option.some.inj h2

theorem acyclicDeps_of_rank (l : List (String × Option ProvType)) (rank : String → Nat)
    (h : ∀ e ∈ l, ∀ b ∈ paramIds e.2, rank b < ((producedId e.2).map rank).getD 0) :
    AcyclicDeps l := by
  have key : ∀ a b, Relation.TransGen (Dep l) a b → rank b < rank a := by
    have step : ∀ a b, Dep l a b → rank b < rank a := by
      rintro a b ⟨e, he, hea, hb⟩
      have := h e he b hb
      simpa [hea] using this
    intro a b hab
    induction hab with
    | single h1 => exact step _ _ h1
    | tail _ h2 ih => exact lt_trans (step _ _ h2) ih
  intro a ha
  exact lt_irrefl _ (key a a ha)

/-- C1: in a model that `genData` returns for a map (distinct names) whose dependency
relation is acyclic, every name in the `Args` of a service is the name of exactly one
service of the sequence, and that service stands at a strictly smaller index. -/
theorem C1_services_dependency_first (pkgName : String) (l : List (String × Option ProvType))
    (order : RangeOrder) (d : tmplData) (hnames : DistinctNames l) (hac : AcyclicDeps l)
    (h : genData pkgName l order = .ok d) :
    ∀ (i : Nat) (s : serviceDef), d.Services[i]? = some s → ∀ name ∈ s.ProvFn.Args,
      ∃ (j : Nat) (s1 : serviceDef), j < i ∧ d.Services[j]? = some s1 ∧ s1.Name = name ∧
        ∀ (k : Nat) (s2 : serviceDef), d.Services[k]? = some s2 → s2.Name = name → k = j := by
  obtain ⟨st, topoOrd, h1, h3, hf⟩ := genData_model h
  have hinit := init_registerAll h1
  obtain ⟨hnd, _, _, hdep⟩ := sortWith_spec st.g cmpCompare _ topoOrd hinit.2.2.1 hinit.2.2.2.1 h3
  have hdf := hdep (acyclic_of_acyclicDeps h1 hac)
  intro i s his name hname
  obtain ⟨t, hit, svc, hsvc, hres⟩ := forall₂_getElem? hf i s his
  obtain ⟨n, tt, o, hmem, ho, hot, rfl⟩ := registry_entry h1 hsvc
  obtain ⟨names, hfn, rfl⟩ := (resolveDeps_ok_iff _ _ _ _).1 hres
  simp only [svcOf, List.nil_append] at hname hfn
  obtain ⟨dep, hdepmem, d0, hd0, hd0n⟩ := forall₂_mem_right hfn name hname
  have hedge : Edge st.g.edges t dep := by
    rw [edge_iff_dep h1]
    exact ⟨(n, some tt), hmem, by simp [producedId, ho, hot], by simpa [paramIds] using hdepmem⟩
  obtain ⟨j, hji, hj⟩ := hdf i t hit dep hedge
  obtain ⟨s1, hs1, svc1, hsvc1, hres1⟩ := forall₂_getElem?_left hf j dep hj
  rw [hd0] at hsvc1
  cases hsvc1
  have hs1n : s1.Name = name := by rw [(resolveDeps_fields hres1).1, hd0n]
  refine ⟨j, s1, hji, hs1, hs1n, ?_⟩
  intro k s2 hk hs2n
  obtain ⟨tk, htk, svck, hsvck, hresk⟩ := forall₂_getElem? hf k s2 hk
  obtain ⟨nk, ttk, ok, hmemk, hok, hotk, rfl⟩ := registry_entry h1 hsvck
  obtain ⟨nj, ttj, oj, hmemj, hoj, hotj, rfl⟩ := registry_entry h1 hd0
  have e1 : nk = name := by rw [← hs2n, (resolveDeps_fields hresk).1]; rfl
  have e2 : nj = name := by rw [← hd0n]; rfl
  subst e1
  subst e2
  have := entry_unique hnames hmemk hmemj
  simp only [Option.some.injEq] at this
  subst this
  rw [hok] at hoj
  cases hoj
  rw [hotk] at hotj
  subst hotj
  have hklt : k < topoOrd.length := by
    by_contra hc
    rw [List.getElem?_eq_none (Nat.le_of_not_lt hc)] at htk
    cases htk
  exact List.getElem?_inj hklt hnd (htk.trans hj.symm)

theorem C1_services_dependency_first_witness :
    DistinctNames mapBA ∧ AcyclicDeps mapBA ∧
    genData "di" mapBA RangeOrder.insertion = .ok modelAB ∧
    ∀ (i : Nat) (s : serviceDef), modelAB.Services[i]? = some s → ∀ name ∈ s.ProvFn.Args,
      ∃ (j : Nat) (s1 : serviceDef), j < i ∧ modelAB.Services[j]? = some s1 ∧ s1.Name = name ∧
        ∀ (k : Nat) (s2 : serviceDef), modelAB.Services[k]? = some s2 → s2.Name = name → k = j :=
  ⟨by decide,
   acyclicDeps_of_rank _ (fun a => if a = "*ex/p.Y" then 1 else 0) (by decide),
   by decide,
   C1_services_dependency_first "di" mapBA RangeOrder.insertion modelAB (by decide)
     (acyclicDeps_of_rank _ (fun a => if a = "*ex/p.Y" then 1 else 0) (by decide)) (by decide)⟩


theorem forall₂_length {α β : Type} {R : α → β → Prop} {l1 : List α} {l2 : List β}
    (h : List.Forall₂ R l1 l2) : l1.length = l2.length := by
  induction h with
  | nil => rfl
  | cons _ _ ih => simp [ih]

/-- C9: every service of a returned model is built from the map entry of its name; its
`Args` has the length of the parameter list of that provider, and `Args[i]` is the name of
a service of the model whose produced type identity is the identity of the parameter `i`. -/
theorem C9_args_match_parameters (pkgName : String) (l : List (String × Option ProvType))
    (order : RangeOrder) (d : tmplData) (h : genData pkgName l order = .ok d) :
    ∀ s ∈ d.Services, ∃ tt : ProvType, (s.Name, some tt) ∈ l ∧
      s.ProvFn.Args.length = tt.ins.length ∧
      ∀ (i : Nat) (x : RType), tt.ins[i]? = some x →
        ∃ s1 ∈ d.Services, stringifyType s1.Typ = stringifyType x ∧
          s.ProvFn.Args[i]? = some s1.Name := by
  obtain ⟨st, topoOrd, h1, h3, hf⟩ := genData_model h
  have hinit := init_registerAll h1
  obtain ⟨_, hverts, _, _⟩ :=
    sortWith_spec st.g cmpCompare _ topoOrd hinit.2.2.1 hinit.2.2.2.1 h3
  intro s hs
  obtain ⟨t, _, svc, hsvc, hres⟩ := forall₂_mem_right hf s hs
  obtain ⟨n, tt, o, hmem, ho, hot, rfl⟩ := registry_entry h1 hsvc
  obtain ⟨names, hfn, rfl⟩ := (resolveDeps_ok_iff _ _ _ _).1 hres
  simp only [svcOf, List.nil_append] at hfn ⊢
  refine ⟨tt, hmem, ?_, ?_⟩
  · rw [← forall₂_length hfn, List.length_map]
  · intro i x hx
    have hdi : (tt.ins.map stringifyType)[i]? = some (stringifyType x) := by
      simp [List.getElem?_map, hx]
    obtain ⟨nm, hnm, d0, hd0, hd0n⟩ := forall₂_getElem?_left hfn i _ hdi
    obtain ⟨n0, tt0, o0, hmem0, ho0, hot0, hd0eq⟩ := registry_entry h1 hd0
    have hvert : stringifyType x ∈ st.g.vertices := by
      rw [hinit.2.1, mem_ids]
      exact ⟨(n0, some tt0), hmem0, by simp [producedId, ho0, hot0]⟩
    obtain ⟨s1, hs1, svc1, hsvc1, hres1⟩ := forall₂_mem_left hf _ (hverts _ hvert)
    rw [hd0] at hsvc1
    cases hsvc1
    have hf1 := resolveDeps_fields hres1
    refine ⟨s1, hs1, ?_, ?_⟩
    · rw [hf1.2.1, hd0eq]
      exact hot0
    · rw [hnm, hf1.1, hd0n]

theorem C9_args_match_parameters_witness :
    genData "di" mapBA RangeOrder.reversed = .ok modelAB ∧
    ∀ s ∈ modelAB.Services, ∃ tt : ProvType, (s.Name, some tt) ∈ mapBA ∧
      s.ProvFn.Args.length = tt.ins.length ∧
      ∀ (i : Nat) (x : RType), tt.ins[i]? = some x →
        ∃ s1 ∈ modelAB.Services, stringifyType s1.Typ = stringifyType x ∧
          s.ProvFn.Args[i]? = some s1.Name :=
  ⟨by decide, C9_args_match_parameters "di" mapBA RangeOrder.reversed modelAB (by decide)⟩


/-! ## Acceptance -/

/-- The keys that `sort` returns for the graph of the first loop are produced identities,
when every parameter identity is. -/
theorem sorted_keys_registered {l : List (String × Option ProvType)} {st : Registry}
    (h1 : registerAll Registry.init l = .ok st) (hreg : Registered l) {topoOrd : List String}
    (h3 : st.g.sort cmpCompare = some topoOrd) : ∀ t ∈ topoOrd, t ∈ ids l := by
  have hinit := init_registerAll h1
  obtain ⟨_, _, hreach, _⟩ :=
    sortWith_spec st.g cmpCompare _ topoOrd hinit.2.2.1 hinit.2.2.2.1 h3
  intro t ht
  obtain ⟨r, hr, hrt⟩ := hreach t ht
  rcases Relation.ReflTransGen.cases_tail hrt with heq | ⟨x, _, hxt⟩
  · rw [heq, ← hinit.2.1]
    exact hr
  · obtain ⟨e, he, _, hb⟩ := (edge_iff_dep h1 x t).1 hxt
    exact hreg e he t hb

/-- The resolution of a registry entry succeeds when every parameter identity is
produced. -/
theorem resolve_entry_total {l : List (String × Option ProvType)} {st : Registry}
    (h1 : registerAll Registry.init l = .ok st) (hreg : Registered l) {a : String}
    {svc : serviceDef} (hget : mapGet st.svcs a = some svc) :
    ∃ s, resolveDeps st.svcs svc svc.dependencies = .ok s := by
  obtain ⟨n, tt, o, hmem, _, _, rfl⟩ := registry_entry h1 hget
  apply resolveDeps_total
  intro dep hdep
  apply registry_has h1
  exact hreg (n, some tt) hmem dep (by simpa [svcOf, paramIds] using hdep)

/-- A map whose entries pass the checks of the first loop and whose parameter identities
are all produced is accepted: `genData` returns a model. -/
theorem genData_accepts (pkgName : String) (l : List (String × Option ProvType))
    (order : RangeOrder)
    (hvalid : ∀ e ∈ l, shapeOk e.2 = true ∧ typesOk e.2 = true ∧ aliasOk e.2 = true)
    (hreg : Registered l) : ∃ d, genData pkgName l order = .ok d := by
  obtain ⟨st, h1⟩ := registerAll_ok_of l Registry.init hvalid
  have hinit := init_registerAll h1
  have hnd := hinit.2.2.2.2.2.2
  obtain ⟨done, h2⟩ := resolveAll_total st.svcs (order.1 st.svcs) (by
    intro e he
    have hmem : (e.1, e.2) ∈ st.svcs := (order.2 st.svcs).mem_iff.1 he
    exact resolve_entry_total h1 hreg ((mapGet_eq_some_iff st.svcs hnd e.1 e.2).2 hmem))
  obtain ⟨topoOrd, h3⟩ := sortWith_total st.g cmpCompare st.g.fuel (Nat.le_succ _)
  have h3s : st.g.sort cmpCompare = some topoOrd := h3
  obtain ⟨services, h4⟩ := appendServices_total done topoOrd (by
    intro t ht
    have hid := sorted_keys_registered h1 hreg h3s t ht
    obtain ⟨svc, hsvc⟩ := Option.isSome_iff_exists.1 (registry_has h1 hid)
    obtain ⟨s, hs⟩ := resolve_entry_total h1 hreg hsvc
    rw [(mapGet_resolved hnd (order.2 st.svcs) h2 t s).2 ⟨svc, hsvc, hs⟩]
    rfl)
  refine ⟨{ PkgName := pkgName, Imports := st.Imports, Services := services }, ?_⟩
  simp only [genData, h1, h2, h3s, h4]

theorem not_acyclic_of_dep {l : List (String × Option ProvType)} {a b : String}
    (hab : Dep l a b) (hba : Dep l b a) : ¬ AcyclicDeps l :=
  fun hac => hac a (Relation.TransGen.tail (Relation.TransGen.single hab) hba)

/-- C4 (as amended): a dependency cycle is not detected. A map whose dependencies form a
cycle, whose entries pass the shape, kind and import checks and whose parameter identities
are all produced, is accepted: `genData` returns a model. -/
theorem C4_cycle_is_accepted (pkgName : String) (l : List (String × Option ProvType))
    (order : RangeOrder) (_hcyc : ¬ AcyclicDeps l)
    (hvalid : ∀ e ∈ l, shapeOk e.2 = true ∧ typesOk e.2 = true ∧ aliasOk e.2 = true)
    (hreg : Registered l) : ∃ d, genData pkgName l order = .ok d :=
  genData_accepts pkgName l order hvalid hreg

theorem C4_cycle_is_accepted_witness :
    ¬ AcyclicDeps mapCycle ∧
    (∀ e ∈ mapCycle, shapeOk e.2 = true ∧ typesOk e.2 = true ∧ aliasOk e.2 = true) ∧
    Registered mapCycle ∧ ∃ d, genData "di" mapCycle RangeOrder.insertion = .ok d :=
  ⟨not_acyclic_of_dep (a := "*ex/p.X") (b := "*ex/p.Y")
     ⟨("A", funcOf [ptrY] [ptrX]), by decide, by decide, by decide⟩
     ⟨("B", funcOf [ptrX] [ptrY]), by decide, by decide, by decide⟩,
   by decide, by decide,
   C4_cycle_is_accepted "di" mapCycle RangeOrder.insertion
     (not_acyclic_of_dep (a := "*ex/p.X") (b := "*ex/p.Y")
       ⟨("A", funcOf [ptrY] [ptrX]), by decide, by decide, by decide⟩
       ⟨("B", funcOf [ptrX] [ptrY]), by decide, by decide, by decide⟩)
     (by decide) (by decide)⟩

/-- C4, counterexample: the maps `{"A": func(*p.Y) *p.X, "B": func(*p.X) *p.Y}` and
`{"A": func(*p.X) *p.X}` have cyclic dependencies, and `genData` returns a model for
each; in the first, `B` is constructed before the `A` that it takes. -/
theorem C4_counterexample :
    (¬ AcyclicDeps mapCycle ∧ genData "di" mapCycle RangeOrder.insertion = .ok modelCycle) ∧
    (¬ AcyclicDeps mapSelf ∧ genData "di" mapSelf RangeOrder.insertion = .ok modelSelf) :=
  ⟨⟨not_acyclic_of_dep (a := "*ex/p.X") (b := "*ex/p.Y")
      ⟨("A", funcOf [ptrY] [ptrX]), by decide, by decide, by decide⟩
      ⟨("B", funcOf [ptrX] [ptrY]), by decide, by decide, by decide⟩,
    by decide⟩,
   ⟨fun hac => hac "*ex/p.X" (Relation.TransGen.single
      ⟨("A", funcOf [ptrX] [ptrX]), by decide, by decide, by decide⟩),
    by decide⟩⟩


/-! ## Independence of the order of the input map -/

section Simulation
variable {T : Type} [DecidableEq T]

theorem visitEach_sameRun {f f1 : graph T → T → Option (graph T)}
    (hf : ∀ g h v g1, SameRun g h → f g v = some g1 → ∃ h1, f1 h v = some h1 ∧ SameRun g1 h1) :
    ∀ (vs : List T) (g h g2 : graph T), SameRun g h → graph.visitEach f vs g = some g2 →
      ∃ h2, graph.visitEach f1 vs h = some h2 ∧ SameRun g2 h2 := by
  intro vs
  induction vs with
  | nil =>
    intro g h g2 hs hh
    simp only [graph.visitEach, Option.some.injEq] at hh
    subst hh
    exact ⟨h, rfl, hs⟩
  | cons v vs ih =>
    intro g h g2 hs hh
    by_cases hv : v ∈ g.vis
    · have hv1 : v ∈ h.vis := by rw [← hs.2.1]; exact hv
      simp only [graph.visitEach, hv, if_true] at hh
      simp only [graph.visitEach, hv1, if_true]
      exact ih g h g2 hs hh
    · have hv1 : v ∉ h.vis := by rw [← hs.2.1]; exact hv
      simp only [graph.visitEach, hv, if_false] at hh
      simp only [graph.visitEach, hv1, if_false]
      cases hfv : f g v with
      | none => simp [hfv] at hh
      | some g1 =>
        simp only [hfv, Option.some_bind] at hh
        obtain ⟨h1, hh1, hs1⟩ := hf g h v g1 hs hfv
        simp only [hh1, Option.some_bind]
        exact ih g1 h1 g2 hs1 hh

theorem traverse_sameRun : ∀ (n : Nat) (g h : graph T) (u : T) (g1 : graph T), SameRun g h →
    graph.traverse n g u = some g1 → ∃ h1, graph.traverse n h u = some h1 ∧ SameRun g1 h1 := by
  intro n
  induction n with
  | zero => intro g h u g1 _ hh; simp [graph.traverse] at hh
  | succ n ih =>
    intro g h u g1 hs hh
    simp only [graph.traverse, Option.map_eq_some'] at hh ⊢
    obtain ⟨g2, hloop, rfl⟩ := hh
    have hs0 : SameRun ({ g with vis := u :: g.vis } : graph T) { h with vis := u :: h.vis } :=
      ⟨hs.1, by simp only [hs.2.1], hs.2.2⟩
    obtain ⟨h2, hh2, hs2⟩ := visitEach_sameRun ih (g.edgesOf u) _ _ g2 hs0 hloop
    rw [hs.1 u] at hh2
    exact ⟨_, ⟨h2, hh2, rfl⟩, hs2.1, hs2.2.1, by simp only [hs2.2.2]⟩

theorem sortWith_sameRun (g h : graph T) (cmp : T → T → Int) (n : Nat) (l : List T)
    (hv : sortStableFunc cmp g.vertices = sortStableFunc cmp h.vertices) (hs : SameRun g h)
    (hl : g.sortWith n cmp = some l) : h.sortWith n cmp = some l := by
  simp only [graph.sortWith, Option.map_eq_some'] at hl ⊢
  obtain ⟨g2, h2, rfl⟩ := hl
  have hs0 : SameRun ({ g with vertices := sortStableFunc cmp g.vertices } : graph T)
      { h with vertices := sortStableFunc cmp h.vertices } := hs
  obtain ⟨h3, hh3, hs3⟩ := visitEach_sameRun (traverse_sameRun n) _ _ _ g2 hs0 h2
  rw [hv] at hh3
  exact ⟨h3, hh3, hs3.2.2.symm⟩

/-- The result of `sort` depends on the graph only through the sorted vertices and the
successors of each key. -/
theorem sort_sameRun (g h : graph T) (cmp : T → T → Int) (l : List T)
    (hv : sortStableFunc cmp g.vertices = sortStableFunc cmp h.vertices) (hs : SameRun g h)
    (hl : g.sort cmp = some l) : h.sort cmp = some l := by
  have h1 := sortWith_fuel_mono g cmp g.fuel (max g.fuel h.fuel) l (le_max_left _ _) hl
  have h2 := sortWith_sameRun g h cmp _ l hv hs h1
  obtain ⟨l1, hl1⟩ := sortWith_total h cmp h.fuel (Nat.le_succ _)
  have h3 := sortWith_fuel_mono h cmp h.fuel (max g.fuel h.fuel) l1 (le_max_right _ _) hl1
  rw [h2] at h3
  cases h3
  exact hl1

end Simulation

theorem cmpCompare_le_iff (a b : String) : cmpCompare a b ≤ 0 ↔ a.toList ≤ b.toList := by
  unfold cmpCompare
  by_cases h1 : a.toList < b.toList
  · simp only [h1, if_true]
    exact ⟨fun _ => le_of_lt h1, fun _ => by decide⟩
  · by_cases h2 : b.toList < a.toList
    · simp only [h1, h2, if_true, if_false]
      exact ⟨fun h => absurd h (by decide), fun h => absurd h (not_le_of_lt h2)⟩
    · simp only [h1, h2, if_false]
      exact ⟨fun _ => le_of_not_lt h2, fun _ => le_refl _⟩

/-- Sorting by `cmp.Compare` gives the same list for every arrangement of the same
strings. -/
theorem sortStableFunc_perm {l1 l2 : List String} (hp : l1.Perm l2) :
    sortStableFunc cmpCompare l1 = sortStableFunc cmpCompare l2 := by
  haveI : IsTotal String (fun a b => cmpCompare a b ≤ 0) :=
    ⟨fun a b => by simp only [cmpCompare_le_iff]; exact le_total _ _⟩
  haveI : IsTrans String (fun a b => cmpCompare a b ≤ 0) :=
    ⟨fun a b c => by simp only [cmpCompare_le_iff]; exact le_trans⟩
  haveI : IsAntisymm String (fun a b => cmpCompare a b ≤ 0) :=
    ⟨fun a b => by
      simp only [cmpCompare_le_iff]
      intro h1 h2
      exact String.ext (le_antisymm h1 h2)⟩
  unfold sortStableFunc
  exact List.eq_of_perm_of_sorted
    (((List.perm_insertionSort _ l1).trans hp).trans (List.perm_insertionSort _ l2).symm)
    (List.sorted_insertionSort _ l1) (List.sorted_insertionSort _ l2)

theorem depsFor_none (l : List (String × Option ProvType)) (a : String)
    (h : ∀ e ∈ l, producedId e.2 ≠ some a) : depsFor l a = [] := by
  apply List.eq_nil_iff_forall_not_mem.2
  intro b hb
  obtain ⟨y, hy, hya, _⟩ := (mem_depsFor l a b).1 hb
  exact h y hy hya

/-- With distinct produced identities, the registry and the edges do not depend on the
order of the entries. -/
theorem registry_perm {l1 l2 : List (String × Option ProvType)} (hp : l1.Perm l2)
    (hd : DistinctIds l1) (a : String) :
    lastFor l1 a none = lastFor l2 a none ∧ depsFor l1 a = depsFor l2 a := by
  have hd2 : DistinctIds l2 := (hp.filterMap _).nodup_iff.1 hd
  by_cases hex : ∃ e ∈ l1, producedId e.2 = some a
  · obtain ⟨e, he, hea⟩ := hex
    have h1 := lastFor_distinct l1 a hd e he hea none
    have h2 := lastFor_distinct l2 a hd2 e (hp.mem_iff.1 he) hea none
    exact ⟨h1.1.trans h2.1.symm, h1.2.trans h2.2.symm⟩
  · have hno1 : ∀ e ∈ l1, producedId e.2 ≠ some a := fun e he hea => hex ⟨e, he, hea⟩
    have hno2 : ∀ e ∈ l2, producedId e.2 ≠ some a :=
      fun e he hea => hex ⟨e, hp.mem_iff.2 he, hea⟩
    exact ⟨(lastFor_none l1 a none hno1).trans (lastFor_none l2 a none hno2).symm,
      (depsFor_none l1 a hno1).trans (depsFor_none l2 a hno2).symm⟩

theorem resolveDeps_congr {m1 m2 : List (String × serviceDef)}
    (h : ∀ a, mapGet m1 a = mapGet m2 a) (deps : List String) :
    ∀ svc, resolveDeps m1 svc deps = resolveDeps m2 svc deps := by
  induction deps with
  | nil => intro svc; rfl
  | cons dep deps ih =>
    intro svc
    simp only [resolveDeps, h dep]
    cases mapGet m2 dep with
    | none => rfl
    | some d => exact ih _

theorem appendServices_congr {m1 m2 : List (String × serviceDef)}
    (h : ∀ a, mapGet m1 a = mapGet m2 a) (ts : List String) :
    appendServices m1 ts = appendServices m2 ts := by
  induction ts with
  | nil => rfl
  | cons t ts ih => simp only [appendServices, h t, ih]

/-- C3: the services do not depend on the order in which the map is ranged over. For two
arrangements of the same entries with pairwise distinct produced type identities, and any
two orders of the range over the registry, when `genData` returns a model for the first it
returns one for the second with the identical `Services` sequence. -/
theorem C3_services_independent_of_order (pkgName : String)
    (l1 l2 : List (String × Option ProvType)) (order1 order2 : RangeOrder) (d1 : tmplData)
    (hp : l1.Perm l2) (hd : DistinctIds l1) (h : genData pkgName l1 order1 = .ok d1) :
    ∃ d2, genData pkgName l2 order2 = .ok d2 ∧ d2.Services = d1.Services := by
  obtain ⟨st1, done1, topoOrd, h1, h2, h3, h4⟩ := genData_ok h
  have hi1 := init_registerAll h1
  obtain ⟨st2, k1⟩ := registerAll_ok_of l2 Registry.init
    (fun e he => hi1.1 e (hp.mem_iff.2 he))
  have hi2 := init_registerAll k1
  have hsvcs : ∀ a, mapGet st2.svcs a = mapGet st1.svcs a := by
    intro a
    rw [hi1.2.2.2.2.2.1 a, hi2.2.2.2.2.2.1 a, (registry_perm hp hd a).1]
  have hedges : ∀ a, st1.g.edgesOf a = st2.g.edgesOf a := by
    intro a
    rw [hi1.2.2.2.2.1 a, hi2.2.2.2.2.1 a, (registry_perm hp hd a).2]
  have hnd1 := hi1.2.2.2.2.2.2
  have hnd2 := hi2.2.2.2.2.2.2
  obtain ⟨done2, k2⟩ := resolveAll_total st2.svcs (order2.1 st2.svcs) (by
    intro e he
    have hmem2 : (e.1, e.2) ∈ st2.svcs := (order2.2 st2.svcs).mem_iff.1 he
    have hget1 : mapGet st1.svcs e.1 = some e.2 := by
      rw [← hsvcs e.1]
      exact (mapGet_eq_some_iff st2.svcs hnd2 e.1 e.2).2 hmem2
    have hmem1 : (e.1, e.2) ∈ order1.1 st1.svcs :=
      (order1.2 st1.svcs).mem_iff.2 ((mapGet_eq_some_iff st1.svcs hnd1 e.1 e.2).1 hget1)
    obtain ⟨b, _, _, hres⟩ := forall₂_mem_left (resolveAll_ok _ _ _ h2) _ hmem1
    exact ⟨b.2, by rw [resolveDeps_congr hsvcs]; exact hres⟩)
  have hdone : ∀ a, mapGet done2 a = mapGet done1 a := by
    intro a
    apply Option.ext
    intro s
    simp only [Option.mem_def]
    rw [mapGet_resolved hnd2 (order2.2 st2.svcs) k2 a s,
      mapGet_resolved hnd1 (order1.2 st1.svcs) h2 a s]
    simp only [hsvcs a, resolveDeps_congr hsvcs]
  have k3 : st2.g.sort cmpCompare = some topoOrd := by
    refine sort_sameRun st1.g st2.g cmpCompare topoOrd ?_ ⟨hedges, ?_, ?_⟩ h3
    · rw [hi1.2.1, hi2.2.1]
      exact sortStableFunc_perm (hp.filterMap _)
    · rw [hi1.2.2.1, hi2.2.2.1]
    · rw [hi1.2.2.2.1, hi2.2.2.2.1]
  have k4 : appendServices done2 topoOrd = .ok d1.Services := by
    rw [appendServices_congr hdone]
    exact h4
  refine ⟨{ PkgName := pkgName, Imports := st2.Imports, Services := d1.Services }, ?_, rfl⟩
  simp only [genData, k1, k2, k3, k4]

theorem C3_services_independent_of_order_witness :
    mapBA.Perm mapBA.reverse ∧ DistinctIds mapBA ∧
    genData "di" mapBA RangeOrder.insertion = .ok modelAB ∧
    ∃ d2, genData "di" mapBA.reverse RangeOrder.reversed = .ok d2 ∧
      d2.Services = modelAB.Services :=
  ⟨(List.reverse_perm mapBA).symm, by decide, by decide,
   C3_services_independent_of_order "di" mapBA mapBA.reverse RangeOrder.insertion
     RangeOrder.reversed modelAB (List.reverse_perm mapBA).symm (by decide) (by decide)⟩


/-! ## Providers with more than two results, and providers of the same type -/

theorem register_extra_returns (st : Registry) (name : String) (ins : List RType)
    (o r1 r2 : RType) (rest : List RType) :
    register st name (funcOf ins (o :: r1 :: r2 :: rest)) =
      register st name (funcOf ins [o]) := by
  simp only [register, funcOf, checkReturns]

theorem registerAll_append (l1 l2 : List (String × Option ProvType)) (st : Registry) :
    registerAll st (l1 ++ l2) =
      match registerAll st l1 with
      | .error e => .error e
      | .ok st1 => registerAll st1 l2 := by
  induction l1 generalizing st with
  | nil => rfl
  | cons e l1 ih =>
    obtain ⟨name, p⟩ := e
    simp only [List.cons_append, registerAll]
    cases register st name p with
    | error err => rfl
    | ok st1 => exact ih st1

/-- C7 (as amended): a provider with more than two results is not rejected. The results
after the first are ignored: `genData` behaves exactly as for the map in which that
provider declares its first result only. -/
theorem C7_extra_returns_ignored (pkgName : String) (l1 l2 : List (String × Option ProvType))
    (order : RangeOrder) (name : String) (ins : List RType) (o r1 r2 : RType)
    (rest : List RType) :
    genData pkgName (l1 ++ (name, funcOf ins (o :: r1 :: r2 :: rest)) :: l2) order =
      genData pkgName (l1 ++ (name, funcOf ins [o]) :: l2) order := by
  have hreg : registerAll Registry.init (l1 ++ (name, funcOf ins (o :: r1 :: r2 :: rest)) :: l2) =
      registerAll Registry.init (l1 ++ (name, funcOf ins [o]) :: l2) := by
    rw [registerAll_append, registerAll_append]
    cases registerAll Registry.init l1 with
    | error err => rfl
    | ok st1 => simp only [registerAll, register_extra_returns]
  simp only [genData, hreg]

/-- C7, counterexample: `genData` returns a model for the map
`{"A": func() (*p.X, int, int)}`, whose provider has three results. -/
theorem C7_counterexample : genData "di" mapThree RangeOrder.insertion = .ok modelThree := by
  decide


/-- The registry entry under a key is built from the last entry of the map that produces
the key. -/
theorem lastFor_split (l : List (String × Option ProvType)) (a : String) :
    ∀ (acc : Option serviceDef) (s : serviceDef), lastFor l a acc = some s →
      (acc = some s ∧ ∀ e ∈ l, producedId e.2 ≠ some a) ∨
      ∃ l1 e l2, l = l1 ++ e :: l2 ∧ producedId e.2 = some a ∧ svcOfEntry e = some s ∧
        ∀ x ∈ l2, producedId x.2 ≠ some a := by
  induction l with
  | nil => intro acc s h; exact Or.inl ⟨h, by simp⟩
  | cons e l ih =>
    intro acc s h
    simp only [lastFor] at h
    rcases ih _ s h with ⟨h1, h2⟩ | ⟨l1, x, l2, hl, hxa, hxs, hlast⟩
    · by_cases he : producedId e.2 = some a
      · simp only [he, if_true] at h1
        exact Or.inr ⟨[], e, l, rfl, he, h1, h2⟩
      · simp only [he, if_false] at h1
        refine Or.inl ⟨h1, ?_⟩
        intro x hx
        rcases List.mem_cons.1 hx with rfl | hx
        · exact he
        · exact h2 x hx
    · exact Or.inr ⟨e :: l1, x, l2, by rw [hl]; rfl, hxa, hxs, hlast⟩

/-- C6 (as amended): two providers of the same type identity are not rejected. A map in
which the produced identities are not distinct, whose entries pass the checks and whose
parameter identities are all produced, is accepted; the returned sequence holds one
service for each produced identity, built from the provider that the range reaches last
among those producing it. -/
theorem C6_duplicate_overwrites (pkgName : String) (l : List (String × Option ProvType))
    (order : RangeOrder) (_hdup : ¬ DistinctIds l)
    (hvalid : ∀ e ∈ l, shapeOk e.2 = true ∧ typesOk e.2 = true ∧ aliasOk e.2 = true)
    (hreg : Registered l) :
    ∃ d, genData pkgName l order = .ok d ∧
      (d.Services.map (fun s => stringifyType s.Typ)).Nodup ∧
      (∀ a ∈ ids l, ∃ s ∈ d.Services, stringifyType s.Typ = a) ∧
      ∀ s ∈ d.Services, ∃ l1 name tt l2, l = l1 ++ (name, some tt) :: l2 ∧
        producedId (some tt) = some (stringifyType s.Typ) ∧ s.Name = name ∧
        ∀ x ∈ l2, producedId x.2 ≠ some (stringifyType s.Typ) := by
  obtain ⟨d, h⟩ := genData_accepts pkgName l order hvalid hreg
  obtain ⟨st, topoOrd, h1, h3, hf⟩ := genData_model h
  have hinit := init_registerAll h1
  obtain ⟨hnd, hverts, _, _⟩ :=
    sortWith_spec st.g cmpCompare _ topoOrd hinit.2.2.1 hinit.2.2.2.1 h3
  have hkey : ∀ t s, (∃ svc, mapGet st.svcs t = some svc ∧
      resolveDeps st.svcs svc svc.dependencies = .ok s) → stringifyType s.Typ = t := by
    rintro t s ⟨svc, hsvc, hres⟩
    obtain ⟨n, tt, o, _, _, hot, rfl⟩ := registry_entry h1 hsvc
    rw [(resolveDeps_fields hres).2.1]
    exact hot
  have hmap : d.Services.map (fun s => stringifyType s.Typ) = topoOrd.map (fun t => t) :=
    forall₂_keys hf hkey
  refine ⟨d, h, ?_, ?_, ?_⟩
  · rw [hmap, List.map_id']
    exact hnd
  · intro a ha
    have hat : a ∈ topoOrd := hverts a (by rw [hinit.2.1]; exact ha)
    obtain ⟨s, hs, hR⟩ := forall₂_mem_left hf a hat
    exact ⟨s, hs, hkey a s hR⟩
  · intro s hs
    obtain ⟨t, _, svc, hsvc, hres⟩ := forall₂_mem_right hf s hs
    have hts := hkey t s ⟨svc, hsvc, hres⟩
    rw [hinit.2.2.2.2.2.1 t] at hsvc
    rcases lastFor_split l t none svc hsvc with ⟨h0, _⟩ | ⟨l1, e, l2, hl, hea, hes, hlast⟩
    · cases h0
    · obtain ⟨name, p⟩ := e
      cases p with
      | none => simp [producedId] at hea
      | some tt =>
        refine ⟨l1, name, tt, l2, hl, by rw [hts]; exact hea, ?_, by rw [hts]; exact hlast⟩
        rw [(resolveDeps_fields hres).1]
        cases ho : tt.outs.head? with
        | none => simp [svcOfEntry, ho] at hes
        | some o =>
          simp only [svcOfEntry, ho, Option.map_some', Option.some.injEq] at hes
          rw [← hes]
          rfl

theorem C6_duplicate_overwrites_witness :
    ¬ DistinctIds mapDup ∧
    (∀ e ∈ mapDup, shapeOk e.2 = true ∧ typesOk e.2 = true ∧ aliasOk e.2 = true) ∧
    Registered mapDup ∧
    ∃ d, genData "di" mapDup RangeOrder.insertion = .ok d ∧
      (d.Services.map (fun s => stringifyType s.Typ)).Nodup ∧
      (∀ a ∈ ids mapDup, ∃ s ∈ d.Services, stringifyType s.Typ = a) ∧
      ∀ s ∈ d.Services, ∃ l1 name tt l2, mapDup = l1 ++ (name, some tt) :: l2 ∧
        producedId (some tt) = some (stringifyType s.Typ) ∧ s.Name = name ∧
        ∀ x ∈ l2, producedId x.2 ≠ some (stringifyType s.Typ) :=
  ⟨by decide, by decide, by decide,
   C6_duplicate_overwrites "di" mapDup RangeOrder.insertion (by decide) (by decide) (by decide)⟩

/-- C6, counterexample: the providers `A` and `B` of the map
`{"A": func() *p.X, "B": func() *p.X}` have different names and produce the same type
identity, and `genData` returns a model, in which only `B` is left. -/
theorem C6_counterexample :
    ¬ DistinctIds mapDup ∧ genData "di" mapDup RangeOrder.insertion = .ok modelDup := by
  decide


/-! ## The panics -/

theorem addDeps_error (name : String) (svcType : RType) (ins : List RType) :
    ∀ (j : Nat) (g : graph String) (svc : serviceDef) (err : Err),
      addDeps name svcType j ins (g, svc) = .error err →
        ∃ (i : Nat) (x : RType), ins[i]? = some x ∧ isValidKind x = false ∧
          err = Err.dependencyKind (j + i) name x.kind := by
  induction ins with
  | nil => intro j g svc err h; simp [addDeps] at h
  | cons x xs ih =>
    intro j g svc err h
    by_cases hx : isValidKind x = true
    · simp only [addDeps, hx, Bool.not_true, Bool.false_eq_true, if_false] at h
      obtain ⟨i, y, hy, hyv, herr⟩ := ih _ _ _ _ h
      exact ⟨i + 1, y, by simpa using hy, hyv, by rw [herr]; congr 1; omega⟩
    · simp only [addDeps, hx, Bool.not_false, if_true, Except.error.injEq] at h
      exact ⟨0, x, by simp, by simpa using hx, by rw [← h]; rfl⟩

/-- The panics of an iteration of the first loop, each with its cause. -/
theorem register_error {st : Registry} {name : String} {p : Option ProvType} {err : Err}
    (h : register st name p = .error err) :
    (p = none ∧ err = Err.nilType) ∨
    (∃ t, p = some t ∧ t.kind ≠ Kind.Func ∧ err = Err.notFunc name t.kind) ∨
    (∃ t, p = some t ∧ t.kind = Kind.Func ∧ t.outs = [] ∧ err = Err.noReturn name) ∨
    (∃ t o e, p = some t ∧ t.kind = Kind.Func ∧ t.outs = [o, e] ∧ e ≠ errType ∧
      err = Err.secondNotError name) ∨
    (∃ t o, p = some t ∧ shapeOk p = true ∧ t.outs.head? = some o ∧ isValidKind o = false ∧
      err = Err.returnKind name o.kind) ∨
    (∃ (t : ProvType) (i : Nat) (x : RType), p = some t ∧ shapeOk p = true ∧
      t.ins[i]? = some x ∧
      isValidKind x = false ∧ err = Err.dependencyKind i name x.kind) ∨
    (shapeOk p = true ∧ typesOk p = true ∧ aliasOk p = false ∧ err = Err.sliceBounds) := by
  cases p with
  | none =>
    simp only [register, Except.error.injEq] at h
    exact Or.inl ⟨rfl, h.symm⟩
  | some t =>
    by_cases hk : t.kind = Kind.Func
    · cases houts : t.outs with
      | nil =>
        simp only [register, hk, houts, checkReturns, ne_eq, not_true_eq_false, if_false,
          Except.error.injEq] at h
        exact Or.inr (Or.inr (Or.inl ⟨t, rfl, hk, houts, h.symm⟩))
      | cons o rest =>
        cases hc : checkReturns name (o :: rest) with
        | error e =>
          simp only [register, hk, houts, hc, ne_eq, not_true_eq_false, if_false,
            Except.error.injEq] at h
          subst h
          match rest, hc, houts with
          | [], hc, _ => simp [checkReturns] at hc
          | [e2], hc, houts =>
            by_cases he : e2 = errType
            · simp [checkReturns, he] at hc
            · simp only [checkReturns, he, ne_eq, not_false_eq_true, if_true,
                Except.error.injEq] at hc
              exact Or.inr (Or.inr (Or.inr (Or.inl ⟨t, o, e2, rfl, hk, houts, he, hc.symm⟩)))
          | _ :: _ :: _, hc, _ => simp [checkReturns] at hc
        | ok b =>
          have hb := (checkReturns_ok_iff name (o :: rest) b).1 hc
          have hshape : shapeOk (some t) = true := by
            rw [shapeOk_iff]
            exact ⟨hk, by rw [houts]; exact hb.1, by rw [houts]; exact hb.2.1⟩
          by_cases hv : isValidKind o = true
          · simp only [register, hk, houts, hc, hv, ne_eq, not_true_eq_false, if_false,
              Bool.not_true, Bool.false_eq_true] at h
            split at h
            · rename_i e hd
              simp only [Except.error.injEq] at h
              subst h
              obtain ⟨i, x, hx, hxv, herr⟩ := addDeps_error _ _ _ _ _ _ _ hd
              refine Or.inr (Or.inr (Or.inr (Or.inr (Or.inr (Or.inl
                ⟨t, i, x, rfl, hshape, hx, hxv, ?_⟩)))))
              rw [herr, Nat.zero_add]
            · rename_i g2 svc2 hd
              rw [addDeps_ok_iff] at hd
              split at h
              · rename_i e hpkg
                simp only [Except.error.injEq] at h
                subst h
                refine Or.inr (Or.inr (Or.inr (Or.inr (Or.inr (Or.inr ⟨hshape, ?_, ?_, ?_⟩)))))
                · simp only [typesOk, houts, List.head?_cons, Option.all_some, hv, Bool.true_and,
                    List.all_eq_true]
                  exact hd.1
                · simp only [aliasOk, houts, List.head?_cons, Option.all_some,
                    decide_eq_false_iff_not, importType]
                  intro hdot
                  simp only [beforeDot, hdot, if_true] at hpkg
                  cases hpkg
                · by_cases hdot : '.' ∈ (if o.kind = Kind.Ptr then o.elem else o).string.toList
                  · simp only [beforeDot, hdot, if_true] at hpkg
                    cases hpkg
                  · simp only [beforeDot, hdot, if_false, Except.error.injEq] at hpkg
                    exact hpkg.symm
              · cases h
          · simp only [register, hk, houts, hc, hv, ne_eq, not_true_eq_false, if_false,
              Bool.not_false, if_true, Except.error.injEq] at h
            exact Or.inr (Or.inr (Or.inr (Or.inr (Or.inl
              ⟨t, o, rfl, hshape, by simp [houts], by simpa using hv, h.symm⟩))))
    · simp only [register, hk, ne_eq, not_false_eq_true, if_true, Except.error.injEq] at h
      exact Or.inr (Or.inl ⟨t, rfl, hk, h.symm⟩)

/-- Where a panic of `genData` comes from. -/
theorem genData_error {pkgName : String} {l : List (String × Option ProvType)}
    {order : RangeOrder} {err : Err} (h : genData pkgName l order = .error err) :
    (∃ e ∈ l, ∃ st, register st e.1 e.2 = .error err) ∨
    (∃ st, registerAll Registry.init l = .ok st ∧
      ∃ e ∈ st.svcs, resolveDeps st.svcs e.2 e.2.dependencies = .error err) ∨
    (∃ st, registerAll Registry.init l = .ok st ∧
      (∀ e ∈ st.svcs, ∃ s, resolveDeps st.svcs e.2 e.2.dependencies = .ok s) ∧
      err = Err.nilService) := by
  unfold genData at h
  cases h1 : registerAll Registry.init l with
  | error e1 =>
    simp only [h1, Except.error.injEq] at h
    subst h
    exact Or.inl (registerAll_error l _ _ h1)
  | ok st =>
    cases h2 : resolveAll st.svcs (order.1 st.svcs) with
    | error e2 =>
      simp only [h1, h2, Except.error.injEq] at h
      subst h
      obtain ⟨e, he, hres⟩ := resolveAll_error _ _ _ h2
      exact Or.inr (Or.inl ⟨st, rfl, e, (order.2 st.svcs).mem_iff.1 he, hres⟩)
    | ok done =>
      have hall : ∀ e ∈ st.svcs, ∃ s, resolveDeps st.svcs e.2 e.2.dependencies = .ok s := by
        intro e he
        obtain ⟨b, _, _, hres⟩ :=
          forall₂_mem_left (resolveAll_ok _ _ _ h2) e ((order.2 st.svcs).mem_iff.2 he)
        exact ⟨b.2, hres⟩
      cases h3 : st.g.sort cmpCompare with
      | none =>
        obtain ⟨l1, hl1⟩ := sortWith_total st.g cmpCompare st.g.fuel (Nat.le_succ _)
        have : st.g.sort cmpCompare = some l1 := hl1
        rw [h3] at this
        cases this
      | some topoOrd =>
        cases h4 : appendServices done topoOrd with
        | error e4 =>
          simp only [h1, h2, h3, h4, Except.error.injEq] at h
          subst h
          exact Or.inr (Or.inr ⟨st, rfl, hall, appendServices_error _ _ _ h4⟩)
        | ok services => simp [h1, h2, h3, h4] at h

/-- The call of `sort` in `genData` always returns. -/
theorem genData_sort_returns (pkgName : String) (l : List (String × Option ProvType))
    (order : RangeOrder) : genData pkgName l order ≠ .error Err.sortDiverges := by
  intro h
  rcases genData_error h with ⟨e, _, st, hr⟩ | ⟨st, _, e, _, hres⟩ | ⟨_, _, _, herr⟩
  · rcases register_error hr with h1 | h1 | h1 | h1 | h1 | h1 | h1
    · cases h1.2
    · obtain ⟨_, _, _, h2⟩ := h1; cases h2
    · obtain ⟨_, _, _, _, h2⟩ := h1; cases h2
    · obtain ⟨_, _, _, _, _, _, _, h2⟩ := h1; cases h2
    · obtain ⟨_, _, _, _, _, _, h2⟩ := h1; cases h2
    · obtain ⟨_, _, _, _, _, _, _, h2⟩ := h1; cases h2
    · cases h1.2.2.2
  · obtain ⟨_, _, _, h2⟩ := resolveDeps_error _ _ _ _ hres
    cases h2
  · cases herr


theorem genData_of_registerAll_error {pkgName : String} {l : List (String × Option ProvType)}
    {order : RangeOrder} {err : Err} (h : registerAll Registry.init l = .error err) :
    genData pkgName l order = .error err := by
  simp only [genData, h]

theorem genData_fails_of_entry (pkgName : String) (l : List (String × Option ProvType))
    (order : RangeOrder) (e : String × Option ProvType) (he : e ∈ l)
    (hfail : ∀ st, ∃ err, register st e.1 e.2 = .error err) :
    ∃ err, genData pkgName l order = .error err := by
  obtain ⟨err, herr⟩ := registerAll_fails l Registry.init e he hfail
  exact ⟨err, genData_of_registerAll_error herr⟩

/-- A panic about the results of the provider `name` is raised for an entry of that name
with the faulty results. -/
theorem shape_error_entry {pkgName : String} {l : List (String × Option ProvType)}
    {order : RangeOrder} {name : String} :
    (genData pkgName l order = .error (Err.noReturn name) →
      ∃ t : ProvType, (name, some t) ∈ l ∧ t.outs = []) ∧
    (genData pkgName l order = .error (Err.secondNotError name) →
      ∃ (t : ProvType) (o e : RType), (name, some t) ∈ l ∧ t.outs = [o, e] ∧ e ≠ errType) := by
  constructor
  · intro h
    rcases genData_error h with ⟨e, he, st, hr⟩ | ⟨st, _, e, _, hres⟩ | ⟨_, _, _, herr⟩
    · obtain ⟨n, p⟩ := e
      rcases register_error hr with h1 | h1 | h1 | h1 | h1 | h1 | h1
      · cases h1.2
      · obtain ⟨_, _, _, h2⟩ := h1; cases h2
      · obtain ⟨t, hp, _, houts, h2⟩ := h1
        simp only [Err.noReturn.injEq] at h2
        subst h2
        subst hp
        exact ⟨t, he, houts⟩
      · obtain ⟨_, _, _, _, _, _, _, h2⟩ := h1; cases h2
      · obtain ⟨_, _, _, _, _, _, h2⟩ := h1; cases h2
      · obtain ⟨_, _, _, _, _, _, _, h2⟩ := h1; cases h2
      · cases h1.2.2.2
    · obtain ⟨_, _, _, h2⟩ := resolveDeps_error _ _ _ _ hres
      cases h2
    · cases herr
  · intro h
    rcases genData_error h with ⟨e, he, st, hr⟩ | ⟨st, _, e, _, hres⟩ | ⟨_, _, _, herr⟩
    · obtain ⟨n, p⟩ := e
      rcases register_error hr with h1 | h1 | h1 | h1 | h1 | h1 | h1
      · cases h1.2
      · obtain ⟨_, _, _, h2⟩ := h1; cases h2
      · obtain ⟨_, _, _, _, h2⟩ := h1; cases h2
      · obtain ⟨t, o, e, hp, _, houts, hne, h2⟩ := h1
        simp only [Err.secondNotError.injEq] at h2
        subst h2
        subst hp
        exact ⟨t, o, e, he, houts, hne⟩
      · obtain ⟨_, _, _, _, _, _, h2⟩ := h1; cases h2
      · obtain ⟨_, _, _, _, _, _, _, h2⟩ := h1; cases h2
      · cases h1.2.2.2
    · obtain ⟨_, _, _, h2⟩ := resolveDeps_error _ _ _ _ hres
      cases h2
    · cases herr

/-- C8: `genData` fails for every map that contains a provider without result, and for
every map that contains a provider with exactly two results the second of which is not
`error`. A provider with exactly two results whose second is `error` passes the check
(with `ShouldReturnError` set), and in a map (distinct names) that holds it `genData`
never raises one of the two panics about its results. -/
theorem C8_return_shape_checked (pkgName : String) (l : List (String × Option ProvType))
    (order : RangeOrder) (name : String) (ins : List RType) :
    ((name, funcOf ins []) ∈ l → ∃ err, genData pkgName l order = .error err) ∧
    (∀ o e, e ≠ errType → (name, funcOf ins [o, e]) ∈ l →
      ∃ err, genData pkgName l order = .error err) ∧
    (∀ o, checkReturns name [o, errType] = .ok true ∧
      (DistinctNames l → (name, funcOf ins [o, errType]) ∈ l →
        genData pkgName l order ≠ .error (Err.noReturn name) ∧
        genData pkgName l order ≠ .error (Err.secondNotError name))) := by
  refine ⟨?_, ?_, ?_⟩
  · intro hmem
    refine genData_fails_of_entry pkgName l order _ hmem ?_
    intro st
    exact ⟨Err.noReturn name, by simp only [register, funcOf, checkReturns]; rfl⟩
  · intro o e hne hmem
    refine genData_fails_of_entry pkgName l order _ hmem ?_
    intro st
    exact ⟨Err.secondNotError name, by simp [register, funcOf, checkReturns, hne]⟩
  · intro o
    refine ⟨by simp [checkReturns], ?_⟩
    intro hn hmem
    constructor
    · intro h
      obtain ⟨t, ht, houts⟩ := shape_error_entry.1 h
      have := entry_unique hn ht hmem
      simp only [funcOf, Option.some.injEq] at this
      subst this
      cases houts
    · intro h
      obtain ⟨t, o1, e1, ht, houts, hne⟩ := shape_error_entry.2 h
      have := entry_unique hn ht hmem
      simp only [funcOf, Option.some.injEq] at this
      subst this
      simp only [List.cons.injEq, and_true] at houts
      exact hne houts.2.symm

theorem C8_return_shape_checked_witness :
    (("A", funcOf [] []) ∈ mapNoReturn ∧
      ∃ err, genData "di" mapNoReturn RangeOrder.insertion = .error err) ∧
    (intType ≠ errType ∧ ("A", funcOf [] [ptrX, intType]) ∈ mapSecondInt ∧
      ∃ err, genData "di" mapSecondInt RangeOrder.insertion = .error err) ∧
    (DistinctNames mapWithError ∧ ("A", funcOf [] [ptrX, errType]) ∈ mapWithError ∧
      genData "di" mapWithError RangeOrder.insertion ≠ .error (Err.noReturn "A") ∧
      genData "di" mapWithError RangeOrder.insertion ≠ .error (Err.secondNotError "A")) :=
  ⟨⟨by decide,
    (C8_return_shape_checked "di" mapNoReturn RangeOrder.insertion "A" []).1 (by decide)⟩,
   ⟨by decide, by decide,
    (C8_return_shape_checked "di" mapSecondInt RangeOrder.insertion "A" []).2.1 ptrX intType
      (by decide) (by decide)⟩,
   ⟨by decide, by decide,
    ((C8_return_shape_checked "di" mapWithError RangeOrder.insertion "A" []).2.2 ptrX).2
      (by decide) (by decide)⟩⟩

/-! ## The import alias of an unqualified type -/

/-- C5, failing input: in the map `{"A": func(*p.Z) error}` the provider has a valid shape
and eligible types, and its parameter `*p.Z` is produced by no provider; `genData` fails,
for every order of the range, with the run-time error of the import alias and not with the
panic about the unregistered dependency. -/
theorem C5_failing_input :
    (∀ e ∈ mapErrorNeedsZ, shapeOk e.2 = true ∧ typesOk e.2 = true) ∧
    DistinctIds mapErrorNeedsZ ∧ ¬ Registered mapErrorNeedsZ ∧
    ∀ order, genData "di" mapErrorNeedsZ order = .error Err.sliceBounds :=
  ⟨by decide, by decide, by decide, fun _ => rfl⟩

/-- C10, failing input: the map `{"A": func() error}` has a valid shape, an eligible type,
distinct produced identities and no parameter; `genData` returns no model for it, for any
order of the range: it fails with the run-time error of the import alias. -/
theorem C10_failing_input :
    (∀ e ∈ mapError, shapeOk e.2 = true ∧ typesOk e.2 = true) ∧
    DistinctIds mapError ∧ Registered mapError ∧
    ∀ order, genData "di" mapError order = .error Err.sliceBounds :=
  ⟨by decide, by decide, by decide, fun _ => rfl⟩


/-! ## The two properties above when every import alias can be cut -/

theorem register_error_not_unknownDependency {st : Registry} {name : String}
    {p : Option ProvType} {dep n : String} :
    register st name p ≠ .error (Err.unknownDependency dep n) := by
  intro hr
  rcases register_error hr with h1 | h1 | h1 | h1 | h1 | h1 | h1
  · cases h1.2
  · obtain ⟨_, _, _, h2⟩ := h1; cases h2
  · obtain ⟨_, _, _, _, h2⟩ := h1; cases h2
  · obtain ⟨_, _, _, _, _, _, _, h2⟩ := h1; cases h2
  · obtain ⟨_, _, _, _, _, _, h2⟩ := h1; cases h2
  · obtain ⟨_, _, _, _, _, _, _, h2⟩ := h1; cases h2
  · cases h1.2.2.2

/-- The panic about an unregistered dependency names a parameter identity that no
provider produces and the provider that takes it. -/
theorem unknownDependency_names {pkgName : String} {l : List (String × Option ProvType)}
    {order : RangeOrder} {dep name : String}
    (h : genData pkgName l order = .error (Err.unknownDependency dep name)) :
    ∃ tt : ProvType, (name, some tt) ∈ l ∧ dep ∈ paramIds (some tt) ∧ dep ∉ ids l := by
  rcases genData_error h with ⟨e, _, st, hr⟩ | ⟨st, h1, e, he, hres⟩ | ⟨_, _, _, herr⟩
  · exact absurd hr register_error_not_unknownDependency
  · obtain ⟨dep0, hdep0, hnone, herr⟩ := resolveDeps_error _ _ _ _ hres
    simp only [Err.unknownDependency.injEq] at herr
    obtain ⟨rfl, rfl⟩ := herr
    have hnd := (init_registerAll h1).2.2.2.2.2.2
    have hget : mapGet st.svcs e.1 = some e.2 := (mapGet_eq_some_iff st.svcs hnd e.1 e.2).2 he
    obtain ⟨n, tt, o, hmem, _, _, heq⟩ := registry_entry h1 hget
    rw [heq] at hdep0 hres ⊢
    refine ⟨tt, hmem, by simpa [svcOf, paramIds] using hdep0, ?_⟩
    intro hin
    have := registry_has h1 hin
    rw [hnone] at this
    cases this
  · cases herr

/-- When every entry passes the checks of the first loop, the import alias included, and
the produced identities are distinct, `genData` fails with the panic about an unregistered
dependency exactly when some parameter identity is produced by no provider. -/
theorem unknownDependency_iff (pkgName : String) (l : List (String × Option ProvType))
    (order : RangeOrder)
    (hvalid : ∀ e ∈ l, shapeOk e.2 = true ∧ typesOk e.2 = true ∧ aliasOk e.2 = true)
    (hd : DistinctIds l) :
    (∃ dep name, genData pkgName l order = .error (Err.unknownDependency dep name)) ↔
      ¬ Registered l := by
  constructor
  · rintro ⟨dep, name, h⟩ hreg
    obtain ⟨tt, hmem, hdep, hnot⟩ := unknownDependency_names h
    exact hnot (hreg _ hmem dep hdep)
  · intro hnreg
    unfold Registered at hnreg
    push_neg at hnreg
    obtain ⟨e, he, b, hb, hbnot⟩ := hnreg
    obtain ⟨st, h1⟩ := registerAll_ok_of l Registry.init hvalid
    have hinit := init_registerAll h1
    have hnd := hinit.2.2.2.2.2.2
    obtain ⟨n, p⟩ := e
    cases p with
    | none => simp [paramIds] at hb
    | some tt =>
      have hshape := (shapeOk_iff tt).1 (hvalid _ he).1
      cases houts : tt.outs with
      | nil => exact absurd houts hshape.2.1
      | cons o rest =>
        have hprod : producedId (some tt) = some (stringifyType o) := by
          simp [producedId, houts]
        have hget : mapGet st.svcs (stringifyType o) = some (svcOf n tt o) := by
          rw [hinit.2.2.2.2.2.1, (lastFor_distinct l _ hd _ he hprod none).1]
          simp [svcOfEntry, houts]
        have hbnone : mapGet st.svcs b = none := by
          rw [hinit.2.2.2.2.2.1]
          apply lastFor_none
          intro x hx hxb
          exact hbnot ((mem_ids l b).2 ⟨x, hx, hxb⟩)
        have hfail : ∀ s, resolveDeps st.svcs (svcOf n tt o) (svcOf n tt o).dependencies ≠ .ok s := by
          intro s hs
          obtain ⟨names, hfn, _⟩ := (resolveDeps_ok_iff _ _ _ _).1 hs
          obtain ⟨_, _, d0, hd0, _⟩ :=
            forall₂_mem_left hfn b (by simpa [svcOf, paramIds] using hb)
          rw [hbnone] at hd0
          cases hd0
        cases h2 : resolveAll st.svcs (order.1 st.svcs) with
        | ok done =>
          have hmem : (stringifyType o, svcOf n tt o) ∈ order.1 st.svcs :=
            (order.2 st.svcs).mem_iff.2 ((mapGet_eq_some_iff st.svcs hnd _ _).1 hget)
          obtain ⟨x, _, _, hres⟩ := forall₂_mem_left (resolveAll_ok _ _ _ h2) _ hmem
          exact absurd hres (hfail x.2)
        | error err =>
          obtain ⟨x, _, hres⟩ := resolveAll_error _ _ _ h2
          obtain ⟨dep, _, _, herr⟩ := resolveDeps_error _ _ _ _ hres
          refine ⟨dep, x.2.Name, ?_⟩
          simp only [genData, h1, h2, herr]

theorem length_ids_of_shapeOk (l : List (String × Option ProvType))
    (h : ∀ e ∈ l, shapeOk e.2 = true) : (ids l).length = l.length := by
  induction l with
  | nil => rfl
  | cons e l ih =>
    obtain ⟨n, p⟩ := e
    have he := h (n, p) (List.mem_cons_self _ _)
    cases p with
    | none => simp [shapeOk] at he
    | some tt =>
      have hs := (shapeOk_iff tt).1 he
      cases houts : tt.outs with
      | nil => exact absurd houts hs.2.1
      | cons o rest =>
        have : producedId (some tt) = some (stringifyType o) := by simp [producedId, houts]
        simp only [ids, List.filterMap_cons, this, List.length_cons]
        have := ih (fun x hx => h x (List.mem_cons_of_mem _ hx))
        simp only [ids] at this
        rw [this]

/-- When every entry passes the checks of the first loop, the import alias included, the
names and the produced identities are distinct and every parameter identity is produced,
`genData` returns a model whose services are as many as the entries, each key being the
name of the service at exactly one index. -/
theorem services_once_each (pkgName : String) (l : List (String × Option ProvType))
    (order : RangeOrder) (hn : DistinctNames l)
    (hvalid : ∀ e ∈ l, shapeOk e.2 = true ∧ typesOk e.2 = true ∧ aliasOk e.2 = true)
    (hd : DistinctIds l) (hreg : Registered l) :
    ∃ d, genData pkgName l order = .ok d ∧ d.Services.length = l.length ∧
      ∀ e ∈ l, ∃ (i : Nat) (s : serviceDef), d.Services[i]? = some s ∧ s.Name = e.1 ∧
        ∀ (j : Nat) (s1 : serviceDef), d.Services[j]? = some s1 → s1.Name = e.1 → j = i := by
  obtain ⟨d, h⟩ := genData_accepts pkgName l order hvalid hreg
  obtain ⟨st, topoOrd, h1, h3, hf⟩ := genData_model h
  have hinit := init_registerAll h1
  obtain ⟨hnd, hverts, _, _⟩ :=
    sortWith_spec st.g cmpCompare _ topoOrd hinit.2.2.1 hinit.2.2.2.1 h3
  have hsub := sorted_keys_registered h1 hreg h3
  refine ⟨d, h, ?_, ?_⟩
  · have hperm : topoOrd.Perm (ids l) := by
      refine (List.perm_ext_iff_of_nodup hnd hd).2 ?_
      intro a
      exact ⟨hsub a, fun ha => hverts a (by rw [hinit.2.1]; exact ha)⟩
    rw [← forall₂_length hf, hperm.length_eq]
    exact length_ids_of_shapeOk l (fun e he => (hvalid e he).1)
  · intro e he
    obtain ⟨n, p⟩ := e
    cases p with
    | none => exact absurd (hvalid _ he).1 (by simp [shapeOk])
    | some tt =>
      have hshape := (shapeOk_iff tt).1 (hvalid _ he).1
      cases houts : tt.outs with
      | nil => exact absurd houts hshape.2.1
      | cons o rest =>
        have hprod : producedId (some tt) = some (stringifyType o) := by
          simp [producedId, houts]
        have hin : stringifyType o ∈ topoOrd :=
          hverts _ (by rw [hinit.2.1]; exact (mem_ids l _).2 ⟨_, he, hprod⟩)
        obtain ⟨i, hi⟩ := List.mem_iff_getElem?.1 hin
        obtain ⟨s, hs, svc, hsvc, hres⟩ := forall₂_getElem?_left hf i _ hi
        have hsvc1 : mapGet st.svcs (stringifyType o) = some (svcOf n tt o) := by
          rw [hinit.2.2.2.2.2.1, (lastFor_distinct l _ hd _ he hprod none).1]
          simp [svcOfEntry, houts]
        rw [hsvc1] at hsvc
        cases hsvc
        refine ⟨i, s, hs, (resolveDeps_fields hres).1, ?_⟩
        intro j s1 hj hname
        obtain ⟨tj, htj, svcj, hsvcj, hresj⟩ := forall₂_getElem? hf j s1 hj
        obtain ⟨nj, ttj, oj, hmemj, hoj, hotj, rfl⟩ := registry_entry h1 hsvcj
        have e1 : nj = n := by
          have := (resolveDeps_fields hresj).1
          simp only [svcOf] at this hname
          rw [← this]
          exact hname
        subst e1
        have := entry_unique hn hmemj he
        simp only [Option.some.injEq] at this
        subst this
        rw [houts] at hoj
        simp only [List.head?_cons, Option.some.injEq] at hoj
        subst hoj
        subst hotj
        have hjlt : j < topoOrd.length := by
          by_contra hc
          rw [List.getElem?_eq_none (Nat.le_of_not_lt hc)] at htj
          cases htj
        exact List.getElem?_inj hjlt hnd (htj.trans hi.symm)


/-! ## The description of the results -/

theorem returnsOf_svcOf {svcs : List (String × serviceDef)} {name : String} {tt : ProvType}
    {o : RType} {s : serviceDef} (ho : tt.outs.head? = some o)
    (hres : resolveDeps svcs (svcOf name tt o) (svcOf name tt o).dependencies = .ok s) :
    s.Name = name ∧ ReturnsOf tt s := by
  obtain ⟨h1, h2, _, _, h5, h6⟩ := resolveDeps_fields hres
  refine ⟨h1, ?_, ?_, ?_⟩
  · rw [h2]; exact ho
  · rw [h6]; simp [svcOf]
  · rw [h5, h2]
    by_cases hlen : tt.outs.length = 2 <;> simp [svcOf, hlen]

/-- C12: every service of a returned model is built from the map entry of its name, has
`ShouldReturnError` true exactly when that provider declares two results, and has
`Returns` equal to the printed produced type, followed by "error" in that case only; with
distinct produced identities every provider of the map has such a service. -/
theorem C12_returns_and_error_flag (pkgName : String) (l : List (String × Option ProvType))
    (order : RangeOrder) (d : tmplData) (h : genData pkgName l order = .ok d) :
    (∀ s ∈ d.Services, ∃ tt : ProvType, (s.Name, some tt) ∈ l ∧ ReturnsOf tt s) ∧
    (DistinctIds l → ∀ (name : String) (tt : ProvType), (name, some tt) ∈ l →
      ∃ s ∈ d.Services, s.Name = name ∧ ReturnsOf tt s) := by
  obtain ⟨st, topoOrd, h1, h3, hf⟩ := genData_model h
  have hinit := init_registerAll h1
  obtain ⟨_, hverts, _, _⟩ :=
    sortWith_spec st.g cmpCompare _ topoOrd hinit.2.2.1 hinit.2.2.2.1 h3
  constructor
  · intro s hs
    obtain ⟨t, _, svc, hsvc, hres⟩ := forall₂_mem_right hf s hs
    obtain ⟨n, tt, o, hmem, ho, _, rfl⟩ := registry_entry h1 hsvc
    obtain ⟨hn, hr⟩ := returnsOf_svcOf ho hres
    exact ⟨tt, by rw [hn]; exact hmem, hr⟩
  · intro hd name tt hmem
    have hshape := (shapeOk_iff tt).1 (hinit.1 _ hmem).1
    cases houts : tt.outs with
    | nil => exact absurd houts hshape.2.1
    | cons o rest =>
      have ho : tt.outs.head? = some o := by simp [houts]
      have hprod : producedId (some tt) = some (stringifyType o) := by
        simp [producedId, houts]
      have hin : stringifyType o ∈ topoOrd :=
        hverts _ (by rw [hinit.2.1]; exact (mem_ids l _).2 ⟨_, hmem, hprod⟩)
      obtain ⟨s, hs, svc, hsvc, hres⟩ := forall₂_mem_left hf _ hin
      have hsvc1 : mapGet st.svcs (stringifyType o) = some (svcOf name tt o) := by
        rw [hinit.2.2.2.2.2.1, (lastFor_distinct l _ hd _ hmem hprod none).1]
        simp [svcOfEntry, houts]
      rw [hsvc1] at hsvc
      cases hsvc
      obtain ⟨hn, hr⟩ := returnsOf_svcOf ho hres
      exact ⟨s, hs, hn, hr⟩

theorem C12_returns_and_error_flag_witness :
    genData "di" mapWithError RangeOrder.insertion = .ok modelWithError ∧
    (∀ s ∈ modelWithError.Services, ∃ tt : ProvType,
      (s.Name, some tt) ∈ mapWithError ∧ ReturnsOf tt s) ∧
    (DistinctIds mapWithError → ∀ (name : String) (tt : ProvType),
      (name, some tt) ∈ mapWithError →
        ∃ s ∈ modelWithError.Services, s.Name = name ∧ ReturnsOf tt s) :=
  ⟨by decide,
   C12_returns_and_error_flag "di" mapWithError RangeOrder.insertion modelWithError (by decide)⟩

/-- C13, failing input: the single provider of the map `{"A": func() (struct{}, error)}`
is a function with two results, the second an `error`; its produced type is a struct, so
eligible; the identities are distinct, there is no parameter and no cycle. `genData`
returns no model, for any order of the range: the anonymous type is printed without a dot
and the slice of the import alias fails. -/
theorem C13_failing_input :
    (∀ e ∈ mapAnon, shapeOk e.2 = true ∧ typesOk e.2 = true) ∧
    DistinctNames mapAnon ∧ DistinctIds mapAnon ∧ Registered mapAnon ∧ AcyclicDeps mapAnon ∧
    ∀ order, genData "di" mapAnon order = .error Err.sliceBounds :=
  ⟨by decide, by decide, by decide, by decide,
   acyclicDeps_of_rank _ (fun _ => 0) (by decide), fun _ => rfl⟩

/-! ## Type identities and eligible kinds -/

/-- C14 (as amended): for every type `t` that is not itself a pointer, the identity of the
pointer to `t` is "*" followed by the identity of `t`, and the two identities differ. -/
theorem C14_pointer_identity (t : RType) (h : t.kind ≠ Kind.Ptr) :
    stringifyType (.ptr t) = "*" ++ stringifyType t ∧
    stringifyType (.ptr t) ≠ stringifyType t := by
  have e1 : stringifyType (.ptr t) = "*" ++ t.pkgPath ++ "." ++ t.name := rfl
  have e2 : stringifyType t = t.pkgPath ++ "." ++ t.name := by
    unfold stringifyType
    rw [if_neg h]
  have h1 : stringifyType (.ptr t) = "*" ++ stringifyType t := by
    rw [e1, e2, String.append_assoc, String.append_assoc, String.append_assoc]
  refine ⟨h1, ?_⟩
  intro heq
  have := congrArg String.length heq
  rw [h1, String.length_append] at this
  have h2 : "*".length = 1 := by decide
  omega

theorem C14_pointer_identity_witness :
    anonStruct.kind ≠ Kind.Ptr ∧
    stringifyType (.ptr anonStruct) = "*" ++ stringifyType anonStruct ∧
    stringifyType (.ptr anonStruct) ≠ stringifyType anonStruct :=
  ⟨by decide, C14_pointer_identity anonStruct (by decide)⟩

/-- C14, counterexample: for the pointer type `*p.X` the identity of the pointer to it is
"*." and not "*" followed by its identity "*ex/p.X"; and the pointer type `*struct{}` and
the pointer to it receive the same identity "*.". -/
theorem C14_counterexample :
    stringifyType (.ptr ptrX) = "*." ∧
    stringifyType (.ptr ptrX) ≠ "*" ++ stringifyType ptrX ∧
    stringifyType (.ptr (.ptr anonStruct)) = stringifyType (.ptr anonStruct) := by
  decide

/-- An iteration of the first loop panics on an entry whose first result or one of whose
parameters does not pass `isValidKind`. -/
theorem register_fails_of_invalid (st : Registry) (name : String) (tt : ProvType) (t : RType)
    (hmem : tt.outs.head? = some t ∨ t ∈ tt.ins) (hinv : isValidKind t = false) :
    ∃ err, register st name (some tt) = .error err := by
  cases hr : register st name (some tt) with
  | error err => exact ⟨err, rfl⟩
  | ok st1 =>
    obtain ⟨t1, o, rest, hp, houts, _, h2, _⟩ := register_ok hr
    simp only [Option.some.injEq] at hp
    subst hp
    simp only [typesOk, houts, List.head?_cons, Option.all_some, Bool.and_eq_true,
      List.all_eq_true] at h2
    rcases hmem with hm | hm
    · rw [houts] at hm
      simp only [List.head?_cons, Option.some.injEq] at hm
      subst hm
      rw [h2.1] at hinv
      cases hinv
    · rw [h2.2 t hm] at hinv
      cases hinv

/-- C15: `isValidKind t` holds exactly when `t` is a struct or an interface, or a pointer
whose element is a struct or an interface; it fails for every other kind (primitives,
slices, maps, functions) and for a pointer to a pointer; and `genData` fails for every map
that holds a provider whose first result or one of whose parameters is not valid. -/
theorem C15_valid_kinds (t : RType) :
    (isValidKind t = true ↔
      (t.kind = Kind.Struct ∨ t.kind = Kind.Interface) ∨
      (t.kind = Kind.Ptr ∧ (t.elem.kind = Kind.Struct ∨ t.elem.kind = Kind.Interface))) ∧
    (t.kind ≠ Kind.Struct → t.kind ≠ Kind.Interface → t.kind ≠ Kind.Ptr →
      isValidKind t = false) ∧
    isValidKind (.ptr (.ptr t)) = false ∧
    (isValidKind t = false →
      ∀ (pkgName : String) (l : List (String × Option ProvType)) (order : RangeOrder)
        (name : String) (tt : ProvType),
        (name, some tt) ∈ l → (tt.outs.head? = some t ∨ t ∈ tt.ins) →
          ∃ err, genData pkgName l order = .error err) := by
  have hiff : isValidKind t = true ↔
      (t.kind = Kind.Struct ∨ t.kind = Kind.Interface) ∨
      (t.kind = Kind.Ptr ∧ (t.elem.kind = Kind.Struct ∨ t.elem.kind = Kind.Interface)) := by
    by_cases hp : t.kind = Kind.Ptr
    · simp only [isValidKind, hp, if_true, Bool.or_eq_true, beq_iff_eq, true_and]
      constructor
      · intro h
        exact Or.inr (Or.symm h)
      · rintro (h | h)
        · rcases h with h | h <;> cases h
        · exact Or.symm h
    · simp only [isValidKind, hp, if_false, Bool.or_eq_true, beq_iff_eq, false_and, or_false]
      exact Or.comm
  refine ⟨hiff, ?_, ?_, ?_⟩
  · intro h1 h2 h3
    cases hv : isValidKind t with
    | false => rfl
    | true =>
      rcases hiff.1 hv with (h | h) | ⟨h, _⟩
      · exact absurd h h1
      · exact absurd h h2
      · exact absurd h h3
  · simp [isValidKind, RType.kind, RType.elem]
  · intro hinv pkgName l order name tt hmem hin
    exact genData_fails_of_entry pkgName l order (name, some tt) hmem
      (fun st => register_fails_of_invalid st name tt t hin hinv)

theorem C15_valid_kinds_witness :
    (intType.kind ≠ Kind.Struct ∧ intType.kind ≠ Kind.Interface ∧ intType.kind ≠ Kind.Ptr ∧
      isValidKind intType = false) ∧
    (("A", some { kind := Kind.Func, ins := [intType], outs := [ptrX] }) ∈ mapIntParam ∧
      ∃ err, genData "di" mapIntParam RangeOrder.insertion = .error err) :=
  ⟨⟨by decide, by decide, by decide,
    (C15_valid_kinds intType).2.1 (by decide) (by decide) (by decide)⟩,
   ⟨by decide,
    (C15_valid_kinds intType).2.2.2 (by decide) "di" mapIntParam RangeOrder.insertion "A"
      { kind := Kind.Func, ins := [intType], outs := [ptrX] } (by decide)
      (Or.inr (by decide))⟩⟩


/-! ## Cycles and the elements of the sorted list -/

section Closure
variable {T : Type} [DecidableEq T]

theorem not_acyclic_of_edges {g : graph T} {a b : T} (hab : Edge g.edges a b)
    (hba : Edge g.edges b a) : ¬ g.Acyclic :=
  fun h => h a (Relation.TransGen.tail (Relation.TransGen.single hab) hba)

/-- C16 (as amended): on a graph whose edges contain a cycle `sort` returns a list; the
cycle is neither detected nor reported. -/
theorem C16_sort_returns_on_cycles (g : graph T) (cmp : T → T → Int) (_hcyc : ¬ g.Acyclic) :
    ∃ l, g.sort cmp = some l :=
  sortWith_total g cmp g.fuel (Nat.le_succ _)

theorem C16_sort_returns_on_cycles_witness :
    ¬ (buildGraph [GraphOp.addVertex (0 : Fin 2), .addEdge 0 1, .addEdge 1 0]).Acyclic ∧
    ∃ l, (buildGraph [GraphOp.addVertex (0 : Fin 2), .addEdge 0 1, .addEdge 1 0]).sort
      (fun a b => (a.val : Int) - b.val) = some l :=
  ⟨not_acyclic_of_edges (a := 0) (b := 1) (by decide) (by decide),
   C16_sort_returns_on_cycles _ _
     (not_acyclic_of_edges (a := 0) (b := 1) (by decide) (by decide))⟩

/-- C16, counterexample: the edges `0 → 1` and `1 → 0` form a cycle, and `sort` returns
the list `[1, 0]` for the graph with the vertex `0` and these edges. -/
theorem C16_counterexample :
    ¬ (buildGraph [GraphOp.addVertex (0 : Fin 2), .addEdge 0 1, .addEdge 1 0]).Acyclic ∧
    (buildGraph [GraphOp.addVertex (0 : Fin 2), .addEdge 0 1, .addEdge 1 0]).sort
      (fun a b => (a.val : Int) - b.val) = some [1, 0] :=
  ⟨not_acyclic_of_edges (a := 0) (b := 1) (by decide) (by decide),
   by decide⟩

theorem visitEach_closed {E : List (T × List T)} {f : graph T → T → Option (graph T)}
    (hg : ∀ g v g1, v ∉ g.vis → f g v = some g1 → Grows [v] g g1)
    (hf : ∀ g v g1, g.edges = E → v ∉ g.vis → Closed E g → f g v = some g1 → Closed E g1) :
    ∀ (vs : List T) (g g2 : graph T), g.edges = E → Closed E g →
      graph.visitEach f vs g = some g2 → Closed E g2 := by
  intro vs
  induction vs with
  | nil =>
    intro g g2 _ hc h
    simp only [graph.visitEach, Option.some.injEq] at h
    subst h
    exact hc
  | cons v vs ih =>
    intro g g2 he hc h
    by_cases hv : v ∈ g.vis
    · simp only [graph.visitEach, hv, if_true] at h
      exact ih g g2 he hc h
    · simp only [graph.visitEach, hv, if_false] at h
      cases hfv : f g v with
      | none => simp [hfv] at h
      | some g1 =>
        simp only [hfv, Option.some_bind] at h
        exact ih g1 g2 ((hg g v g1 hv hfv).1.trans he) (hf g v g1 he hv hc hfv) h

/-- A call of `traverse` keeps every successor of a pushed key marked. -/
theorem traverse_closed {E : List (T × List T)} :
    ∀ (n : Nat) (g : graph T) (u : T) (g1 : graph T), g.edges = E → u ∉ g.vis →
      Closed E g → graph.traverse n g u = some g1 → Closed E g1 := by
  intro n
  induction n with
  | zero => intro g u g1 _ _ _ h; simp [graph.traverse] at h
  | succ n ih =>
    intro g u g1 he _ hc h
    simp only [graph.traverse, Option.map_eq_some'] at h
    obtain ⟨g2, hloop, rfl⟩ := h
    have hgr := visitEach_grows (traverse_grows n) _ _ _ hloop
    have hc0 : Closed E ({ g with vis := u :: g.vis } : graph T) :=
      fun x hx y hy => List.mem_cons_of_mem _ (hc x hx y hy)
    have hc2 : Closed E g2 :=
      visitEach_closed (traverse_grows n) ih (g.edgesOf u) { g with vis := u :: g.vis } g2
        he hc0 hloop
    intro x hx y hy
    rcases List.mem_append.1 hx with hx | hx
    · exact hc2 x hx y hy
    · rcases List.mem_singleton.1 hx with rfl
      refine hgr.roots_vis y ?_
      rw [← he] at hy
      exact (edge_iff g x y).1 hy

/-- On a graph on which no traversal has run, the list that `sort` returns holds every
successor of each of its elements. -/
theorem sortWith_closed (g : graph T) (cmp : T → T → Int) (n : Nat) (l : List T)
    (hvis : g.vis = []) (hstack : g.stack = []) (h : g.sortWith n cmp = some l) :
    ∀ x ∈ l, ∀ y, Edge g.edges x y → y ∈ l := by
  simp only [graph.sortWith, Option.map_eq_some'] at h
  obtain ⟨g2, h2, rfl⟩ := h
  have hgr := visitEach_grows (traverse_grows n) _ _ _ h2
  have hc : Closed g.edges g2 :=
    visitEach_closed (traverse_grows n) (traverse_closed n) _
      { g with vertices := sortStableFunc cmp g.vertices } g2 rfl
      (by intro x hx; simp [hstack] at hx) h2
  intro x hx y hy
  by_contra hny
  have := (hgr.gray_iff y).1 ⟨hc x hx y hy, hny⟩
  simp [hvis] at this

theorem edgesOf_addEdge_iff (g : graph T) (u v a b : T) :
    b ∈ (g.addEdge u v).edgesOf a ↔ b ∈ g.edgesOf a ∨ (a = u ∧ b = v) := by
  unfold graph.addEdge graph.edgesOf
  simp only [mapGet_mapSet]
  by_cases h : u = a
  · subst h
    simp
  · have h1 : ¬ a = u := fun e => h e.symm
    simp [h, h1]

theorem foldl_run_spec (ops : List (GraphOp T)) :
    ∀ (g : graph T),
      (∀ r, r ∈ (ops.foldl GraphOp.run g).vertices ↔
        r ∈ g.vertices ∨ GraphOp.addVertex r ∈ ops) ∧
      (∀ a b, b ∈ (ops.foldl GraphOp.run g).edgesOf a ↔
        b ∈ g.edgesOf a ∨ GraphOp.addEdge a b ∈ ops) := by
  induction ops with
  | nil => intro g; simp
  | cons op ops ih =>
    intro g
    obtain ⟨h1, h2⟩ := ih (op.run g)
    simp only [List.foldl_cons]
    constructor
    · intro r
      rw [h1 r]
      cases op with
      | addVertex u =>
        simp only [GraphOp.run, graph.addVertex, List.mem_append, List.mem_singleton,
          List.mem_cons, GraphOp.addVertex.injEq]
        tauto
      | addEdge u v =>
        simp only [GraphOp.run, graph.addEdge, List.mem_cons, reduceCtorEq, false_or]
    · intro a b
      rw [h2 a b]
      cases op with
      | addVertex u =>
        simp only [GraphOp.run, graph.addVertex, graph.edgesOf, List.mem_cons, reduceCtorEq,
          false_or]
      | addEdge u v =>
        simp only [GraphOp.run, edgesOf_addEdge_iff, List.mem_cons, GraphOp.addEdge.injEq]
        tauto

/-- The vertices and the edges of a graph built by calls are the added ones. -/
theorem buildGraph_spec (ops : List (GraphOp T)) :
    (∀ r, r ∈ (buildGraph ops).vertices ↔ GraphOp.addVertex r ∈ ops) ∧
    (∀ a b, Edge (buildGraph ops).edges a b ↔ GraphOp.addEdge a b ∈ ops) := by
  obtain ⟨h1, h2⟩ := foldl_run_spec ops (newGraph T)
  constructor
  · intro r
    rw [buildGraph, h1 r]
    simp [newGraph]
  · intro a b
    rw [edge_iff, buildGraph, h2 a b]
    simp [newGraph, graph.edgesOf, mapGet]

/-- C17: on a graph built from `newGraph` by calls of `addVertex` and `addEdge`, cyclic or
not, `sort` returns for every comparator a list without repetition whose elements are
exactly the keys reachable, along zero or more added edges, from an added vertex; so the
target of an added edge whose source is in the list is in the list, vertex or not. -/
theorem C17_sort_elements (ops : List (GraphOp T)) (cmp : T → T → Int) :
    ∃ l, (buildGraph ops).sort cmp = some l ∧ l.Nodup ∧
      (∀ x, x ∈ l ↔ ∃ r, GraphOp.addVertex r ∈ ops ∧
        Relation.ReflTransGen (fun u v => GraphOp.addEdge u v ∈ ops) r x) ∧
      (∀ u v, GraphOp.addEdge u v ∈ ops → u ∈ l → v ∈ l) := by
  obtain ⟨l, hl⟩ := sortWith_total (buildGraph ops) cmp (buildGraph ops).fuel (Nat.le_succ _)
  have hfresh := foldl_run_vis_stack ops (newGraph T)
  obtain ⟨hnd, hverts, hreach, _⟩ :=
    sortWith_spec (buildGraph ops) cmp _ l hfresh.1 hfresh.2 hl
  have hclosed := sortWith_closed (buildGraph ops) cmp _ l hfresh.1 hfresh.2 hl
  obtain ⟨hv, he⟩ := buildGraph_spec ops
  have hrel : Edge (buildGraph ops).edges = fun u v => GraphOp.addEdge u v ∈ ops := by
    funext a b
    exact propext (he a b)
  refine ⟨l, hl, hnd, ?_, ?_⟩
  · intro x
    constructor
    · intro hx
      obtain ⟨r, hr, hrx⟩ := hreach x hx
      exact ⟨r, (hv r).1 hr, by rw [← hrel]; exact hrx⟩
    · rintro ⟨r, hr, hrx⟩
      rw [← hrel] at hrx
      induction hrx with
      | refl => exact hverts r ((hv r).2 hr)
      | tail _ hbc ih => exact hclosed _ ih _ hbc
  · intro u v huv hu
    exact hclosed u hu v ((he u v).2 huv)

end Closure

/-! ## Repeated vertices and the order of the roots -/

theorem totalCmp_not_le {T : Type} {cmp : T → T → Int} (h : TotalCmp cmp) {a b : T} (hab : cmp a b < 0) :
    ¬ cmp b a ≤ 0 := by
  have := (h.1 a b).1 hab
  omega

theorem totalCmp_antisymm {T : Type} {cmp : T → T → Int} (h : TotalCmp cmp) {a b : T}
    (hab : cmp a b ≤ 0) (hba : cmp b a ≤ 0) : a = b := by
  apply (h.2.2 a b).1
  by_contra hne
  have hlt : cmp a b < 0 := by omega
  exact totalCmp_not_le h hlt hba

theorem totalCmp_total {T : Type} {cmp : T → T → Int} (h : TotalCmp cmp) (a b : T) :
    cmp a b ≤ 0 ∨ cmp b a ≤ 0 := by
  by_cases hab : cmp a b ≤ 0
  · exact Or.inl hab
  · right
    have h1 : 0 < cmp a b := by omega
    have := (h.1 b a).2 h1
    omega

/-- Under a total order `slices.SortStableFunc` returns a list in ascending order. -/
theorem sorted_sortStableFunc {T : Type} {cmp : T → T → Int} (h : TotalCmp cmp) (l : List T) :
    (sortStableFunc cmp l).Sorted (fun a b => cmp a b ≤ 0) := by
  haveI : IsTotal T (fun a b => cmp a b ≤ 0) := ⟨totalCmp_total h⟩
  haveI : IsTrans T (fun a b => cmp a b ≤ 0) := ⟨h.2.1⟩
  exact List.sorted_insertionSort _ l

section Roots
variable {T : Type} [DecidableEq T]

theorem mem_firstOccurrences (l : List T) (x : T) : x ∈ firstOccurrences l ↔ x ∈ l := by
  induction l with
  | nil => simp [firstOccurrences]
  | cons y ys ih =>
    simp only [firstOccurrences, List.mem_cons, List.mem_filter, ih, decide_eq_true_eq]
    by_cases h : x = y
    · simp [h]
    · simp [h]

theorem nodup_firstOccurrences (l : List T) : (firstOccurrences l).Nodup := by
  induction l with
  | nil => simp [firstOccurrences]
  | cons y ys ih =>
    simp only [firstOccurrences, List.nodup_cons, List.mem_filter, decide_eq_true_eq]
    exact ⟨fun h => h.2 rfl, ih.filter _⟩

theorem sublist_firstOccurrences (l : List T) : (firstOccurrences l).Sublist l := by
  induction l with
  | nil => simp [firstOccurrences]
  | cons y ys ih =>
    simp only [firstOccurrences]
    exact ((List.filter_sublist _).trans ih).cons₂ y

theorem firstOccurrences_of_nodup (l : List T) (h : l.Nodup) : firstOccurrences l = l := by
  induction l with
  | nil => rfl
  | cons y ys ih =>
    simp only [List.nodup_cons] at h
    simp only [firstOccurrences, ih h.2]
    congr 1
    apply List.filter_eq_self.2
    intro a ha
    simp only [decide_eq_true_eq]
    rintro rfl
    exact h.1 ha

/-- A key that is marked can be dropped from the keys ranged over. -/
theorem visitEach_filter_marked {f : graph T → T → Option (graph T)}
    (hm : ∀ g v g1, v ∉ g.vis → f g v = some g1 → Grows [v] g g1) (v : T) :
    ∀ (l : List T) (g : graph T), v ∈ g.vis →
      graph.visitEach f (l.filter (fun y => decide (y ≠ v))) g = graph.visitEach f l g := by
  intro l
  induction l with
  | nil => intro g _; rfl
  | cons x xs ih =>
    intro g hv
    by_cases hx : x = v
    · subst hx
      simp only [List.filter_cons, ne_eq, not_true_eq_false, decide_False, Bool.false_eq_true,
        if_false, graph.visitEach, hv, if_true]
      exact ih g hv
    · simp only [List.filter_cons, ne_eq, hx, not_false_eq_true, decide_True, if_true,
        graph.visitEach]
      by_cases hxv : x ∈ g.vis
      · simp only [hxv, if_true]
        exact ih g hv
      · simp only [hxv, if_false]
        cases hfx : f g x with
        | none => rfl
        | some g1 =>
          simp only [Option.some_bind]
          exact ih g1 ((hm g x g1 hxv hfx).vis_mono hv)

/-- The loop does the same on a list and on the list of its first occurrences. -/
theorem visitEach_firstOccurrences {f : graph T → T → Option (graph T)}
    (hm : ∀ g v g1, v ∉ g.vis → f g v = some g1 → Grows [v] g g1) :
    ∀ (l : List T) (g : graph T),
      graph.visitEach f (firstOccurrences l) g = graph.visitEach f l g := by
  intro l
  induction l with
  | nil => intro g; rfl
  | cons x xs ih =>
    intro g
    simp only [firstOccurrences, graph.visitEach]
    by_cases hxv : x ∈ g.vis
    · simp only [hxv, if_true]
      rw [visitEach_filter_marked hm x _ g hxv]
      exact ih g
    · simp only [hxv, if_false]
      cases hfx : f g x with
      | none => rfl
      | some g1 =>
        simp only [Option.some_bind]
        have hx1 : x ∈ g1.vis := (hm g x g1 hxv hfx).roots_vis x (List.mem_singleton_self x)
        rw [visitEach_filter_marked hm x _ g1 hx1]
        exact ih g1

theorem visitEach_append (f : graph T → T → Option (graph T)) (l1 l2 : List T) :
    ∀ (g : graph T), graph.visitEach f (l1 ++ l2) g =
      (graph.visitEach f l1 g).bind (graph.visitEach f l2) := by
  induction l1 with
  | nil => intro g; rfl
  | cons x xs ih =>
    intro g
    simp only [List.cons_append, graph.visitEach]
    by_cases hxv : x ∈ g.vis
    · simp only [hxv, if_true]
      exact ih g
    · simp only [hxv, if_false]
      cases f g x with
      | none => rfl
      | some g1 =>
        simp only [Option.some_bind]
        exact ih g1

/-- Under a total order the first occurrences of the sorted list depend on the elements
of the list only. -/
theorem firstOccurrences_sort_congr {cmp : T → T → Int} (h : TotalCmp cmp) {l1 l2 : List T}
    (hmem : ∀ x, x ∈ l1 ↔ x ∈ l2) :
    firstOccurrences (sortStableFunc cmp l1) = firstOccurrences (sortStableFunc cmp l2) := by
  haveI : IsAntisymm T (fun a b => cmp a b ≤ 0) := ⟨fun _ _ => totalCmp_antisymm h⟩
  refine List.eq_of_perm_of_sorted ?_
    ((sorted_sortStableFunc h l1).sublist (sublist_firstOccurrences _))
    ((sorted_sortStableFunc h l2).sublist (sublist_firstOccurrences _))
  refine (List.perm_ext_iff_of_nodup (nodup_firstOccurrences _) (nodup_firstOccurrences _)).2 ?_
  intro x
  simp only [mem_firstOccurrences, mem_sortStableFunc, hmem]

/-- C18: for every graph, every vertex `v` already added and every comparator of a total
order under which only equal keys compare as 0, `sort` returns after a second
`addVertex(v)` what it returns without it. -/
theorem C18_addVertex_idempotent (g : graph T) (v : T) (cmp : T → T → Int)
    (hcmp : TotalCmp cmp) (hv : v ∈ g.vertices) : (g.addVertex v).sort cmp = g.sort cmp := by
  obtain ⟨l, hl⟩ := sortWith_total g cmp g.fuel (Nat.le_succ _)
  have hl0 : g.sort cmp = some l := hl
  have hfuel : (g.addVertex v).fuel = g.fuel + 1 := by
    simp [graph.fuel, graph.addVertex]
    omega
  have h1 := sortWith_fuel_mono g cmp g.fuel (g.fuel + 1) l (Nat.le_succ _) hl
  rw [hl0]
  show (g.addVertex v).sortWith (g.addVertex v).fuel cmp = some l
  rw [hfuel]
  simp only [graph.sortWith, Option.map_eq_some'] at h1 ⊢
  obtain ⟨g2, h2, rfl⟩ := h1
  have hm := traverse_grows (T := T) (g.fuel + 1)
  have hmem : ∀ x, x ∈ g.vertices ↔ x ∈ (g.addVertex v).vertices := by
    intro x
    simp only [graph.addVertex, List.mem_append, List.mem_singleton]
    constructor
    · exact Or.inl
    · rintro (hx | rfl)
      · exact hx
      · exact hv
  rw [← visitEach_firstOccurrences hm, firstOccurrences_sort_congr hcmp hmem,
    visitEach_firstOccurrences hm] at h2
  have hs : SameRun ({ g with vertices := sortStableFunc cmp g.vertices } : graph T)
      { g.addVertex v with vertices := sortStableFunc cmp (g.addVertex v).vertices } :=
    ⟨fun _ => rfl, rfl, rfl⟩
  obtain ⟨h3, hh3, hs3⟩ :=
    visitEach_sameRun (traverse_sameRun (g.fuel + 1)) _ _ _ g2 hs h2
  exact ⟨h3, hh3, hs3.2.2.symm⟩

theorem natCmp_total : TotalCmp (fun a b : Nat => (a : Int) - b) := by
  refine ⟨?_, ?_, ?_⟩
  · intro a b
    dsimp only
    omega
  · intro a b c
    dsimp only
    omega
  · intro a b
    dsimp only
    omega

theorem C18_addVertex_idempotent_witness :
    TotalCmp (fun a b : Nat => (a : Int) - b) ∧
    2 ∈ (buildGraph [GraphOp.addVertex 2, .addVertex 1, .addEdge 1 2]).vertices ∧
    ((buildGraph [GraphOp.addVertex 2, .addVertex 1, .addEdge 1 2]).addVertex 2).sort
        (fun a b : Nat => (a : Int) - b) =
      (buildGraph [GraphOp.addVertex 2, .addVertex 1, .addEdge 1 2]).sort
        (fun a b : Nat => (a : Int) - b) :=
  ⟨natCmp_total, by decide,
   C18_addVertex_idempotent _ 2 _ natCmp_total (by decide)⟩

end Roots

/-! ## Graphs without edges, and the order among the roots -/

/-- The sorted list splits before the first occurrence of a key, with every smaller key
in the first part. -/
theorem sorted_split {T : Type} {cmp : T → T → Int} (h : TotalCmp cmp) {l : List T} {a b : T}
    (ha : a ∈ l) (hb : b ∈ l) (hab : cmp a b < 0) :
    ∃ l1 l2, sortStableFunc cmp l = l1 ++ b :: l2 ∧ a ∈ l1 ∧ b ∉ l1 := by
  obtain ⟨l1, l2, hl, hb1⟩ :=
    List.eq_append_cons_of_mem ((mem_sortStableFunc cmp l b).2 hb)
  refine ⟨l1, l2, hl, ?_, hb1⟩
  have ha1 : a ∈ l1 ++ b :: l2 := by rw [← hl]; exact (mem_sortStableFunc cmp l a).2 ha
  rcases List.mem_append.1 ha1 with h1 | h1
  · exact h1
  · exfalso
    have hs := sorted_sortStableFunc h l
    rw [hl] at hs
    have hs2 : (b :: l2).Pairwise (fun a b => cmp a b ≤ 0) := (List.pairwise_append.1 hs).2.1
    rcases List.mem_cons.1 h1 with rfl | h2
    · have := (h.2.2 a a).2 rfl
      omega
    · exact totalCmp_not_le h hab ((List.pairwise_cons.1 hs2).1 a h2)

section NoEdges
variable {T : Type} [DecidableEq T]

theorem traverse_no_edges (n : Nat) (g : graph T) (u : T) (h : g.edgesOf u = []) :
    graph.traverse (n + 1) g u = some { g with vis := u :: g.vis, stack := g.stack ++ [u] } := by
  simp only [graph.traverse, h, graph.visitEach, Option.map_some']

theorem visitEach_no_edges (n : Nat) :
    ∀ (vs : List T) (g : graph T), (∀ a, g.edgesOf a = []) → vs.Nodup →
      (∀ x ∈ vs, x ∉ g.vis) →
      ∃ g2, graph.visitEach (graph.traverse (n + 1)) vs g = some g2 ∧
        g2.stack = g.stack ++ vs := by
  intro vs
  induction vs with
  | nil => intro g _ _ _; exact ⟨g, rfl, by simp⟩
  | cons x xs ih =>
    intro g he hnd hfresh
    simp only [List.nodup_cons] at hnd
    have hx : x ∉ g.vis := hfresh x (List.mem_cons_self _ _)
    simp only [graph.visitEach, hx, if_false, traverse_no_edges n g x (he x), Option.some_bind]
    obtain ⟨g2, h2, hs2⟩ := ih { g with vis := x :: g.vis, stack := g.stack ++ [x] } he hnd.2
      (by
        intro y hy hyv
        rcases List.mem_cons.1 hyv with rfl | hyv
        · exact hnd.1 hy
        · exact hfresh y (List.mem_cons_of_mem _ hy) hyv)
    exact ⟨g2, h2, by rw [hs2]; simp⟩

/-- On a graph without edges on which no traversal has run, `sort` returns the first
occurrences of the sorted vertices. -/
theorem sort_no_edges (g : graph T) (cmp : T → T → Int) (he : ∀ a, g.edgesOf a = [])
    (hvis : g.vis = []) (hstack : g.stack = []) :
    g.sort cmp = some (firstOccurrences (sortStableFunc cmp g.vertices)) := by
  have hfuel : g.fuel = (g.fuel - 1) + 1 := by
    simp [graph.fuel]
  unfold graph.sort
  rw [hfuel]
  obtain ⟨g2, h2, hs2⟩ := visitEach_no_edges (g.fuel - 1)
    (firstOccurrences (sortStableFunc cmp g.vertices))
    { g with vertices := sortStableFunc cmp g.vertices } he (nodup_firstOccurrences _)
    (by intro x _; simp [hvis])
  rw [visitEach_firstOccurrences (traverse_grows _)] at h2
  simp only [graph.sortWith]
  rw [h2]
  simp only [Option.map_some', hs2, hstack, List.nil_append]

theorem strictly_sorted_firstOccurrences {cmp : T → T → Int} (h : TotalCmp cmp) (l : List T) :
    (firstOccurrences (sortStableFunc cmp l)).Sorted (fun a b => cmp a b < 0) := by
  have h1 : (firstOccurrences (sortStableFunc cmp l)).Pairwise (fun a b => cmp a b ≤ 0) :=
    (sorted_sortStableFunc h l).sublist (sublist_firstOccurrences _)
  have h2 : (firstOccurrences (sortStableFunc cmp l)).Pairwise (fun a b => a ≠ b) :=
    nodup_firstOccurrences _
  refine (h1.and h2).imp ?_
  rintro a b ⟨hle, hne⟩
  have : cmp a b ≠ 0 := fun h0 => hne ((h.2.2 a b).1 h0)
  omega

/-- In the list that `sort` returns, a vertex that is the target of no edge stands after
every key that the sorted vertices hold before its first occurrence. -/
theorem sortWith_root_after (g : graph T) (cmp : T → T → Int) (n : Nat) (l : List T)
    (hvis : g.vis = []) (hstack : g.stack = []) (h : g.sortWith n cmp = some l)
    {l1 l2 : List T} {a b : T} (hsplit : sortStableFunc cmp g.vertices = l1 ++ b :: l2)
    (ha : a ∈ l1) (hb1 : b ∉ l1) (hnt : ∀ u, ¬ Edge g.edges u b) :
    ∀ (i j : Nat), l[i]? = some a → l[j]? = some b → i < j := by
  have hnd := (sortWith_spec g cmp n l hvis hstack h).1
  simp only [graph.sortWith, Option.map_eq_some'] at h
  obtain ⟨g2, h2, rfl⟩ := h
  rw [hsplit, visitEach_append] at h2
  cases h1 : graph.visitEach (graph.traverse n) l1
      ({ g with vertices := l1 ++ b :: l2 } : graph T) with
  | none => simp [h1] at h2
  | some g1 =>
    simp only [h1, Option.some_bind] at h2
    have hgr1 := visitEach_grows (traverse_grows n) _ _ _ h1
    have hgr2 := visitEach_grows (traverse_grows n) _ _ _ h2
    have ha1 : a ∈ g1.stack := by
      by_contra hc
      have := (hgr1.gray_iff a).1 ⟨hgr1.roots_vis a ha, hc⟩
      simp [hvis] at this
    have hbn : b ∉ g1.stack := by
      obtain ⟨_, _, ns, ms, hs, _, _, _, _, hreach, _⟩ := hgr1
      intro hb
      rw [hs] at hb
      simp only [hstack, List.nil_append] at hb
      obtain ⟨r, hr, hrb⟩ := hreach b hb
      rcases Relation.ReflTransGen.cases_tail hrb with heq | ⟨c, _, hcb⟩
      · exact hb1 (by rw [heq]; exact hr)
      · exact hnt c hcb
    obtain ⟨_, _, ns2, _, hs2, _⟩ := hgr2
    intro i j hi hj
    rw [hs2] at hi hj hnd
    obtain ⟨i1, hi1⟩ := List.mem_iff_getElem?.1 ha1
    have hi1lt : i1 < g1.stack.length := by
      by_contra hc
      rw [List.getElem?_eq_none (Nat.le_of_not_lt hc)] at hi1
      cases hi1
    have hi1' : (g1.stack ++ ns2)[i1]? = some a := by
      rw [List.getElem?_append_left hi1lt]; exact hi1
    have hii : i1 = i :=
      List.getElem?_inj (by simp only [List.length_append]; omega) hnd (hi1'.trans hi.symm)
    by_contra hij
    have hjlt : j < g1.stack.length := by omega
    rw [List.getElem?_append_left hjlt] at hj
    exact hbn (List.mem_iff_getElem?.2 ⟨j, hj⟩)

end NoEdges

theorem cmpCompare_lt_iff (a b : String) : cmpCompare a b < 0 ↔ a < b := by
  rw [String.lt_iff_toList_lt]
  unfold cmpCompare
  by_cases h1 : a.toList < b.toList
  · simp only [h1, if_true]
    exact ⟨fun _ => trivial, fun _ => by decide⟩
  · by_cases h2 : b.toList < a.toList
    · simp only [h1, h2, if_true, if_false]
      exact ⟨fun h => absurd h (by decide), fun h => absurd h id⟩
    · simp only [h1, h2, if_false]
      exact ⟨fun h => absurd h (by decide), fun h => absurd h id⟩

/-- The comparator `cmp.Compare` on strings is one of a total order under which only
equal strings compare as 0. -/
theorem cmpCompare_total : TotalCmp cmpCompare := by
  have hgt : ∀ a b : String, 0 < cmpCompare a b ↔ b < a := by
    intro a b
    rw [String.lt_iff_toList_lt]
    unfold cmpCompare
    by_cases h1 : a.toList < b.toList
    · simp only [h1, if_true]
      exact ⟨fun h => absurd h (by decide), fun h => absurd h (lt_asymm h1)⟩
    · by_cases h2 : b.toList < a.toList
      · simp only [h1, h2, if_true, if_false]
        exact ⟨fun _ => trivial, fun _ => by decide⟩
      · simp only [h1, h2, if_false]
        exact ⟨fun h => absurd h (by decide), fun h => absurd h id⟩
  refine ⟨?_, ?_, ?_⟩
  · intro a b
    rw [cmpCompare_lt_iff, hgt]
  · intro a b c
    simp only [cmpCompare_le_iff]
    exact le_trans
  · intro a b
    constructor
    · intro h0
      have h1 : ¬ a < b := fun h => by
        have := (cmpCompare_lt_iff a b).2 h
        omega
      have h2 : ¬ b < a := fun h => by
        have := (hgt a b).2 h
        omega
      exact le_antisymm (not_lt.1 h2) (not_lt.1 h1)
    · rintro rfl
      unfold cmpCompare
      simp

/-- The produced identities of the services of a returned model are the keys that `sort`
returned, in the same order. -/
theorem services_ids {pkgName : String} {l : List (String × Option ProvType)}
    {order : RangeOrder} {d : tmplData} (h : genData pkgName l order = .ok d) :
    ∃ st, registerAll Registry.init l = .ok st ∧
      st.g.sort cmpCompare = some (d.Services.map (fun s => stringifyType s.Typ)) ∧
      ∀ s ∈ d.Services, stringifyType s.Typ ∈ ids l := by
  obtain ⟨st, topoOrd, h1, h3, hf⟩ := genData_model h
  have hkey : ∀ t s, (∃ svc, mapGet st.svcs t = some svc ∧
      resolveDeps st.svcs svc svc.dependencies = .ok s) → stringifyType s.Typ = t := by
    rintro t s ⟨svc, hsvc, hres⟩
    obtain ⟨n, tt, o, _, _, hot, rfl⟩ := registry_entry h1 hsvc
    rw [(resolveDeps_fields hres).2.1]
    exact hot
  have hmap : d.Services.map (fun s => stringifyType s.Typ) = topoOrd.map (fun t => t) :=
    forall₂_keys hf hkey
  rw [List.map_id'] at hmap
  refine ⟨st, h1, by rw [hmap]; exact h3, ?_⟩
  intro s hs
  obtain ⟨t, _, svc, hsvc, hres⟩ := forall₂_mem_right hf s hs
  obtain ⟨n, tt, o, hmem, ho, hot, rfl⟩ := registry_entry h1 hsvc
  rw [(resolveDeps_fields hres).2.1]
  exact (mem_ids l _).2 ⟨(n, some tt), hmem, by simp [producedId, ho, svcOf]⟩


/-- C19: on a graph built from `newGraph` by calls of `addVertex` only, `sort` returns, for
every comparator of a total order under which only equal keys compare as 0, the added
vertices in strictly ascending order, each once; and in a model that `genData` returns for
a map in which no provider has a parameter, the produced type identities of the services
ascend strictly in lexical order. -/
theorem C19_no_edges_ascending {T : Type} [DecidableEq T] (ops : List (GraphOp T))
    (cmp : T → T → Int) (pkgName : String) (l : List (String × Option ProvType))
    (order : RangeOrder) (d : tmplData) :
    (TotalCmp cmp → (∀ u v, GraphOp.addEdge u v ∉ ops) →
      ∃ sorted, (buildGraph ops).sort cmp = some sorted ∧
        sorted.Sorted (fun a b => cmp a b < 0) ∧
        ∀ x, x ∈ sorted ↔ GraphOp.addVertex x ∈ ops) ∧
    ((∀ e ∈ l, paramIds e.2 = []) → genData pkgName l order = .ok d →
      (d.Services.map (fun s => stringifyType s.Typ)).Sorted (fun a b => a < b)) := by
  constructor
  · intro hcmp hno
    obtain ⟨hv, he⟩ := buildGraph_spec ops
    have hfresh := foldl_run_vis_stack ops (newGraph T)
    have hnone : ∀ a, (buildGraph ops).edgesOf a = [] := by
      intro a
      apply List.eq_nil_iff_forall_not_mem.2
      intro b hb
      exact hno a b ((he a b).1 ((edge_iff _ a b).2 hb))
    refine ⟨_, sort_no_edges (buildGraph ops) cmp hnone hfresh.1 hfresh.2,
      strictly_sorted_firstOccurrences hcmp _, ?_⟩
    intro x
    rw [mem_firstOccurrences, mem_sortStableFunc, hv x]
  · intro hno h
    obtain ⟨st, h1, hsort, _⟩ := services_ids h
    have hinit := init_registerAll h1
    have hnone : ∀ a, st.g.edgesOf a = [] := by
      intro a
      rw [hinit.2.2.2.2.1 a]
      apply List.eq_nil_iff_forall_not_mem.2
      intro b hb
      obtain ⟨e, he, _, hbe⟩ := (mem_depsFor l a b).1 hb
      rw [hno e he] at hbe
      simp at hbe
    rw [sort_no_edges st.g cmpCompare hnone hinit.2.2.1 hinit.2.2.2.1] at hsort
    simp only [Option.some.injEq] at hsort
    rw [← hsort]
    refine (strictly_sorted_firstOccurrences cmpCompare_total _).imp ?_
    intro a b hab
    exact (cmpCompare_lt_iff a b).1 hab

theorem C19_no_edges_ascending_witness :
    (TotalCmp (fun a b : Nat => (a : Int) - b) ∧
      (∀ u v, GraphOp.addEdge u v ∉ [GraphOp.addVertex 2, .addVertex 1, .addVertex 2]) ∧
      ∃ sorted, (buildGraph [GraphOp.addVertex 2, .addVertex 1, .addVertex 2]).sort
          (fun a b : Nat => (a : Int) - b) = some sorted ∧
        sorted.Sorted (fun a b : Nat => (a : Int) - b < 0) ∧
        ∀ x, x ∈ sorted ↔ GraphOp.addVertex x ∈ [GraphOp.addVertex 2, .addVertex 1, .addVertex 2]) ∧
    ((∀ e ∈ mapZM, paramIds e.2 = []) ∧
      genData "di" mapZM RangeOrder.insertion = .ok modelMZ ∧
      (modelMZ.Services.map (fun s => stringifyType s.Typ)).Sorted (fun a b => a < b)) :=
  ⟨⟨natCmp_total, by simp,
    (C19_no_edges_ascending [GraphOp.addVertex 2, .addVertex 1, .addVertex 2]
      (fun a b : Nat => (a : Int) - b) "di" mapZM RangeOrder.insertion modelMZ).1
      natCmp_total (by simp)⟩,
   ⟨by decide, by decide,
    (C19_no_edges_ascending [GraphOp.addVertex 2, .addVertex 1, .addVertex 2]
      (fun a b : Nat => (a : Int) - b) "di" mapZM RangeOrder.insertion modelMZ).2
      (by decide) (by decide)⟩⟩

/-- C11 (as amended): in a model that `genData` returns, a service whose produced type
identity is lexically smaller than that of a second service stands before the second,
provided that no provider of the map takes a parameter of the type that the second
produces; this covers two providers without parameters. -/
theorem C11_order_of_untaken_services (pkgName : String)
    (l : List (String × Option ProvType)) (order : RangeOrder) (d : tmplData)
    (h : genData pkgName l order = .ok d) :
    ∀ (i j : Nat) (s1 s2 : serviceDef), d.Services[i]? = some s1 → d.Services[j]? = some s2 →
      stringifyType s1.Typ < stringifyType s2.Typ →
      (∀ e ∈ l, stringifyType s2.Typ ∉ paramIds e.2) → i < j := by
  obtain ⟨st, h1, hsort, hids⟩ := services_ids h
  have hinit := init_registerAll h1
  intro i j s1 s2 hi hj hlt hnot
  have hv1 : stringifyType s1.Typ ∈ st.g.vertices := by
    rw [hinit.2.1]; exact hids s1 (List.mem_iff_getElem?.2 ⟨i, hi⟩)
  have hv2 : stringifyType s2.Typ ∈ st.g.vertices := by
    rw [hinit.2.1]; exact hids s2 (List.mem_iff_getElem?.2 ⟨j, hj⟩)
  obtain ⟨l1, l2, hsplit, ha, hb1⟩ :=
    sorted_split cmpCompare_total hv1 hv2 ((cmpCompare_lt_iff _ _).2 hlt)
  refine sortWith_root_after st.g cmpCompare st.g.fuel _ hinit.2.2.1 hinit.2.2.2.1 hsort
    hsplit ha hb1 ?_ i j ?_ ?_
  · intro u hu
    obtain ⟨e, he, _, hbe⟩ := (edge_iff_dep h1 u _).1 hu
    exact hnot e he hbe
  · simp [List.getElem?_map, hi]
  · simp [List.getElem?_map, hj]

theorem C11_order_of_untaken_services_witness :
    genData "di" mapAMZ RangeOrder.insertion = .ok modelAMZ ∧
    modelAMZ.Services[1]? = some svcA ∧ modelAMZ.Services[2]? = some svcM ∧
    stringifyType svcA.Typ < stringifyType svcM.Typ ∧
    (∀ e ∈ mapAMZ, stringifyType svcM.Typ ∉ paramIds e.2) ∧ 1 < 2 :=
  ⟨by decide, rfl, rfl, String.lt_iff_toList_lt.2 (by decide), by decide,
   C11_order_of_untaken_services "di" mapAMZ RangeOrder.insertion modelAMZ (by decide) 1 2
     svcA svcM rfl rfl (String.lt_iff_toList_lt.2 (by decide)) (by decide)⟩

/-- C11, counterexample: in the map `{"A": func(*p.Z) *p.X, "M": func() *p.Y,
"Z": func() *p.Z}` the providers `M` and `Z` declare no parameter and the identity
"*ex/p.Y" of `M` is lexically smaller than the identity "*ex/p.Z" of `Z`; in the model
that `genData` returns `Z` stands at index 0 and `M` at index 2. -/
theorem C11_counterexample :
    genData "di" mapAMZ RangeOrder.insertion = .ok modelAMZ ∧
    ("M", funcOf [] [ptrY]) ∈ mapAMZ ∧ ("Z", funcOf [] [ptrZ]) ∈ mapAMZ ∧
    modelAMZ.Services[2]? = some svcM ∧ modelAMZ.Services[0]? = some svcZ ∧
    stringifyType svcM.Typ = "*ex/p.Y" ∧ stringifyType svcZ.Typ = "*ex/p.Z" ∧
    "*ex/p.Y".toList < "*ex/p.Z".toList := by
  decide

end Bubble
